import Mathlib

/-!
Shallow embedding of the duplicate-destroyer duplicate-discovery engine
(`src/duplicate_object.rs`, `src/duplicate_table.rs`, `src/dir_tree.rs`,
`src/lib.rs`) together with theorems settling the frozen claims about it.

Modelling conventions:
* `OsString` is modelled by `OsStr`: a string together with a validity flag
  (`valid = false` models a byte sequence that is not valid UTF-8; the
  engine itself only ever compares paths for equality, so the flag is inert
  everywhere except in `DuplicateObject.contained`, which calls `to_str`).
* Rust `HashSet` values are modelled by lists with set-style membership;
  all theorems about them are stated via `∈` so that the arbitrary
  iteration order of a hash set is never relied upon, except where the
  source's behaviour genuinely depends on an iteration order (noted at the
  definition).
* Panics (`expect`, `unwrap`, explicit `panic!` in the source) are modelled
  by `Option`/`Except`: a `none`/`error` result is a run that panicked.
* `u64` quantities are modelled by `Nat`; no arithmetic in the modelled
  code can overflow 64 bits for realistic file sizes and none of the
  claims concerns wrap-around, and no subtraction occurs.
-/

namespace DuDe

/-! ### OsString model -/

/-- Model of `std::ffi::OsString`: the payload string plus a flag telling
whether the byte sequence is valid UTF-8.  `to_str` succeeds iff `valid`. -/
structure OsStr where
  valid : Bool
  str : String
deriving DecidableEq, Repr

/-- Model of `OsStr::to_str`, which returns `None` on non-UTF-8 data. -/
def OsStr.toStr? (s : OsStr) : Option String :=
  if s.valid then some s.str else none

/-- Convenience constructor for a valid-UTF-8 path. -/
def os (s : String) : OsStr := ⟨true, s⟩

/-- Whether `needle` occurs as a contiguous substring of `hay`; this models
`str::contains` for `&str` patterns (UTF-8 is self-synchronising, so byte
level substring search on valid UTF-8 coincides with character-level
infix). -/
def strContains (hay needle : String) : Bool :=
  decide (needle.toList <:+: hay.toList)

/-! ### DuplicateObject (`src/duplicate_object.rs`) -/

/-- Model of `ContEnum`. -/
inductive ContEnum where
  | isContained
  | notRelated
  | contains
deriving DecidableEq, Repr

/-- Model of `DuplicateObject`: set of duplicate paths in the group plus the
size of one element.  The `HashSet<OsString>` is modelled as a list; the
set-equality semantics of the Rust `==` is captured by `DuplicateObject.eqv`
below. -/
structure DuplicateObject where
  duplicates : List OsStr
  size : Nat
deriving DecidableEq, Repr

/-- Set-equality of the two path lists: same members, ignoring order and
multiplicity.  This is exactly the derived `PartialEq` of Rust's
`HashSet<OsString>`. -/
def pathSetEq (a b : List OsStr) : Bool :=
  decide ((∀ x ∈ a, x ∈ b) ∧ ∀ x ∈ b, x ∈ a)

/-- Model of the derived `PartialEq` on `DuplicateObject`: field-wise
comparison, i.e. the path sets must be equal AND the sizes must be equal. -/
def DuplicateObject.eqv (a b : DuplicateObject) : Bool :=
  pathSetEq a.duplicates b.duplicates && a.size == b.size

/-- Loop body of `DuplicateObject::contained`: iterate over the member
paths; for each, `to_str().expect(..)` both the member and the query path
(a `none` models the panic), then test the two substring relations. -/
def containedLoop (p : OsStr) : List OsStr → Option ContEnum
  | [] => some .notRelated
  | doPath :: rest =>
    match doPath.toStr? with
    | none => none
    | some doStrPath =>
      match p.toStr? with
      | none => none
      | some strPath =>
        if strContains strPath doStrPath then some .isContained
        else if strContains doStrPath strPath then some .contains
        else containedLoop p rest

/-- Model of `DuplicateObject::contained`.  The source iterates over a
`HashSet` in unspecified order; the model iterates over the list in order.
A `none` result models the `expect` panic on non-UTF-8 data. -/
def DuplicateObject.contained (d : DuplicateObject) (path : OsStr) : Option ContEnum :=
  containedLoop path d.duplicates

/-! ### DuplicateTable (`src/duplicate_table.rs`) -/

/-- Model of `TableData` (`src/dir_tree.rs`): the registration stored in the
duplicate table, identifying the file node. -/
structure TableData where
  path : OsStr
  node_id : Nat
deriving DecidableEq, Repr

/-- Model of `DTEntry`: the value stored under a partial-checksum key,
either a single registration or a map from full checksum to the vector of
registrations with that checksum (the `HashMap` is an association list). -/
inductive DTEntry where
  | single (data : TableData)
  | multiple (hashes : List (String × List TableData))
deriving DecidableEq, Repr

/-- Association-list lookup, modelling `HashMap::get`. -/
def alGet {β : Type} (k : String) : List (String × β) → Option β
  | [] => none
  | p :: rest => if p.1 = k then some p.2 else alGet k rest

/-- Association-list insert/replace, modelling `HashMap::insert` (the old
binding, if any, is replaced; a fresh key is appended). -/
def alPut {β : Type} (k : String) (v : β) : List (String × β) → List (String × β)
  | [] => [(k, v)]
  | p :: rest => if p.1 = k then (k, v) :: rest else p :: alPut k v rest

/-- Model of `DuplicateTable` in the synchronous (`num_threads = 0`) run
that the engine claims concern: just the table map. -/
structure DuplicateTable where
  table : List (String × DTEntry)
deriving DecidableEq, Repr

/-- Model of `DuplicateTable::get_duplicates`.  Returns the registrations
sharing the full checksum with `entry` (minus `entry` itself), or an error
in the three failure situations of the source. -/
def DuplicateTable.get_duplicates (t : DuplicateTable) (part_checksum : String)
    (entry : TableData) : Except String (List TableData) :=
  match alGet part_checksum t.table with
  | none => .error "There is no entry with the specified partial checksum"
  | some (.single data) =>
    if data = entry then .ok []
    else .error "There is unexpected data at part_checksum"
  | some (.multiple hashes) =>
    match (hashes.map Prod.snd).find? (fun dups => decide (entry ∈ dups)) with
    | some dups => .ok (dups.filter (fun x => x ≠ entry))
    | none => .error "Could not find specified entry in MultipleEntries"

/-! ### The directory tree (`src/dir_tree.rs`)

The `id_tree::Tree<RefCell<NodeType>>` built by `create_subtree` is a
forest of rose trees below a synthetic root.  The tree shape, paths and
file sizes are fixed at ingest time; the mutable per-node state
(duplicate sets, dir sizes, containment tags) is modelled by explicit
state maps keyed by node id.  The two checksums of a file are computed by
the engine from the file's content; the model carries them as functions
of the path (`HashFns`), faithful to the fact that `blake2_partial` and
`get_checksum` read the file at a path. -/

/-- The immutable payload of a `NodeType::File` node. -/
structure FileData where
  id : Nat
  path : OsStr
  size : Nat
deriving DecidableEq, Repr

mutual
/-- A node of the directory tree with its whole subtree: the four
`NodeType` variants.  Only `Dir` nodes have children (ingest never
descends into the other kinds). -/
inductive RTree where
  | file (d : FileData)
  | dir (id : Nat) (path : OsStr) (children : RForest)
  | symlink (id : Nat) (path : OsStr)
  | inaccessible (id : Nat) (path : OsStr)
deriving DecidableEq

/-- The ordered children of a `Dir` node, or the list of trees below the
synthetic root. -/
inductive RForest where
  | nil
  | cons (t : RTree) (ts : RForest)
deriving DecidableEq
end

/-- The checksum functions of the run: partial (first-1024-bytes) and full
digest of the file stored at a path, modelling `blake2_partial` and
`get_checksum`. -/
structure HashFns where
  pdig : OsStr → String
  fdig : OsStr → String

/-- Node id of the root node of a subtree. -/
def RTree.nodeId : RTree → Nat
  | .file d => d.id
  | .dir i _ _ => i
  | .symlink i _ => i
  | .inaccessible i _ => i

/-- Path of the root node of a subtree. -/
def RTree.pathOf : RTree → OsStr
  | .file d => d.path
  | .dir _ p _ => p
  | .symlink _ p => p
  | .inaccessible _ p => p

/-- Whether the node is a `File` or a `Dir` (the kinds that carry a
duplicate set). -/
def RTree.isFileOrDir : RTree → Bool
  | .file _ => true
  | .dir _ _ _ => true
  | _ => false

/-- Whether the node is a `Dir`. -/
def RTree.isDir : RTree → Bool
  | .dir _ _ _ => true
  | _ => false

/-- The children subtrees of the node as a list (empty for non-`Dir`). -/
def RForest.toList : RForest → List RTree
  | .nil => []
  | .cons t ts => t :: ts.toList

/-- The children subtrees of the node as a list (empty for non-`Dir`). -/
def RTree.childList : RTree → List RTree
  | .dir _ _ cs => cs.toList
  | _ => []

mutual
/-- All nodes of a subtree in post-order (children before the node),
modelling `traverse_post_order_ids`. -/
def RTree.postNodes : RTree → List RTree
  | .file d => [.file d]
  | .dir i p cs => cs.postNodes ++ [.dir i p cs]
  | .symlink i p => [.symlink i p]
  | .inaccessible i p => [.inaccessible i p]

/-- Post-order concatenation over a forest (the source traverses the root
trees one after the other). -/
def RForest.postNodes : RForest → List RTree
  | .nil => []
  | .cons t ts => t.postNodes ++ ts.postNodes
end

/-- All node ids of a forest in post-order. -/
def RForest.allIds (F : RForest) : List Nat := F.postNodes.map RTree.nodeId

mutual
/-- The `File` payloads of a subtree in pre-order: the order in which
`create_subtree` registers files in the duplicate table. -/
def RTree.filesPre : RTree → List FileData
  | .file d => [d]
  | .dir _ _ cs => cs.filesPre
  | .symlink _ _ => []
  | .inaccessible _ _ => []

/-- Pre-order file payloads of a forest. -/
def RForest.filesPre : RForest → List FileData
  | .nil => []
  | .cons t ts => t.filesPre ++ ts.filesPre
end

mutual
/-- Find the node with a given id (first match in pre-order), modelling
`Tree::get` by a `NodeId`. -/
def RTree.findNode (i : Nat) : RTree → Option RTree
  | .file d => if d.id = i then some (.file d) else none
  | .dir j p cs => if j = i then some (.dir j p cs) else cs.findNode i
  | .symlink j p => if j = i then some (.symlink j p) else none
  | .inaccessible j p => if j = i then some (.inaccessible j p) else none

/-- Find a node by id in a forest. -/
def RForest.findNode (i : Nat) : RForest → Option RTree
  | .nil => none
  | .cons t ts =>
    match t.findNode i with
    | some r => some r
    | none => ts.findNode i
end

mutual
/-- The strict ancestors of node `i` inside one tree, nearest first,
excluding the synthetic root (which is not part of the model forest);
`none` when `i` does not occur in the tree. -/
def RTree.ancChain (i : Nat) : RTree → Option (List Nat)
  | .file d => if d.id = i then some [] else none
  | .dir j p cs => if j = i then some [] else (cs.ancChain i).map (fun l => l ++ [j])
  | .symlink j p => if j = i then some [] else none
  | .inaccessible j p => if j = i then some [] else none

/-- Ancestor chain of a node inside a forest. -/
def RForest.ancChain (i : Nat) : RForest → Option (List Nat)
  | .nil => none
  | .cons t ts =>
    match t.ancChain i with
    | some l => some l
    | none => ts.ancChain i
end

/-- The strict ancestors of node `i` (nearest first, synthetic root
excluded), modelling `ancestor_ids` composed with the root filter of
`set_parents_of_duplicate`. -/
def RForest.ancestorIds (F : RForest) (i : Nat) : List Nat := (F.ancChain i).getD []

/-- Model of `get_parent_table_data`: the parent of node `i`, or `none`
when the parent is the synthetic root (or `i` is not in the forest — the
source panics there; pass 1 only queries ids produced by the table, which
are forest ids). -/
def RForest.parentIn (F : RForest) (i : Nat) : Option Nat := (F.ancChain i).bind List.head?

/-- The ids of the strict descendants of the root of a subtree. -/
def RTree.strictDescIds : RTree → List Nat
  | .dir _ _ cs => cs.postNodes.map RTree.nodeId
  | _ => []

/-- Whether node `b` lies strictly below node `a` in the forest. -/
def RForest.strictBelow (F : RForest) (a b : Nat) : Bool :=
  match F.findNode a with
  | some t => decide (b ∈ t.strictDescIds)
  | none => false

/-- Point update of a state map. -/
def upd {α : Type} (f : Nat → α) (i : Nat) (v : α) : Nat → α :=
  fun j => if j = i then v else f j

/-! ### Ingest into the duplicate table (`create_subtree` + `register_item`) -/

/-- The registration of a file in the duplicate table. -/
def tdOf (f : FileData) : TableData := ⟨f.path, f.id⟩

/-- Append an entry to the bucket of key `ck` in a full-checksum map
(fresh keys go to the end, like `HashMap::insert` on the model's
association list). -/
def bucketsAdd (me : List (String × List TableData)) (ck : String) (entry : TableData) :
    List (String × List TableData) :=
  match alGet ck me with
  | some v => alPut ck (v ++ [entry]) me
  | none => alPut ck [entry] me

/-- Model of `add_to_mult_entries` (synchronous run): add an entry with
known full checksum to the `Multiple` slot of `pc`.  The source panics if
the slot is not `Multiple`; the model leaves the table unchanged there — a
dead branch, since `register_item` only calls it right after installing a
`Multiple` slot (see `alGet_buildTableGo`). -/
def addToMultEntries (tbl : List (String × DTEntry)) (pc ck : String) (entry : TableData) :
    List (String × DTEntry) :=
  match alGet pc tbl with
  | some (.multiple me) => alPut pc (.multiple (bucketsAdd me ck entry)) tbl
  | _ => tbl

/-- Model of `register_item` in the synchronous (`num_threads = 0`) run:
`add_item` computes the full checksum of the entry's path with
`get_checksum` and merges immediately. -/
def registerItem (hf : HashFns) (tbl : List (String × DTEntry)) (f : FileData) :
    List (String × DTEntry) :=
  let pc := hf.pdig f.path
  match alGet pc tbl with
  | some (.single se) =>
    let tbl1 := alPut pc (.multiple []) tbl
    let tbl2 := addToMultEntries tbl1 pc (hf.fdig se.path) se
    addToMultEntries tbl2 pc (hf.fdig f.path) (tdOf f)
  | some (.multiple _) => addToMultEntries tbl pc (hf.fdig f.path) (tdOf f)
  | none => alPut pc (.single (tdOf f)) tbl

/-- The duplicate table after ingesting a forest: every file registered in
pre-order, as `create_subtree` does. -/
def buildTable (hf : HashFns) (F : RForest) : DuplicateTable :=
  ⟨F.filesPre.foldl (registerItem hf) []⟩

/-! ### Equivalence pass 1 (`find_duplicates`, first loop) -/

/-- The per-node duplicate sets (`HashSet<NodeId>` per node, as lists). -/
def DuplState : Type := Nat → List Nat

/-- Model of `NodeType::duplicates` under a duplicate-set state: `Some`
for `File` and `Dir` nodes, `None` otherwise. -/
def nodeDups (st : DuplState) : RTree → Option (List Nat)
  | .file d => some (st d.id)
  | .dir i _ _ => some (st i)
  | _ => none

/-- The parent handles of the members of `hs` (synthetic-root parents are
dropped): `hs.iter().filter_map(|x| self.get_parent_table_data(x))`. -/
def childParentSet (F : RForest) (hs : List Nat) : List Nat := hs.filterMap F.parentIn

/-- Intersection loop of `get_possible_dupl_for_dirs` over the remaining
children: `result.retain(|x| parent_duplicates.contains(x))`, with the two
early-return cases of the source. -/
def gpdGo (F : RForest) (st : DuplState) (i : Nat) :
    List RTree → List Nat → Option (List Nat)
  | [], acc => some (acc.filter (fun x => x ≠ i))
  | c :: rest, acc =>
    match nodeDups st c with
    | none => none
    | some hs =>
      if hs = [] then none
      else gpdGo F st i rest (acc.filter (fun x => x ∈ childParentSet F hs))

/-- Model of `get_possible_dupl_for_dirs`: `some r` means the node's
duplicate set is overwritten with `r`; `none` models the early `return`s
(first child inaccessible/symlink or with empty duplicates, or no
children), which leave the node's set unchanged. -/
def getPossibleDupl (F : RForest) (st : DuplState) (i : Nat) (cs : List RTree) :
    Option (List Nat) :=
  match cs with
  | [] => none
  | c :: rest =>
    match nodeDups st c with
    | none => none
    | some hs =>
      if hs = [] then none
      else gpdGo F st i rest (childParentSet F hs)

/-- One step of the first `find_duplicates` loop at one node.  For a file,
`add_duplicates_to_file_entry` queries the table and stores the node ids
of the result; the source panics on a query error — a dead branch for the
table built from the same forest (see `getDuplicates_buildTable_ok`), so
the model leaves the state unchanged there. -/
def pass1Step (hf : HashFns) (F : RForest) (tbl : DuplicateTable)
    (st : DuplState) (t : RTree) : DuplState :=
  match t with
  | .file d =>
    match tbl.get_duplicates (hf.pdig d.path) (tdOf d) with
    | .ok l => upd st d.id (l.map TableData.node_id)
    | .error _ => st
  | .dir i _ cs =>
    match getPossibleDupl F st i cs.toList with
    | some r => upd st i r
    | none => st
  | _ => st

/-- Equivalence pass 1: post-order over the forest. -/
def pass1 (hf : HashFns) (F : RForest) : DuplState :=
  F.postNodes.foldl (pass1Step hf F (buildTable hf F)) (fun _ => [])

/-! ### Equivalence pass 2 (`find_duplicates`, second loop) -/

/-- The fixed directory-listing overhead added to every known dir size. -/
def DIR_SIZE : Nat := 4096

/-- Mutable state of pass 2: duplicate sets and the optional dir sizes. -/
structure EqState where
  dupl : DuplState
  sizes : Nat → Option Nat

/-- Model of `is_duplication_mutual`: whether `first` is in the duplicate
set of the node `other`.  `false` for nodes without duplicate sets; also
`false` for an id absent from the forest (the source panics there; the
sets produced by pass 1 only hold forest ids). -/
def isDuplMutual (F : RForest) (dupl : DuplState) (first other : Nat) : Bool :=
  match F.findNode other with
  | some (.file d) => decide (first ∈ dupl d.id)
  | some (.dir j _ _) => decide (first ∈ dupl j)
  | _ => false

/-- Size loop of `set_dir_size` over the children: `none` models the early
`return`s (inaccessible child, or dir child of unknown size) that leave
the size `None`; otherwise the sum plus `DIR_SIZE` is stored. -/
def setDirSizeGo (sizes : Nat → Option Nat) : List RTree → Nat → Option Nat
  | [], acc => some (acc + DIR_SIZE)
  | c :: rest, acc =>
    match c with
    | .file d => setDirSizeGo sizes rest (acc + d.size)
    | .dir j _ _ =>
      match sizes j with
      | some s => setDirSizeGo sizes rest (acc + s)
      | none => none
    | .symlink _ _ => setDirSizeGo sizes rest acc
    | .inaccessible _ _ => none

/-- One step of the second `find_duplicates` loop: for a `Dir` node,
`filter_dir_duplicates` then `set_dir_size`. -/
def pass2Step (F : RForest) (s : EqState) (t : RTree) : EqState :=
  match t with
  | .dir i _ cs =>
    let d' := (s.dupl i).filter (fun x => isDuplMutual F s.dupl i x)
    let sizes' :=
      match setDirSizeGo s.sizes cs.toList 0 with
      | some r => upd s.sizes i (some r)
      | none => s.sizes
    ⟨upd s.dupl i d', sizes'⟩
  | _ => s

/-- Equivalence pass 2: post-order over the forest again. -/
def pass2 (F : RForest) (s : EqState) : EqState :=
  F.postNodes.foldl (pass2Step F) s

/-- Model of `find_duplicates`: both passes, starting from empty duplicate
sets and unknown dir sizes. -/
def findDuplicates (hf : HashFns) (F : RForest) : EqState :=
  pass2 F ⟨pass1 hf F, fun _ => none⟩

/-! ### Association-list lemmas -/

theorem alGet_alPut_self {β : Type} (k : String) (v : β) (l : List (String × β)) :
    alGet k (alPut k v l) = some v := by
  induction l with
  | nil => simp [alGet, alPut]
  | cons hd tl ih =>
    rw [alPut]
    by_cases h : hd.1 = k
    · simp [alGet, h]
    · rw [if_neg h, alGet, if_neg h]
      exact ih

theorem alGet_alPut_ne {β : Type} (k k' : String) (v : β) (l : List (String × β))
    (h : k' ≠ k) : alGet k' (alPut k v l) = alGet k' l := by
  induction l with
  | nil =>
    have hne : ¬(k = k') := fun hc => h hc.symm
    simp [alPut, alGet, hne]
  | cons hd tl ih =>
    rw [alPut]
    by_cases hh : hd.1 = k
    · rw [if_pos hh, alGet, alGet, if_neg (fun hc => h hc.symm), if_neg (hh ▸ fun hc => h hc.symm)]
    · rw [if_neg hh, alGet, alGet]
      by_cases hk : hd.1 = k'
      · rw [if_pos hk, if_pos hk]
      · rw [if_neg hk, if_neg hk]
        exact ih

theorem alGet_mem_pair {β : Type} {k : String} {b : β} {l : List (String × β)}
    (h : alGet k l = some b) : (k, b) ∈ l := by
  induction l with
  | nil => cases h
  | cons hd tl ih =>
    obtain ⟨a, v⟩ := hd
    rw [alGet] at h
    by_cases hh : a = k
    · rw [if_pos hh] at h
      cases h
      cases hh
      exact List.mem_cons_self _ _
    · rw [if_neg hh] at h
      exact List.mem_cons_of_mem _ (ih h)

theorem alGet_mem_keys {β : Type} {k : String} {b : β} {l : List (String × β)}
    (h : alGet k l = some b) : k ∈ l.map Prod.fst :=
  List.mem_map.mpr ⟨(k, b), alGet_mem_pair h, rfl⟩

theorem alGet_of_not_mem_keys {β : Type} {k : String} {l : List (String × β)}
    (h : k ∉ l.map Prod.fst) : alGet k l = none := by
  induction l with
  | nil => rfl
  | cons hd tl ih =>
    rw [alGet, if_neg (fun hc => h (by simp [hc]))]
    exact ih (fun hc => h (List.mem_cons_of_mem _ hc))

theorem alPut_keys {β : Type} (k : String) (v : β) (l : List (String × β)) :
    (alPut k v l).map Prod.fst =
      if k ∈ l.map Prod.fst then l.map Prod.fst else l.map Prod.fst ++ [k] := by
  induction l with
  | nil => simp [alPut]
  | cons hd tl ih =>
    rw [alPut]
    by_cases hh : hd.1 = k
    · simp [hh]
    · rw [if_neg hh, List.map_cons, List.map_cons, ih]
      by_cases hm : k ∈ tl.map Prod.fst
      · simp [hm, Ne.symm hh]
      · simp [hm, Ne.symm hh]

theorem alGet_of_mem_snd {β : Type} (l : List (String × β))
    (hn : (l.map Prod.fst).Nodup) (b : β) (hb : b ∈ l.map Prod.snd) :
    ∃ k, alGet k l = some b := by
  induction l with
  | nil => cases hb
  | cons hd tl ih =>
    rw [List.map_cons, List.mem_cons] at hb
    rcases hb with rfl | hb1
    · exact ⟨hd.1, by rw [alGet, if_pos rfl]⟩
    · rw [List.map_cons, List.nodup_cons] at hn
      obtain ⟨k, hk⟩ := ih hn.2 hb1
      refine ⟨k, ?_⟩
      have hne : hd.1 ≠ k := by
        intro hc
        exact hn.1 (hc ▸ alGet_mem_keys hk)
      rw [alGet, if_neg hne]
      exact hk

theorem find?_mem_unique {α : Type} (p : α → Bool) (L : List α) (b : α)
    (hb : b ∈ L) (hp : p b = true) (huniq : ∀ b' ∈ L, p b' = true → b' = b) :
    L.find? p = some b := by
  induction L with
  | nil => cases hb
  | cons hd tl ih =>
    by_cases hphd : p hd = true
    · rw [List.find?_cons_of_pos _ hphd, huniq hd (List.mem_cons_self hd tl) hphd]
    · rw [List.find?_cons_of_neg _ hphd]
      rcases List.mem_cons.mp hb with rfl | hmem
      · exact absurd hp hphd
      · exact ih hmem (fun b' hb' hp' => huniq b' (List.mem_cons_of_mem _ hb') hp')

/-! ### Characterisation of the built duplicate table -/

/-- The full-checksum buckets produced by registering the files `fs` (all
with the same partial checksum) in order. -/
def bucketsOf (hf : HashFns) (fs : List FileData) : List (String × List TableData) :=
  fs.foldl (fun me f => bucketsAdd me (hf.fdig f.path) (tdOf f)) []

/-- The table entry that registration of the file list `ff` produces for a
partial-checksum key. -/
def tableSpecAt (hf : HashFns) (ff : List FileData) (pc : String) : Option DTEntry :=
  match ff.filter (fun f => hf.pdig f.path = pc) with
  | [] => none
  | [f] => some (.single (tdOf f))
  | fs => some (.multiple (bucketsOf hf fs))

theorem bucketsAdd_some (me : List (String × List TableData)) (ck : String)
    (e : TableData) (v : List TableData) (h : alGet ck me = some v) :
    bucketsAdd me ck e = alPut ck (v ++ [e]) me := by
  rw [bucketsAdd, h]

theorem bucketsAdd_none (me : List (String × List TableData)) (ck : String)
    (e : TableData) (h : alGet ck me = none) :
    bucketsAdd me ck e = alPut ck [e] me := by
  rw [bucketsAdd, h]

theorem addToMultEntries_eq (tbl : List (String × DTEntry)) (pc ck : String)
    (e : TableData) (me : List (String × List TableData))
    (h : alGet pc tbl = some (.multiple me)) :
    addToMultEntries tbl pc ck e = alPut pc (.multiple (bucketsAdd me ck e)) tbl := by
  rw [addToMultEntries, h]

theorem registerItem_single (hf : HashFns) (tbl : List (String × DTEntry)) (f : FileData)
    (se : TableData) (h : alGet (hf.pdig f.path) tbl = some (.single se)) :
    registerItem hf tbl f =
      addToMultEntries
        (addToMultEntries (alPut (hf.pdig f.path) (.multiple []) tbl)
          (hf.pdig f.path) (hf.fdig se.path) se)
        (hf.pdig f.path) (hf.fdig f.path) (tdOf f) := by
  rw [registerItem, h]

theorem registerItem_multiple (hf : HashFns) (tbl : List (String × DTEntry)) (f : FileData)
    (me : List (String × List TableData))
    (h : alGet (hf.pdig f.path) tbl = some (.multiple me)) :
    registerItem hf tbl f = addToMultEntries tbl (hf.pdig f.path) (hf.fdig f.path) (tdOf f) := by
  rw [registerItem, h]

theorem registerItem_none (hf : HashFns) (tbl : List (String × DTEntry)) (f : FileData)
    (h : alGet (hf.pdig f.path) tbl = none) :
    registerItem hf tbl f = alPut (hf.pdig f.path) (.single (tdOf f)) tbl := by
  rw [registerItem, h]

theorem alGet_addToMultEntries_ne (tbl : List (String × DTEntry)) (pc ck : String)
    (e : TableData) (k : String) (h : k ≠ pc) :
    alGet k (addToMultEntries tbl pc ck e) = alGet k tbl := by
  rw [addToMultEntries]
  rcases hg : alGet pc tbl with _ | de
  · rfl
  · cases de with
    | single d => rfl
    | multiple me => exact alGet_alPut_ne pc k _ tbl h

theorem alGet_registerItem_ne (hf : HashFns) (tbl : List (String × DTEntry))
    (f : FileData) (k : String) (h : k ≠ hf.pdig f.path) :
    alGet k (registerItem hf tbl f) = alGet k tbl := by
  rw [registerItem]
  rcases hg : alGet (hf.pdig f.path) tbl with _ | de
  · exact alGet_alPut_ne _ _ _ _ h
  · cases de with
    | single d =>
      rw [alGet_addToMultEntries_ne _ _ _ _ _ h, alGet_addToMultEntries_ne _ _ _ _ _ h]
      exact alGet_alPut_ne _ _ _ _ h
    | multiple me => exact alGet_addToMultEntries_ne _ _ _ _ _ h

theorem buildTable_spec (hf : HashFns) (ff : List FileData) :
    ∀ pc, alGet pc (ff.foldl (registerItem hf) []) = tableSpecAt hf ff pc := by
  induction ff using List.reverseRecOn with
  | nil => intro pc; rfl
  | append_singleton ff f ih =>
    intro pc
    rw [List.foldl_append, List.foldl_cons, List.foldl_nil]
    by_cases hpc : pc = hf.pdig f.path
    · subst hpc
      have hfilter : (ff ++ [f]).filter (fun g => decide (hf.pdig g.path = hf.pdig f.path)) =
          ff.filter (fun g => decide (hf.pdig g.path = hf.pdig f.path)) ++ [f] := by
        rw [List.filter_append]
        simp [List.filter]
      rcases hprev : ff.filter (fun g => decide (hf.pdig g.path = hf.pdig f.path))
        with _ | ⟨g, gs⟩
      · have hnone : alGet (hf.pdig f.path) (ff.foldl (registerItem hf) []) = none := by
          rw [ih, tableSpecAt, hprev]
        rw [registerItem_none hf _ f hnone, tableSpecAt, hfilter, hprev, alGet_alPut_self]
        rfl
      · rcases gs with _ | ⟨g2, gs2⟩
        · have hsingle : alGet (hf.pdig f.path) (ff.foldl (registerItem hf) []) =
              some (.single (tdOf g)) := by
            rw [ih, tableSpecAt, hprev]
          rw [registerItem_single hf _ f (tdOf g) hsingle]
          rw [addToMultEntries_eq _ _ _ _ [] (alGet_alPut_self _ _ _)]
          rw [addToMultEntries_eq _ _ _ _ _ (alGet_alPut_self _ _ _)]
          rw [alGet_alPut_self, tableSpecAt, hfilter, hprev]
          rfl
        · have hmult : alGet (hf.pdig f.path) (ff.foldl (registerItem hf) []) =
              some (.multiple (bucketsOf hf (g :: g2 :: gs2))) := by
            rw [ih, tableSpecAt, hprev]
          rw [registerItem_multiple hf _ f _ hmult,
            addToMultEntries_eq _ _ _ _ _ hmult, alGet_alPut_self,
            tableSpecAt, hfilter, hprev, List.cons_append, List.cons_append]
          have hb : bucketsAdd (bucketsOf hf (g :: g2 :: gs2)) (hf.fdig f.path) (tdOf f) =
              bucketsOf hf (g :: g2 :: (gs2 ++ [f])) := by
            show _ = bucketsOf hf ((g :: g2 :: gs2) ++ [f])
            rw [bucketsOf, bucketsOf, List.foldl_append]
            rfl
          rw [hb]
    · rw [alGet_registerItem_ne hf _ f pc hpc, ih, tableSpecAt, tableSpecAt,
        List.filter_append]
      have hne : ¬(hf.pdig f.path = pc) := fun hc => hpc hc.symm
      have hnil : [f].filter (fun g => decide (hf.pdig g.path = pc)) = [] := by
        simp [List.filter, hne]
      rw [hnil, List.append_nil]

theorem alGet_bucketsOf (hf : HashFns) (k : String) (fs : List FileData) :
    alGet k (bucketsOf hf fs) =
      match fs.filter (fun f => hf.fdig f.path = k) with
      | [] => none
      | l => some (l.map tdOf) := by
  induction fs using List.reverseRecOn with
  | nil => rfl
  | append_singleton fs f ih =>
    have hstep : bucketsOf hf (fs ++ [f]) =
        bucketsAdd (bucketsOf hf fs) (hf.fdig f.path) (tdOf f) := by
      rw [bucketsOf, bucketsOf, List.foldl_append]
      rfl
    rw [hstep]
    by_cases hk : k = hf.fdig f.path
    · have hfilter : (fs ++ [f]).filter (fun g => decide (hf.fdig g.path = k)) =
          fs.filter (fun g => decide (hf.fdig g.path = k)) ++ [f] := by
        rw [List.filter_append]
        simp [List.filter, hk.symm]
      rcases hprev : fs.filter (fun g => decide (hf.fdig g.path = k)) with _ | ⟨g, gs⟩
      · have hg : alGet (hf.fdig f.path) (bucketsOf hf fs) = none := by
          rw [← hk, ih, hprev]
        rw [bucketsAdd_none _ _ _ hg, hfilter, hprev, hk, alGet_alPut_self]
        rfl
      · have hg : alGet (hf.fdig f.path) (bucketsOf hf fs) = some ((g :: gs).map tdOf) := by
          rw [← hk, ih, hprev]
        rw [bucketsAdd_some _ _ _ _ hg, hfilter, hprev, hk, alGet_alPut_self]
        rcases gs with _ | ⟨g2, gs2⟩
        · simp
        · simp
    · have hframe : alGet k (bucketsAdd (bucketsOf hf fs) (hf.fdig f.path) (tdOf f)) =
          alGet k (bucketsOf hf fs) := by
        rcases hga : alGet (hf.fdig f.path) (bucketsOf hf fs) with _ | v
        · rw [bucketsAdd_none _ _ _ hga]
          exact alGet_alPut_ne _ _ _ _ hk
        · rw [bucketsAdd_some _ _ _ _ hga]
          exact alGet_alPut_ne _ _ _ _ hk
      rw [hframe, ih, List.filter_append]
      have hne : ¬(hf.fdig f.path = k) := fun hc => hk hc.symm
      have hnil : [f].filter (fun g => decide (hf.fdig g.path = k)) = [] := by
        simp [List.filter, hne]
      rw [hnil, List.append_nil]

theorem mem_keys_alGet_isSome {β : Type} {k : String} {l : List (String × β)}
    (h : k ∈ l.map Prod.fst) : ∃ b, alGet k l = some b := by
  induction l with
  | nil => cases h
  | cons hd tl ih =>
    rw [List.map_cons, List.mem_cons] at h
    by_cases hh : hd.1 = k
    · exact ⟨hd.2, by rw [alGet, if_pos hh]⟩
    · rcases h with hc | hc
      · exact absurd hc.symm hh
      · obtain ⟨b, hb⟩ := ih hc
        exact ⟨b, by rw [alGet, if_neg hh]; exact hb⟩

theorem bucketsOf_keys_nodup (hf : HashFns) (fs : List FileData) :
    ((bucketsOf hf fs).map Prod.fst).Nodup := by
  induction fs using List.reverseRecOn with
  | nil => simp [bucketsOf]
  | append_singleton fs f ih =>
    have hstep : bucketsOf hf (fs ++ [f]) =
        bucketsAdd (bucketsOf hf fs) (hf.fdig f.path) (tdOf f) := by
      rw [bucketsOf, List.foldl_append]
      rfl
    rcases hg : alGet (hf.fdig f.path) (bucketsOf hf fs) with _ | v
    · have hnotin : hf.fdig f.path ∉ (bucketsOf hf fs).map Prod.fst := by
        intro hc
        obtain ⟨b, hb⟩ := mem_keys_alGet_isSome hc
        rw [hg] at hb
        cases hb
      rw [hstep, bucketsAdd_none _ _ _ hg, alPut_keys, if_neg hnotin]
      exact List.Nodup.append ih (List.nodup_singleton _)
        (fun a ha hamem => hnotin (by rcases List.mem_singleton.mp hamem with rfl; exact ha))
    · rw [hstep, bucketsAdd_some _ _ _ _ hg, alPut_keys, if_pos (alGet_mem_keys hg)]
      exact ih


theorem getDup_eq_single (t : DuplicateTable) (pc : String) (entry d : TableData)
    (h : alGet pc t.table = some (.single d)) :
    t.get_duplicates pc entry =
      (if d = entry then .ok []
       else .error "There is unexpected data at part_checksum") := by
  rw [DuplicateTable.get_duplicates, h]

theorem getDup_eq_multiple (t : DuplicateTable) (pc : String) (entry : TableData)
    (hashes : List (String × List TableData))
    (h : alGet pc t.table = some (.multiple hashes)) :
    t.get_duplicates pc entry =
      (match (hashes.map Prod.snd).find? (fun dups => decide (entry ∈ dups)) with
       | some dups => .ok (dups.filter (fun x => x ≠ entry))
       | none => .error "Could not find specified entry in MultipleEntries") := by
  rw [DuplicateTable.get_duplicates, h]

/-- The query that pass 1 makes for a registered file always succeeds, and
the returned node ids are exactly the ids of the other files sharing both
the partial and the full checksum.  This also shows the
`"Getting duplicates failed"` panic of `add_duplicates_to_file_entry` is a
dead branch on the table built from the same forest. -/
theorem getDuplicates_buildTable (hf : HashFns) (F : RForest) (f : FileData)
    (hN : (F.filesPre.map FileData.id).Nodup) (hmem : f ∈ F.filesPre) :
    ∃ l, (buildTable hf F).get_duplicates (hf.pdig f.path) (tdOf f) = .ok l ∧
      ∀ j, j ∈ l.map TableData.node_id ↔
        ∃ g ∈ F.filesPre, g.id = j ∧ hf.pdig g.path = hf.pdig f.path ∧
          hf.fdig g.path = hf.fdig f.path ∧ g.id ≠ f.id := by
  have hInj := List.inj_on_of_nodup_map hN
  have htab : alGet (hf.pdig f.path) (buildTable hf F).table =
      tableSpecAt hf F.filesPre (hf.pdig f.path) := buildTable_spec hf F.filesPre _
  have hGmem : f ∈ F.filesPre.filter (fun g => decide (hf.pdig g.path = hf.pdig f.path)) :=
    List.mem_filter.mpr ⟨hmem, by simp⟩
  rw [tableSpecAt] at htab
  rcases hG : F.filesPre.filter (fun g => decide (hf.pdig g.path = hf.pdig f.path))
    with _ | ⟨g1, gs⟩
  · rw [hG] at hGmem
    cases hGmem
  · rw [hG] at htab hGmem
    rcases gs with _ | ⟨g2, gs2⟩
    · -- single registration with this partial checksum: it is `f` itself
      have hfg : f = g1 := List.mem_singleton.mp hGmem
      refine ⟨[], by rw [getDup_eq_single _ _ _ _ htab, if_pos (by rw [hfg])], ?_⟩
      intro j
      simp only [List.map_nil, List.not_mem_nil, false_iff]
      rintro ⟨g', hg', hid, hpd, hfd, hne⟩
      have hg'fil : g' ∈ F.filesPre.filter
          (fun g => decide (hf.pdig g.path = hf.pdig f.path)) :=
        List.mem_filter.mpr ⟨hg', by simp [hpd]⟩
      rw [hG] at hg'fil
      have hg'g1 : g' = g1 := List.mem_singleton.mp hg'fil
      exact hne (by rw [hg'g1, ← hfg])
    · -- at least two registrations: `Multiple` slot, buckets by full digest
      have hGsub : ∀ x ∈ g1 :: g2 :: gs2, x ∈ F.filesPre := by
        intro x hx
        exact List.mem_of_mem_filter (hG ▸ hx : x ∈ F.filesPre.filter _)
      have hGpdig : ∀ x ∈ g1 :: g2 :: gs2, hf.pdig x.path = hf.pdig f.path := by
        intro x hx
        have hx2 := (List.mem_filter.mp (hG ▸ hx : x ∈ F.filesPre.filter _)).2
        exact of_decide_eq_true hx2
      rcases hBfil : (g1 :: g2 :: gs2).filter
          (fun g => decide (hf.fdig g.path = hf.fdig f.path)) with _ | ⟨b1, bs⟩
      · exfalso
        have hfB : f ∈ (g1 :: g2 :: gs2).filter
            (fun g => decide (hf.fdig g.path = hf.fdig f.path)) :=
          List.mem_filter.mpr ⟨hGmem, by simp⟩
        rw [hBfil] at hfB
        cases hfB
      · have hBget : alGet (hf.fdig f.path) (bucketsOf hf (g1 :: g2 :: gs2)) =
            some ((b1 :: bs).map tdOf) := by
          rw [alGet_bucketsOf, hBfil]
        have hBf : tdOf f ∈ (b1 :: bs).map tdOf := by
          have hfB : f ∈ (g1 :: g2 :: gs2).filter
              (fun g => decide (hf.fdig g.path = hf.fdig f.path)) :=
            List.mem_filter.mpr ⟨hGmem, by simp⟩
          rw [hBfil] at hfB
          exact List.mem_map.mpr ⟨f, hfB, rfl⟩
        have hBmem : (b1 :: bs).map tdOf ∈ (bucketsOf hf (g1 :: g2 :: gs2)).map Prod.snd :=
          List.mem_map.mpr ⟨(hf.fdig f.path, (b1 :: bs).map tdOf), alGet_mem_pair hBget, rfl⟩
        have huniq : ∀ b' ∈ (bucketsOf hf (g1 :: g2 :: gs2)).map Prod.snd,
            decide (tdOf f ∈ b') = true → b' = (b1 :: bs).map tdOf := by
          intro b' hb' hfb'
          rw [decide_eq_true_eq] at hfb'
          obtain ⟨k', hk'⟩ :=
            alGet_of_mem_snd _ (bucketsOf_keys_nodup hf (g1 :: g2 :: gs2)) b' hb'
          have hb'val := hk'
          rw [alGet_bucketsOf] at hb'val
          rcases hfil' : (g1 :: g2 :: gs2).filter
              (fun g => decide (hf.fdig g.path = k')) with _ | ⟨c1, cs⟩
          · rw [hfil'] at hb'val
            cases hb'val
          · rw [hfil'] at hb'val
            have hb'eq : b' = (c1 :: cs).map tdOf := by
              cases hb'val
              rfl
            obtain ⟨g', hg'fil, htd⟩ :=
              List.mem_map.mp (hb'eq ▸ hfb' : tdOf f ∈ (c1 :: cs).map tdOf)
            rw [← hfil'] at hg'fil
            have hg'G : g' ∈ g1 :: g2 :: gs2 := List.mem_of_mem_filter hg'fil
            have hg'id : g'.id = f.id := congrArg TableData.node_id htd
            have hg'f : g' = f := hInj (hGsub g' hg'G) hmem hg'id
            have hk'eq : k' = hf.fdig f.path := by
              have hx := List.of_mem_filter hg'fil
              rw [decide_eq_true_eq] at hx
              rw [← hx, hg'f]
            rw [hk'eq] at hk'
            rw [hk'] at hBget
            cases hBget
            rfl
        have hfind : ((bucketsOf hf (g1 :: g2 :: gs2)).map Prod.snd).find?
            (fun dups => decide (tdOf f ∈ dups)) = some ((b1 :: bs).map tdOf) :=
          find?_mem_unique _ _ _ hBmem (by simpa using hBf) huniq
        refine ⟨((b1 :: bs).map tdOf).filter (fun x => x ≠ tdOf f), ?_, ?_⟩
        · rw [getDup_eq_multiple _ _ _ _ htab, hfind]
        · intro j
          constructor
          · intro hj
            obtain ⟨td, htd, hjid⟩ := List.mem_map.mp hj
            have htdB := List.mem_of_mem_filter htd
            have htdne : td ≠ tdOf f := by simpa using List.of_mem_filter htd
            obtain ⟨g', hg'fil, hg'td⟩ := List.mem_map.mp htdB
            rw [← hBfil] at hg'fil
            have hg'G : g' ∈ g1 :: g2 :: gs2 := List.mem_of_mem_filter hg'fil
            have hg'fd : hf.fdig g'.path = hf.fdig f.path :=
              of_decide_eq_true (List.mem_filter.mp hg'fil).2
            refine ⟨g', hGsub g' hg'G, ?_, hGpdig g' hg'G, hg'fd, ?_⟩
            · rw [← hjid, ← hg'td]
              rfl
            · intro hc
              have hg'f : g' = f := hInj (hGsub g' hg'G) hmem hc
              exact htdne (by rw [← hg'td, hg'f])
          · rintro ⟨g', hg', hid, hpd, hfd, hne⟩
            have hg'G : g' ∈ g1 :: g2 :: gs2 := by
              have hx : g' ∈ F.filesPre.filter
                  (fun g => decide (hf.pdig g.path = hf.pdig f.path)) :=
                List.mem_filter.mpr ⟨hg', by simp [hpd]⟩
              rw [hG] at hx
              exact hx
            have hg'B : tdOf g' ∈ (b1 :: bs).map tdOf := by
              have hx : g' ∈ (g1 :: g2 :: gs2).filter
                  (fun g => decide (hf.fdig g.path = hf.fdig f.path)) :=
                List.mem_filter.mpr ⟨hg'G, by simp [hfd]⟩
              rw [hBfil] at hx
              exact List.mem_map.mpr ⟨g', hx, rfl⟩
            have htdne : tdOf g' ≠ tdOf f := by
              intro hc
              exact hne (congrArg TableData.node_id hc)
            exact List.mem_map.mpr
              ⟨tdOf g', List.mem_filter.mpr ⟨hg'B, by simpa using htdne⟩, hid⟩

/-- C8, counterexample.  The claim states that two `DuplicateObject` values
with equal path sets are equal regardless of their recorded sizes; but the
derived `PartialEq` of the source compares the `size` field as well, so two
objects with the same path set and sizes 1 and 2 are not equal. -/
theorem claim8_counterexample :
    DuplicateObject.eqv ⟨[os "a", os "b"], 1⟩ ⟨[os "a", os "b"], 2⟩ = false := by
  decide

/-- C8, amended: equality of `DuplicateObject` values is determined by the
path set together with the per-member size — the derived `==` holds exactly
when the two path sets have the same members and the sizes agree. -/
theorem claim8_equality_by_path_set_and_size (a b : DuplicateObject) :
    DuplicateObject.eqv a b = true ↔
      ((∀ x, x ∈ a.duplicates ↔ x ∈ b.duplicates) ∧ a.size = b.size) := by
  unfold DuplicateObject.eqv pathSetEq
  simp only [Bool.and_eq_true, decide_eq_true_eq, beq_iff_eq]
  constructor
  · rintro ⟨⟨h1, h2⟩, h3⟩
    exact ⟨fun x => ⟨fun hx => h1 x hx, fun hx => h2 x hx⟩, h3⟩
  · rintro ⟨h, h3⟩
    exact ⟨⟨fun x hx => (h x).1 hx, fun x hx => (h x).2 hx⟩, h3⟩

/-! ### Theorems about `DuplicateObject::contained` (claim C10) -/

/-- Behaviour of the `contained` loop on valid-UTF-8 data: it never
panics, it answers `notRelated` exactly when no member is substring-related
to the query, and a `isContained`/`contains` verdict exhibits a member in
the corresponding substring relation. -/
theorem containedLoop_spec (p : OsStr) (l : List OsStr)
    (hm : ∀ m ∈ l, m.valid = true) (hp : p.valid = true) :
    (containedLoop p l).isSome = true ∧
    (containedLoop p l = some .notRelated ↔
      ∀ m ∈ l, strContains p.str m.str = false ∧ strContains m.str p.str = false) ∧
    (containedLoop p l = some .isContained → ∃ m ∈ l, strContains p.str m.str = true) ∧
    (containedLoop p l = some .contains → ∃ m ∈ l, strContains m.str p.str = true) := by
  induction l with
  | nil => simp [containedLoop]
  | cons m rest ih =>
    have hmv : m.valid = true := hm m (List.mem_cons_self m rest)
    have hrest := ih (fun x hx => hm x (List.mem_cons_of_mem m hx))
    have hstep : containedLoop p (m :: rest) =
        (if strContains p.str m.str = true then some .isContained
         else if strContains m.str p.str = true then some .contains
         else containedLoop p rest) := by
      simp [containedLoop, OsStr.toStr?, hmv, hp]
    by_cases h1 : strContains p.str m.str = true
    · rw [hstep, if_pos h1]
      refine ⟨rfl, ?_, ?_, ?_⟩
      · constructor
        · intro h; cases h
        · intro h
          exact absurd h1 (by simp [(h m (List.mem_cons_self m rest)).1])
      · intro _; exact ⟨m, List.mem_cons_self m rest, h1⟩
      · intro h; cases h
    · by_cases h2 : strContains m.str p.str = true
      · rw [hstep, if_neg h1, if_pos h2]
        refine ⟨rfl, ?_, ?_, ?_⟩
        · constructor
          · intro h; cases h
          · intro h
            exact absurd h2 (by simp [(h m (List.mem_cons_self m rest)).2])
        · intro h; cases h
        · intro _; exact ⟨m, List.mem_cons_self m rest, h2⟩
      · rw [hstep, if_neg h1, if_neg h2]
        refine ⟨hrest.1, ?_, ?_, ?_⟩
        · rw [hrest.2.1]
          constructor
          · intro h x hx
            rcases List.mem_cons.mp hx with rfl | hx'
            · rw [Bool.not_eq_true] at h1 h2; exact ⟨h1, h2⟩
            · exact h x hx'
          · intro h x hx
            exact h x (List.mem_cons_of_mem m hx)
        · intro h
          obtain ⟨x, hx, hc⟩ := hrest.2.2.1 h
          exact ⟨x, List.mem_cons_of_mem m hx, hc⟩
        · intro h
          obtain ⟨x, hx, hc⟩ := hrest.2.2.2 h
          exact ⟨x, List.mem_cons_of_mem m hx, hc⟩

/-- C10, counterexample.  The claim states that `contained` panics whenever
the query path is not valid UTF-8.  But when the duplicate set is empty the
loop body never runs, so the query path is never inspected and the call
returns `NotRelated` instead of panicking. -/
theorem claim10_counterexample :
    DuplicateObject.contained ⟨[], 0⟩ ⟨false, "x"⟩ = some ContEnum.notRelated := by
  decide

/-- C10, amended: `contained` panics only when the member scan actually
reaches a non-UTF-8 path (in particular it does not panic when the
duplicate set is empty); on valid-UTF-8 inputs it never panics and its
verdict is decided by the string-substring relation between full path
strings: `NotRelated` holds exactly when no member is substring-related to
the query — so a sibling path that merely shares a string prefix with a
member is not classified `NotRelated` — and an `IsContained` (resp.
`Contains`) verdict exhibits a member whose string is a substring of the
query (resp. of which the query is a substring). -/
theorem claim10_contained_substring_semantics (d : DuplicateObject) (p : OsStr)
    (hm : ∀ m ∈ d.duplicates, m.valid = true) (hp : p.valid = true) :
    (d.contained p).isSome = true ∧
    (d.contained p = some .notRelated ↔
      ∀ m ∈ d.duplicates, strContains p.str m.str = false ∧ strContains m.str p.str = false) ∧
    (d.contained p = some .isContained → ∃ m ∈ d.duplicates, strContains p.str m.str = true) ∧
    (d.contained p = some .contains → ∃ m ∈ d.duplicates, strContains m.str p.str = true) :=
  containedLoop_spec p d.duplicates hm hp

/-- C10, witness: at the sibling example of the claim (member `/T/A`,
query `/T/AB`) the hypotheses hold and the call does not panic; moreover
the concrete verdict is `IsContained`, not `NotRelated`. -/
theorem claim10_witness :
    (∀ m ∈ [os "/T/A"], m.valid = true) ∧
    ((DuplicateObject.mk [os "/T/A"] 5).contained (os "/T/AB")).isSome = true ∧
    (DuplicateObject.mk [os "/T/A"] 5).contained (os "/T/AB") = some .isContained :=
  ⟨by decide,
   (claim10_contained_substring_semantics ⟨[os "/T/A"], 5⟩ (os "/T/AB")
     (by decide) (by decide)).1,
   by decide⟩

/-! ### Theorems about `DuplicateTable::get_duplicates` (claim C7) -/

/-- C7: characterisation of `get_duplicates`.  It returns `Ok []` when the
slot is `Single` holding exactly the queried entry; `Ok` of the bucket of
the entry's full digest minus the entry when the slot is `Multiple` and the
entry lies in exactly one bucket; and an error precisely in the three
cases: unknown partial checksum, `Single` slot holding different data, or
entry absent from every bucket of a `Multiple` slot. -/
theorem claim7_get_duplicates_spec (t : DuplicateTable) (pc : String) (entry : TableData) :
    (∀ d, alGet pc t.table = some (.single d) → d = entry →
      t.get_duplicates pc entry = .ok []) ∧
    (∀ hashes k bucket, alGet pc t.table = some (.multiple hashes) →
      alGet k hashes = some bucket → entry ∈ bucket →
      (∀ b ∈ hashes.map Prod.snd, entry ∈ b → b = bucket) →
      t.get_duplicates pc entry = .ok (bucket.filter (fun x => x ≠ entry))) ∧
    ((∃ msg, t.get_duplicates pc entry = .error msg) ↔
      (alGet pc t.table = none ∨
       (∃ d, alGet pc t.table = some (.single d) ∧ d ≠ entry) ∨
       (∃ hashes, alGet pc t.table = some (.multiple hashes) ∧
         ∀ b ∈ hashes.map Prod.snd, entry ∉ b))) := by
  refine ⟨?_, ?_, ?_⟩
  · intro d hget hd
    simp [DuplicateTable.get_duplicates, hget, hd]
  · intro hashes k bucket hget hk hmem huniq
    have hbmem : bucket ∈ hashes.map Prod.snd := by
      clear huniq hget
      induction hashes with
      | nil => cases hk
      | cons hd tl ih =>
        rw [alGet] at hk
        by_cases he : hd.1 = k
        · simp only [he, if_true] at hk
          cases hk
          exact List.mem_map.mpr ⟨hd, List.mem_cons_self hd tl, rfl⟩
        · simp only [he, if_false] at hk
          exact List.mem_cons_of_mem _ (ih hk)
    have hfind : (hashes.map Prod.snd).find? (fun dups => decide (entry ∈ dups))
        = some bucket := by
      clear hk hget
      induction hashes with
      | nil => cases hbmem
      | cons hd tl ih =>
        rw [List.map_cons]
        by_cases hc : entry ∈ hd.2
        · have hb : hd.2 = bucket :=
            huniq hd.2 (List.mem_map.mpr ⟨hd, List.mem_cons_self hd tl, rfl⟩) hc
          rw [List.find?_cons_of_pos _ (by simpa using hc), hb]
        · rw [List.find?_cons_of_neg _ (by simpa using hc)]
          rcases List.mem_cons.mp hbmem with hb | hb
          · exact absurd (hb ▸ hmem) hc
          · exact ih (fun b hbm hbc => huniq b (List.mem_cons_of_mem _ hbm) hbc) hb
    simp [DuplicateTable.get_duplicates, hget, hfind]
  · constructor
    · rintro ⟨msg, hmsg⟩
      rw [DuplicateTable.get_duplicates] at hmsg
      split at hmsg
      · rename_i hg
        exact Or.inl hg
      · rename_i d hg
        split at hmsg
        · cases hmsg
        · rename_i hd
          exact Or.inr (Or.inl ⟨d, hg, hd⟩)
      · rename_i hashes hg
        split at hmsg
        · cases hmsg
        · rename_i hf
          refine Or.inr (Or.inr ⟨hashes, hg, fun b hbm => ?_⟩)
          intro hc
          have := List.find?_eq_none.mp hf b hbm
          simp [hc] at this
    · rintro (hg | ⟨d, hg, hd⟩ | ⟨hashes, hg, hall⟩)
      · exact ⟨"There is no entry with the specified partial checksum",
          by simp [DuplicateTable.get_duplicates, hg]⟩
      · exact ⟨"There is unexpected data at part_checksum",
          by simp [DuplicateTable.get_duplicates, hg, hd]⟩
      · have hf : (hashes.map Prod.snd).find? (fun dups => decide (entry ∈ dups)) = none :=
          List.find?_eq_none.mpr (fun b hbm => by simp [hall b hbm])
        exact ⟨"Could not find specified entry in MultipleEntries",
          by simp [DuplicateTable.get_duplicates, hg, hf]⟩

/-- C7, witness: a concrete two-entry `Multiple` slot together with a
concrete error case, obtained by applying the characterisation theorem. -/
theorem claim7_witness :
    (DuplicateTable.mk [("p", .multiple [("f", [⟨os "a", 1⟩, ⟨os "b", 2⟩])])]).get_duplicates
      "p" ⟨os "a", 1⟩ = .ok [⟨os "b", 2⟩] ∧
    (∃ msg, (DuplicateTable.mk []).get_duplicates "p" ⟨os "a", 1⟩ = .error msg) :=
  ⟨(claim7_get_duplicates_spec
      ⟨[("p", .multiple [("f", [⟨os "a", 1⟩, ⟨os "b", 2⟩])])]⟩ "p" ⟨os "a", 1⟩).2.1
      [("f", [⟨os "a", 1⟩, ⟨os "b", 2⟩])] "f" [⟨os "a", 1⟩, ⟨os "b", 2⟩]
      (by decide) (by decide) (by decide) (by decide),
   (claim7_get_duplicates_spec ⟨[]⟩ "p" ⟨os "a", 1⟩).2.2.mpr (Or.inl (by decide))⟩

/-! ### Basic forest lemmas -/

/-- All node ids of a subtree. -/
def RTree.ids (t : RTree) : List Nat := t.postNodes.map RTree.nodeId

theorem RTree.self_mem_postNodes : ∀ (t : RTree), t ∈ t.postNodes
  | .file _ => List.mem_singleton.mpr rfl
  | .dir _ _ _ => List.mem_append.mpr (Or.inr (List.mem_singleton.mpr rfl))
  | .symlink _ _ => List.mem_singleton.mpr rfl
  | .inaccessible _ _ => List.mem_singleton.mpr rfl

mutual
theorem RTree.postNodes_trans : ∀ (t0 t u : RTree),
    t ∈ t0.postNodes → u ∈ t.postNodes → u ∈ t0.postNodes
  | .file d, t, u, ht, hu => by
    rw [RTree.postNodes] at ht ⊢
    rcases List.mem_singleton.mp ht with rfl
    exact hu
  | .dir i p cs, t, u, ht, hu => by
    rw [RTree.postNodes] at ht ⊢
    rcases List.mem_append.mp ht with h | h
    · exact List.mem_append.mpr (Or.inl (RForest.postNodes_trans_forest cs t u h hu))
    · rcases List.mem_singleton.mp h with rfl
      rw [RTree.postNodes] at hu
      exact hu
  | .symlink i p, t, u, ht, hu => by
    rw [RTree.postNodes] at ht ⊢
    rcases List.mem_singleton.mp ht with rfl
    exact hu
  | .inaccessible i p, t, u, ht, hu => by
    rw [RTree.postNodes] at ht ⊢
    rcases List.mem_singleton.mp ht with rfl
    exact hu

theorem RForest.postNodes_trans_forest : ∀ (G : RForest) (t u : RTree),
    t ∈ G.postNodes → u ∈ t.postNodes → u ∈ G.postNodes
  | .cons t0 ts, t, u, ht, hu => by
    rw [RForest.postNodes] at ht ⊢
    rcases List.mem_append.mp ht with h | h
    · exact List.mem_append.mpr (Or.inl (RTree.postNodes_trans t0 t u h hu))
    · exact List.mem_append.mpr (Or.inr (RForest.postNodes_trans_forest ts t u h hu))
end

theorem RForest.toList_subset_postNodes : ∀ (G : RForest) (c : RTree),
    c ∈ G.toList → c ∈ G.postNodes
  | .cons t0 ts, c, hc => by
    rw [RForest.toList] at hc
    rw [RForest.postNodes]
    rcases List.mem_cons.mp hc with rfl | hc
    · exact List.mem_append.mpr (Or.inl (RTree.self_mem_postNodes c))
    · exact List.mem_append.mpr (Or.inr (RForest.toList_subset_postNodes ts c hc))

theorem RTree.childList_mem_postNodes (t c : RTree) (hc : c ∈ t.childList) :
    c ∈ t.postNodes := by
  cases t with
  | dir i p cs =>
    rw [RTree.childList] at hc
    rw [RTree.postNodes]
    exact List.mem_append.mpr (Or.inl (RForest.toList_subset_postNodes cs c hc))
  | file d => cases hc
  | symlink i p => cases hc
  | inaccessible i p => cases hc

theorem RTree.mem_ids_of_mem (t u : RTree) (h : u ∈ t.postNodes) : u.nodeId ∈ t.ids :=
  List.mem_map.mpr ⟨u, h, rfl⟩

theorem RTree.ids_subset (t u : RTree) (h : u ∈ t.postNodes) : ∀ j ∈ u.ids, j ∈ t.ids := by
  intro j hj
  obtain ⟨v, hv, rfl⟩ := List.mem_map.mp hj
  exact List.mem_map.mpr ⟨v, RTree.postNodes_trans t u v h hv, rfl⟩

mutual
theorem RTree.mem_filesPre_iff : ∀ (t : RTree) (d : FileData),
    d ∈ t.filesPre ↔ RTree.file d ∈ t.postNodes
  | .file d', d => by
    rw [RTree.filesPre, RTree.postNodes]
    simp
  | .dir i p cs, d => by
    rw [RTree.filesPre, RTree.postNodes]
    rw [RForest.mem_filesPre_iff_forest cs d]
    simp
  | .symlink i p, d => by
    rw [RTree.filesPre, RTree.postNodes]
    simp
  | .inaccessible i p, d => by
    rw [RTree.filesPre, RTree.postNodes]
    simp

theorem RForest.mem_filesPre_iff_forest : ∀ (G : RForest) (d : FileData),
    d ∈ G.filesPre ↔ RTree.file d ∈ G.postNodes
  | .nil, d => by
    rw [RForest.filesPre, RForest.postNodes]
    simp
  | .cons t ts, d => by
    rw [RForest.filesPre, RForest.postNodes]
    rw [List.mem_append, List.mem_append, RTree.mem_filesPre_iff t d,
      RForest.mem_filesPre_iff_forest ts d]
end

mutual
theorem RTree.ancChain_mem_ids : ∀ (t : RTree) (i : Nat) (l : List Nat),
    t.ancChain i = some l → i ∈ t.ids
  | .file d, i, l, h => by
    rw [RTree.ancChain] at h
    split at h
    · rename_i hid
      exact hid ▸ List.mem_map.mpr ⟨_, RTree.self_mem_postNodes _, rfl⟩
    · cases h
  | .dir j p cs, i, l, h => by
    rw [RTree.ancChain] at h
    split at h
    · rename_i hid
      exact hid ▸ List.mem_map.mpr ⟨_, RTree.self_mem_postNodes _, rfl⟩
    · rcases hh : cs.ancChain i with _ | l'
      · rw [hh] at h
        cases h
      · rw [RTree.ids, RTree.postNodes, List.map_append, List.mem_append]
        exact Or.inl (RForest.ancChain_mem_ids_forest cs i l' hh)
  | .symlink j p, i, l, h => by
    rw [RTree.ancChain] at h
    split at h
    · rename_i hid
      exact hid ▸ List.mem_map.mpr ⟨_, RTree.self_mem_postNodes _, rfl⟩
    · cases h
  | .inaccessible j p, i, l, h => by
    rw [RTree.ancChain] at h
    split at h
    · rename_i hid
      exact hid ▸ List.mem_map.mpr ⟨_, RTree.self_mem_postNodes _, rfl⟩
    · cases h

theorem RForest.ancChain_mem_ids_forest : ∀ (G : RForest) (i : Nat) (l : List Nat),
    G.ancChain i = some l → i ∈ G.allIds
  | .cons t ts, i, l, h => by
    rw [RForest.ancChain] at h
    rw [RForest.allIds, RForest.postNodes, List.map_append, List.mem_append]
    rcases hh : t.ancChain i with _ | l'
    · rw [hh] at h
      exact Or.inr (RForest.ancChain_mem_ids_forest ts i l h)
    · rw [hh] at h
      cases h
      exact Or.inl (RTree.ancChain_mem_ids t i l hh)
end

mutual
theorem RTree.ancChain_anc : ∀ (t : RTree) (i : Nat) (l : List Nat),
    t.ancChain i = some l → ∀ a ∈ l,
      ∃ p cs, RTree.dir a p cs ∈ t.postNodes ∧ i ∈ (RForest.postNodes cs).map RTree.nodeId
  | .file d, i, l, h => by
    rw [RTree.ancChain] at h
    split at h
    · cases h
      intro a ha
      cases ha
    · cases h
  | .dir j p cs, i, l, h => by
    rw [RTree.ancChain] at h
    split at h
    · cases h
      intro a ha
      cases ha
    · rcases hh : cs.ancChain i with _ | l'
      · rw [hh] at h
        cases h
      · rw [hh] at h
        cases h
        intro a ha
        rcases List.mem_append.mp ha with ha' | ha'
        · obtain ⟨p', cs', hmem, hbelow⟩ := RForest.ancChain_anc_forest cs i l' hh a ha'
          exact ⟨p', cs', by
            rw [RTree.postNodes]
            exact List.mem_append.mpr (Or.inl hmem), hbelow⟩
        · rcases List.mem_singleton.mp ha' with rfl
          exact ⟨p, cs, RTree.self_mem_postNodes _, RForest.ancChain_mem_ids_forest cs i l' hh⟩
  | .symlink j p, i, l, h => by
    rw [RTree.ancChain] at h
    split at h
    · cases h
      intro a ha
      cases ha
    · cases h
  | .inaccessible j p, i, l, h => by
    rw [RTree.ancChain] at h
    split at h
    · cases h
      intro a ha
      cases ha
    · cases h

theorem RForest.ancChain_anc_forest : ∀ (G : RForest) (i : Nat) (l : List Nat),
    G.ancChain i = some l → ∀ a ∈ l,
      ∃ p cs, RTree.dir a p cs ∈ G.postNodes ∧ i ∈ (RForest.postNodes cs).map RTree.nodeId
  | .cons t ts, i, l, h => by
    rw [RForest.ancChain] at h
    rcases hh : t.ancChain i with _ | l'
    · rw [hh] at h
      intro a ha
      obtain ⟨p', cs', hmem, hbelow⟩ := RForest.ancChain_anc_forest ts i l h a ha
      exact ⟨p', cs', by
        rw [RForest.postNodes]
        exact List.mem_append.mpr (Or.inr hmem), hbelow⟩
    · rw [hh] at h
      cases h
      intro a ha
      obtain ⟨p', cs', hmem, hbelow⟩ := RTree.ancChain_anc t i l hh a ha
      exact ⟨p', cs', by
        rw [RForest.postNodes]
        exact List.mem_append.mpr (Or.inl hmem), hbelow⟩
end

/-- A parent returned by `get_parent_table_data` is a `Dir` node of the
forest with the queried node strictly below it. -/
theorem RForest.parentIn_anc (F : RForest) (x h : Nat) (hp : F.parentIn x = some h) :
    ∃ p cs, RTree.dir h p cs ∈ F.postNodes ∧ x ∈ (RForest.postNodes cs).map RTree.nodeId := by
  rw [RForest.parentIn] at hp
  rcases hc : F.ancChain x with _ | l
  · rw [hc] at hp
    cases hp
  · rw [hc] at hp
    have hhl : h ∈ l := by
      rcases l with _ | ⟨a, l'⟩
      · cases hp
      · cases hp
        exact List.mem_cons_self _ _
    exact RForest.ancChain_anc_forest F x l hc h hhl

/-! ### Characterisation of equivalence pass 1 -/

theorem upd_self {α : Type} (f : Nat → α) (i : Nat) (v : α) : upd f i v i = v := by
  simp [upd]

theorem upd_ne {α : Type} (f : Nat → α) (i j : Nat) (v : α) (h : j ≠ i) :
    upd f i v j = f j := by
  simp [upd, h]

/-- The node ids that `add_duplicates_to_file_entry` stores for a file (the
empty set when the query fails — the source panics there, a dead branch by
`getDuplicates_buildTable`). -/
def queryIds (hf : HashFns) (tbl : DuplicateTable) (d : FileData) : List Nat :=
  match tbl.get_duplicates (hf.pdig d.path) (tdOf d) with
  | .ok l => l.map TableData.node_id
  | .error _ => []

/-- What the state holds at a node after pass 1: the table answer at files,
the candidate-set computation at dirs (over the final values of the
children, which pass 1 has already fixed), the empty set elsewhere. -/
def P1char (hf : HashFns) (F : RForest) (tbl : DuplicateTable) (st : DuplState) :
    RTree → Prop
  | .file d => st d.id = queryIds hf tbl d
  | .dir i _ cs =>
    st i = (match getPossibleDupl F st i cs.toList with | some r => r | none => [])
  | .symlink i _ => st i = []
  | .inaccessible i _ => st i = []

theorem pass1Step_file_ok (hf : HashFns) (F : RForest) (tbl : DuplicateTable)
    (st : DuplState) (d : FileData) (l : List TableData)
    (h : tbl.get_duplicates (hf.pdig d.path) (tdOf d) = .ok l) :
    pass1Step hf F tbl st (.file d) = upd st d.id (l.map TableData.node_id) := by
  rw [pass1Step, h]

theorem pass1Step_file_error (hf : HashFns) (F : RForest) (tbl : DuplicateTable)
    (st : DuplState) (d : FileData) (e : String)
    (h : tbl.get_duplicates (hf.pdig d.path) (tdOf d) = .error e) :
    pass1Step hf F tbl st (.file d) = st := by
  rw [pass1Step, h]

theorem pass1Step_dir_some (hf : HashFns) (F : RForest) (tbl : DuplicateTable)
    (st : DuplState) (i : Nat) (p : OsStr) (cs : RForest) (r : List Nat)
    (h : getPossibleDupl F st i cs.toList = some r) :
    pass1Step hf F tbl st (.dir i p cs) = upd st i r := by
  rw [pass1Step, h]

theorem pass1Step_dir_none (hf : HashFns) (F : RForest) (tbl : DuplicateTable)
    (st : DuplState) (i : Nat) (p : OsStr) (cs : RForest)
    (h : getPossibleDupl F st i cs.toList = none) :
    pass1Step hf F tbl st (.dir i p cs) = st := by
  rw [pass1Step, h]

theorem queryIds_ok (hf : HashFns) (tbl : DuplicateTable) (d : FileData)
    (l : List TableData) (h : tbl.get_duplicates (hf.pdig d.path) (tdOf d) = .ok l) :
    queryIds hf tbl d = l.map TableData.node_id := by
  rw [queryIds, h]

theorem queryIds_error (hf : HashFns) (tbl : DuplicateTable) (d : FileData)
    (e : String) (h : tbl.get_duplicates (hf.pdig d.path) (tdOf d) = .error e) :
    queryIds hf tbl d = [] := by
  rw [queryIds, h]

theorem nodeDups_congr (st1 st2 : DuplState) (c : RTree)
    (h : st1 c.nodeId = st2 c.nodeId) : nodeDups st1 c = nodeDups st2 c := by
  cases c with
  | file d => rw [nodeDups, nodeDups, show (RTree.file d).nodeId = d.id from rfl] at *; rw [h]
  | dir i p cs => rw [nodeDups, nodeDups, show (RTree.dir i p cs).nodeId = i from rfl] at *; rw [h]
  | symlink i p => rfl
  | inaccessible i p => rfl

theorem gpdGo_congr (F : RForest) (st1 st2 : DuplState) (i : Nat) :
    ∀ (cs : List RTree) (acc : List Nat),
      (∀ c ∈ cs, st1 c.nodeId = st2 c.nodeId) →
      gpdGo F st1 i cs acc = gpdGo F st2 i cs acc := by
  intro cs
  induction cs with
  | nil => intro acc _; rfl
  | cons c rest ih =>
    intro acc h
    rw [gpdGo, gpdGo, nodeDups_congr st1 st2 c (h c (List.mem_cons_self c rest))]
    rcases nodeDups st2 c with _ | hs
    · rfl
    · by_cases hhs : hs = []
      · simp [hhs]
      · simp only [hhs, if_false]
        exact ih _ (fun c' hc' => h c' (List.mem_cons_of_mem c hc'))

theorem getPossibleDupl_congr (F : RForest) (st1 st2 : DuplState) (i : Nat)
    (cs : List RTree) (h : ∀ c ∈ cs, st1 c.nodeId = st2 c.nodeId) :
    getPossibleDupl F st1 i cs = getPossibleDupl F st2 i cs := by
  cases cs with
  | nil => rfl
  | cons c rest =>
    rw [getPossibleDupl, getPossibleDupl,
      nodeDups_congr st1 st2 c (h c (List.mem_cons_self c rest))]
    rcases nodeDups st2 c with _ | hs
    · rfl
    · by_cases hhs : hs = []
      · simp [hhs]
      · simp only [hhs, if_false]
        exact gpdGo_congr F st1 st2 i rest _
          (fun c' hc' => h c' (List.mem_cons_of_mem c hc'))

theorem P1char_congr (hf : HashFns) (F : RForest) (tbl : DuplicateTable)
    (st1 st2 : DuplState) (u : RTree) (h : ∀ j ∈ u.ids, st1 j = st2 j)
    (hc : P1char hf F tbl st1 u) : P1char hf F tbl st2 u := by
  cases u with
  | file d =>
    rw [P1char] at hc ⊢
    rw [← h d.id (RTree.mem_ids_of_mem _ _ (RTree.self_mem_postNodes _))]
    exact hc
  | dir i p cs =>
    rw [P1char] at hc ⊢
    have hcs : ∀ c ∈ cs.toList, st1 c.nodeId = st2 c.nodeId := by
      intro c hcmem
      exact h c.nodeId (RTree.mem_ids_of_mem _ _
        (RTree.childList_mem_postNodes (.dir i p cs) c hcmem))
    rw [← getPossibleDupl_congr F st1 st2 i cs.toList hcs,
      ← h i (RTree.mem_ids_of_mem _ _ (RTree.self_mem_postNodes _))]
    exact hc
  | symlink i p =>
    rw [P1char] at hc ⊢
    rw [← h i (RTree.mem_ids_of_mem _ _ (RTree.self_mem_postNodes _))]
    exact hc
  | inaccessible i p =>
    rw [P1char] at hc ⊢
    rw [← h i (RTree.mem_ids_of_mem _ _ (RTree.self_mem_postNodes _))]
    exact hc

theorem RTree.ids_dir (i : Nat) (p : OsStr) (cs : RForest) :
    (RTree.dir i p cs).ids = RForest.allIds cs ++ [i] := by
  rw [RTree.ids, RTree.postNodes, List.map_append]
  rfl

theorem RForest.allIds_cons (t : RTree) (ts : RForest) :
    (RForest.cons t ts).allIds = t.ids ++ ts.allIds := by
  rw [RForest.allIds, RForest.postNodes, List.map_append]
  rfl

mutual
theorem pass1_char_tree (hf : HashFns) (F : RForest) (tbl : DuplicateTable) :
    ∀ (t : RTree) (st : DuplState),
      (∀ j ∈ t.ids, st j = []) → t.ids.Nodup →
      ((∀ j, j ∉ t.ids → List.foldl (pass1Step hf F tbl) st t.postNodes j = st j) ∧
       (∀ u ∈ t.postNodes,
         P1char hf F tbl (List.foldl (pass1Step hf F tbl) st t.postNodes) u))
  | .file d, st, hinit, _ => by
    rw [RTree.postNodes, List.foldl_cons, List.foldl_nil]
    cases hq : tbl.get_duplicates (hf.pdig d.path) (tdOf d) with
    | ok l =>
      rw [pass1Step_file_ok hf F tbl st d l hq]
      constructor
      · intro j hj
        refine upd_ne st d.id j _ ?_
        intro hc
        exact hj (hc ▸ RTree.mem_ids_of_mem _ _ (RTree.self_mem_postNodes (.file d)))
      · intro u hu
        rcases List.mem_singleton.mp hu with rfl
        rw [P1char, queryIds_ok hf tbl d l hq]
        exact upd_self st d.id _
    | error e =>
      rw [pass1Step_file_error hf F tbl st d e hq]
      constructor
      · intro j _
        rfl
      · intro u hu
        rcases List.mem_singleton.mp hu with rfl
        rw [P1char, queryIds_error hf tbl d e hq]
        exact hinit d.id (RTree.mem_ids_of_mem _ _ (RTree.self_mem_postNodes (.file d)))
  | .symlink i p, st, hinit, _ => by
    rw [RTree.postNodes, List.foldl_cons, List.foldl_nil]
    refine ⟨fun j _ => rfl, ?_⟩
    intro u hu
    rcases List.mem_singleton.mp hu with rfl
    rw [P1char]
    exact hinit i (RTree.mem_ids_of_mem _ _ (RTree.self_mem_postNodes (.symlink i p)))
  | .inaccessible i p, st, hinit, _ => by
    rw [RTree.postNodes, List.foldl_cons, List.foldl_nil]
    refine ⟨fun j _ => rfl, ?_⟩
    intro u hu
    rcases List.mem_singleton.mp hu with rfl
    rw [P1char]
    exact hinit i
      (RTree.mem_ids_of_mem _ _ (RTree.self_mem_postNodes (.inaccessible i p)))
  | .dir i p cs, st, hinit, hnd => by
    rw [RTree.ids_dir] at hinit hnd
    rw [List.nodup_append] at hnd
    obtain ⟨hndcs, _, hdisj⟩ := hnd
    have hinotcs : i ∉ RForest.allIds cs :=
      fun hc => hdisj hc (List.mem_singleton.mpr rfl)
    obtain ⟨hframe1, hchar1⟩ := pass1_char_forest hf F tbl cs st
      (fun j hj => hinit j (List.mem_append.mpr (Or.inl hj))) hndcs
    rw [RTree.postNodes, List.foldl_append, List.foldl_cons, List.foldl_nil]
    have hchildid : ∀ c ∈ cs.toList, c.nodeId ∈ RForest.allIds cs := by
      intro c hcm
      exact List.mem_map.mpr ⟨c, RForest.toList_subset_postNodes cs c hcm, rfl⟩
    cases hg : getPossibleDupl F (List.foldl (pass1Step hf F tbl) st cs.postNodes)
        i cs.toList with
    | some r =>
      rw [pass1Step_dir_some hf F tbl _ i p cs r hg]
      constructor
      · intro j hj
        rw [RTree.ids_dir, List.mem_append] at hj
        have hji : j ≠ i := fun hc => hj (Or.inr (hc ▸ List.mem_singleton.mpr rfl))
        rw [upd_ne _ _ _ _ hji]
        exact hframe1 j (fun hc => hj (Or.inl hc))
      · intro u hu
        rw [List.mem_append] at hu
        rcases hu with hu | hu
        · refine P1char_congr hf F tbl _ _ u ?_ (hchar1 u hu)
          intro j hj
          have hjcs : j ∈ RForest.allIds cs := by
            obtain ⟨v, hv, rfl⟩ := List.mem_map.mp hj
            exact List.mem_map.mpr ⟨v, RForest.postNodes_trans_forest cs u v hu hv, rfl⟩
          exact (upd_ne _ _ _ _ (fun hc => hinotcs (by rw [← hc]; exact hjcs))).symm
        · rcases List.mem_singleton.mp hu with rfl
          rw [P1char]
          have hgs : getPossibleDupl F
              (upd (List.foldl (pass1Step hf F tbl) st cs.postNodes) i r) i cs.toList
              = some r := by
            rw [← hg]
            refine getPossibleDupl_congr F _ _ i cs.toList ?_
            intro c hcm
            exact upd_ne _ _ _ _
              (fun hc => hinotcs (by rw [← hc]; exact hchildid c hcm))
          rw [hgs]
          exact upd_self _ _ _
    | none =>
      rw [pass1Step_dir_none hf F tbl _ i p cs hg]
      constructor
      · intro j hj
        rw [RTree.ids_dir, List.mem_append] at hj
        exact hframe1 j (fun hc => hj (Or.inl hc))
      · intro u hu
        rw [List.mem_append] at hu
        rcases hu with hu | hu
        · exact hchar1 u hu
        · rcases List.mem_singleton.mp hu with rfl
          rw [P1char, hg]
          rw [hframe1 i hinotcs]
          exact hinit i (List.mem_append.mpr (Or.inr (List.mem_singleton.mpr rfl)))

theorem pass1_char_forest (hf : HashFns) (F : RForest) (tbl : DuplicateTable) :
    ∀ (G : RForest) (st : DuplState),
      (∀ j ∈ G.allIds, st j = []) → G.allIds.Nodup →
      ((∀ j, j ∉ G.allIds → List.foldl (pass1Step hf F tbl) st G.postNodes j = st j) ∧
       (∀ u ∈ G.postNodes,
         P1char hf F tbl (List.foldl (pass1Step hf F tbl) st G.postNodes) u))
  | .nil, st, _, _ => by
    rw [RForest.postNodes, List.foldl_nil]
    exact ⟨fun j _ => rfl, fun u hu => absurd hu (by simp)⟩
  | .cons t ts, st, hinit, hnd => by
    rw [RForest.allIds_cons] at hinit hnd
    rw [List.nodup_append] at hnd
    obtain ⟨hndt, hndts, hdisj⟩ := hnd
    obtain ⟨hframe1, hchar1⟩ := pass1_char_tree hf F tbl t st
      (fun j hj => hinit j (List.mem_append.mpr (Or.inl hj))) hndt
    obtain ⟨hframe2, hchar2⟩ := pass1_char_forest hf F tbl ts
      (List.foldl (pass1Step hf F tbl) st t.postNodes)
      (fun j hj => by
        rw [hframe1 j (fun hc => hdisj hc hj)]
        exact hinit j (List.mem_append.mpr (Or.inr hj)))
      hndts
    rw [RForest.postNodes, List.foldl_append]
    constructor
    · intro j hj
      rw [RForest.allIds_cons, List.mem_append] at hj
      rw [hframe2 j (fun hc => hj (Or.inr hc))]
      exact hframe1 j (fun hc => hj (Or.inl hc))
    · intro u hu
      rw [List.mem_append] at hu
      rcases hu with hu | hu
      · refine P1char_congr hf F tbl _ _ u ?_ (hchar1 u hu)
        intro j hj
        have hjt : j ∈ t.ids := RTree.ids_subset t u hu j hj
        exact (hframe2 j (fun hc => hdisj hjt hc)).symm
      · exact hchar2 u hu
end

/-! ### Analysis of `get_possible_dupl_for_dirs` and claim C3 -/

theorem nodeDups_of_fileOrDir (st : DuplState) (c : RTree) (h : c.isFileOrDir = true) :
    nodeDups st c = some (st c.nodeId) := by
  cases c with
  | file d => rfl
  | dir i p cs => rfl
  | symlink i p => cases h
  | inaccessible i p => cases h

theorem nodeDups_of_not_fileOrDir (st : DuplState) (c : RTree)
    (h : c.isFileOrDir = false) : nodeDups st c = none := by
  cases c with
  | file d => cases h
  | dir i p cs => cases h
  | symlink i p => rfl
  | inaccessible i p => rfl

theorem gpdGo_none_of_bad (F : RForest) (st : DuplState) (i : Nat) :
    ∀ (cs : List RTree) (acc : List Nat),
      (∃ c ∈ cs, nodeDups st c = none ∨ nodeDups st c = some []) →
      gpdGo F st i cs acc = none := by
  intro cs
  induction cs with
  | nil =>
    rintro acc ⟨c, hc, _⟩
    cases hc
  | cons c rest ih =>
    rintro acc ⟨c', hc', hbad⟩
    rcases List.mem_cons.mp hc' with rfl | hc'
    · rcases hbad with hb | hb
      · rw [gpdGo, hb]
      · rw [gpdGo, hb]
        simp
    · rw [gpdGo]
      rcases hnd : nodeDups st c with _ | hs
      · rfl
      · by_cases hhs : hs = []
        · simp [hhs]
        · simp only [hhs, if_false]
          exact ih _ ⟨c', hc', hbad⟩

theorem gpdGo_isSome (F : RForest) (st : DuplState) (i : Nat) :
    ∀ (cs : List RTree) (acc : List Nat),
      (∀ c ∈ cs, ∃ hs, nodeDups st c = some hs ∧ hs ≠ []) →
      ∃ r, gpdGo F st i cs acc = some r := by
  intro cs
  induction cs with
  | nil => exact fun acc _ => ⟨acc.filter (fun x => x ≠ i), rfl⟩
  | cons c rest ih =>
    intro acc hgood
    obtain ⟨hs, hnd, hhs⟩ := hgood c (List.mem_cons_self c rest)
    rw [gpdGo, hnd]
    simp only [hhs, if_false]
    exact ih _ (fun c' hc' => hgood c' (List.mem_cons_of_mem c hc'))

theorem gpdGo_mem (F : RForest) (st : DuplState) (i : Nat) :
    ∀ (cs : List RTree) (acc r : List Nat),
      gpdGo F st i cs acc = some r →
      ∀ h, h ∈ r ↔
        (h ∈ acc ∧ (∀ c ∈ cs, h ∈ childParentSet F ((nodeDups st c).getD [])) ∧ h ≠ i) := by
  intro cs
  induction cs with
  | nil =>
    intro acc r hr h
    rw [gpdGo] at hr
    cases hr
    rw [List.mem_filter]
    constructor
    · rintro ⟨ha, hne⟩
      exact ⟨ha, fun c hc => absurd hc (by simp), by simpa using hne⟩
    · rintro ⟨ha, _, hne⟩
      exact ⟨ha, by simpa using hne⟩
  | cons c rest ih =>
    intro acc r hr h
    rw [gpdGo] at hr
    rcases hnd : nodeDups st c with _ | hs
    · rw [hnd] at hr
      cases hr
    · rw [hnd] at hr
      by_cases hhs : hs = []
      · rw [hhs] at hr
        simp at hr
      · simp only [hhs, if_false] at hr
        rw [ih _ r hr h, List.mem_filter]
        constructor
        · rintro ⟨⟨ha, hcps⟩, hrest, hne⟩
          refine ⟨ha, ?_, hne⟩
          intro c' hc'
          rcases List.mem_cons.mp hc' with rfl | hc'
          · rw [hnd]
            simpa using hcps
          · exact hrest c' hc'
        · rintro ⟨ha, hall, hne⟩
          refine ⟨⟨ha, ?_⟩, fun c' hc' => hall c' (List.mem_cons_of_mem c hc'), hne⟩
          have := hall c (List.mem_cons_self c rest)
          rw [hnd] at this
          simpa using this

theorem getPossibleDupl_none_of_bad (F : RForest) (st : DuplState) (i : Nat)
    (cs : List RTree)
    (h : ∃ c ∈ cs, nodeDups st c = none ∨ nodeDups st c = some []) :
    getPossibleDupl F st i cs = none := by
  cases cs with
  | nil =>
    obtain ⟨c, hc, _⟩ := h
    cases hc
  | cons c rest =>
    rw [getPossibleDupl]
    obtain ⟨c', hc', hbad⟩ := h
    rcases List.mem_cons.mp hc' with rfl | hc'
    · rcases hbad with hb | hb
      · rw [hb]
      · rw [hb]
        simp
    · rcases hnd : nodeDups st c with _ | hs
      · rfl
      · by_cases hhs : hs = []
        · simp [hhs]
        · simp only [hhs, if_false]
          exact gpdGo_none_of_bad F st i rest _ ⟨c', hc', hbad⟩

theorem getPossibleDupl_good (F : RForest) (st : DuplState) (i : Nat)
    (cs : List RTree) (hne : cs ≠ [])
    (hgood : ∀ c ∈ cs, ∃ hs, nodeDups st c = some hs ∧ hs ≠ []) :
    ∃ r, getPossibleDupl F st i cs = some r ∧
      ∀ h, h ∈ r ↔
        ((∀ c ∈ cs, h ∈ childParentSet F ((nodeDups st c).getD [])) ∧ h ≠ i) := by
  cases cs with
  | nil => exact absurd rfl hne
  | cons c rest =>
    obtain ⟨hs, hnd, hhs⟩ := hgood c (List.mem_cons_self c rest)
    rw [getPossibleDupl, hnd]
    simp only [hhs, if_false]
    obtain ⟨r, hr⟩ := gpdGo_isSome F st i rest (childParentSet F hs)
      (fun c' hc' => hgood c' (List.mem_cons_of_mem c hc'))
    refine ⟨r, hr, ?_⟩
    intro h
    rw [gpdGo_mem F st i rest _ r hr h]
    constructor
    · rintro ⟨ha, hrest, hne'⟩
      refine ⟨?_, hne'⟩
      intro c' hc'
      rcases List.mem_cons.mp hc' with rfl | hc'
      · rw [hnd]
        exact ha
      · exact hrest c' hc'
    · rintro ⟨hall, hne'⟩
      refine ⟨?_, fun c' hc' => hall c' (List.mem_cons_of_mem c hc'), hne'⟩
      have := hall c (List.mem_cons_self c rest)
      rw [hnd] at this
      exact this

/-- C3: the candidate duplicate set that pass 1 computes for a `Dir` node.
If some child is a Symlink or Inaccessible node, or has an empty duplicate
set, the candidate set is empty; for a `Dir` with children that all carry
non-empty duplicate sets, the candidate set holds exactly the handles that
are parents (synthetic root excluded) of duplicates of every child, the
`Dir`'s own handle excluded. -/
theorem claim3_pass1_dir_candidates (hf : HashFns) (F : RForest)
    (hN : F.allIds.Nodup) (i : Nat) (p : OsStr) (cs : RForest)
    (ht : RTree.dir i p cs ∈ F.postNodes) :
    ((∃ c ∈ cs.toList, c.isFileOrDir = false ∨ pass1 hf F c.nodeId = []) →
      pass1 hf F i = []) ∧
    (cs.toList ≠ [] →
      (∀ c ∈ cs.toList, c.isFileOrDir = true ∧ pass1 hf F c.nodeId ≠ []) →
      (∀ h, h ∈ pass1 hf F i ↔
        ((∀ c ∈ cs.toList, h ∈ childParentSet F (pass1 hf F c.nodeId)) ∧ h ≠ i))) := by
  have hchar := (pass1_char_forest hf F (buildTable hf F) F
    (fun _ => ([] : List Nat)) (fun _ _ => rfl) hN).2 (RTree.dir i p cs) ht
  rw [P1char] at hchar
  rw [show pass1 hf F = List.foldl (pass1Step hf F (buildTable hf F))
    (fun _ => []) F.postNodes from rfl]
  set stF := List.foldl (pass1Step hf F (buildTable hf F)) (fun _ => []) F.postNodes with hstF
  constructor
  · rintro ⟨c, hc, hbad⟩
    have hbad' : nodeDups stF c = none ∨ nodeDups stF c = some [] := by
      rcases hbad with hb | hb
      · exact Or.inl (nodeDups_of_not_fileOrDir stF c hb)
      · rcases hfd : c.isFileOrDir with _ | _
        · exact Or.inl (nodeDups_of_not_fileOrDir stF c hfd)
        · exact Or.inr (hb ▸ nodeDups_of_fileOrDir stF c hfd)
    rw [getPossibleDupl_none_of_bad F stF i cs.toList ⟨c, hc, hbad'⟩] at hchar
    exact hchar
  · intro hne hgood
    obtain ⟨r, hr, hrmem⟩ := getPossibleDupl_good F stF i cs.toList hne
      (fun c hc => ⟨stF c.nodeId, nodeDups_of_fileOrDir stF c (hgood c hc).1,
        (hgood c hc).2⟩)
    rw [hr] at hchar
    intro h
    rw [hchar, hrmem h]
    constructor
    · rintro ⟨hall, hne'⟩
      refine ⟨?_, hne'⟩
      intro c hc
      have := hall c hc
      rw [nodeDups_of_fileOrDir stF c (hgood c hc).1] at this
      exact this
    · rintro ⟨hall, hne'⟩
      refine ⟨?_, hne'⟩
      intro c hc
      rw [nodeDups_of_fileOrDir stF c (hgood c hc).1]
      exact hall c hc

/-! ### Characterisation of the pass 2 sizes and claim C4 -/

/-- Whether the node is an `Inaccessible` node. -/
def RTree.isInaccessible : RTree → Bool
  | .inaccessible _ _ => true
  | _ => false

/-- Whether the node is a `Symlink` node. -/
def RTree.isSymlink : RTree → Bool
  | .symlink _ _ => true
  | _ => false

theorem pass2Step_dir (F : RForest) (s : EqState) (i : Nat) (p : OsStr) (cs : RForest) :
    pass2Step F s (.dir i p cs) =
      ⟨upd s.dupl i ((s.dupl i).filter (fun x => isDuplMutual F s.dupl i x)),
       match setDirSizeGo s.sizes cs.toList 0 with
       | some r => upd s.sizes i (some r)
       | none => s.sizes⟩ := by
  rw [pass2Step]

theorem pass2Step_not_dir (F : RForest) (s : EqState) (u : RTree)
    (h : u.isDir = false) : pass2Step F s u = s := by
  cases u with
  | dir i p cs => cases h
  | file d => rfl
  | symlink i p => rfl
  | inaccessible i p => rfl

theorem pass2Step_sizes_frame (F : RForest) (s : EqState) (u : RTree) (j : Nat)
    (h : j ≠ u.nodeId) : (pass2Step F s u).sizes j = s.sizes j := by
  cases u with
  | dir i p cs =>
    rw [pass2Step_dir]
    rcases setDirSizeGo s.sizes cs.toList 0 with _ | r
    · rfl
    · exact upd_ne _ _ _ _ h
  | file d => rfl
  | symlink i p => rfl
  | inaccessible i p => rfl

theorem pass2Step_dupl_frame (F : RForest) (s : EqState) (u : RTree) (j : Nat)
    (h : j ≠ u.nodeId) : (pass2Step F s u).dupl j = s.dupl j := by
  cases u with
  | dir i p cs =>
    rw [pass2Step_dir]
    exact upd_ne _ _ _ _ h
  | file d => rfl
  | symlink i p => rfl
  | inaccessible i p => rfl

theorem foldl_pass2_sizes_frame (F : RForest) :
    ∀ (L : List RTree) (s : EqState) (j : Nat),
      j ∉ L.map RTree.nodeId → (L.foldl (pass2Step F) s).sizes j = s.sizes j := by
  intro L
  induction L with
  | nil => intro s j _; rfl
  | cons u rest ih =>
    intro s j hj
    rw [List.foldl_cons, ih _ j (fun hc => hj (by simp [hc]))]
    exact pass2Step_sizes_frame F s u j (fun hc => hj (by simp [hc]))

theorem foldl_pass2_dupl_frame (F : RForest) :
    ∀ (L : List RTree) (s : EqState) (j : Nat),
      j ∉ L.map RTree.nodeId → (L.foldl (pass2Step F) s).dupl j = s.dupl j := by
  intro L
  induction L with
  | nil => intro s j _; rfl
  | cons u rest ih =>
    intro s j hj
    rw [List.foldl_cons, ih _ j (fun hc => hj (by simp [hc]))]
    exact pass2Step_dupl_frame F s u j (fun hc => hj (by simp [hc]))

theorem setDirSizeGo_congr (s1 s2 : Nat → Option Nat) :
    ∀ (cs : List RTree) (acc : Nat),
      (∀ c ∈ cs, s1 c.nodeId = s2 c.nodeId) →
      setDirSizeGo s1 cs acc = setDirSizeGo s2 cs acc := by
  intro cs
  induction cs with
  | nil => intro acc _; rfl
  | cons c rest ih =>
    intro acc h
    cases c with
    | file d =>
      rw [setDirSizeGo, setDirSizeGo]
      exact ih _ (fun c' hc' => h c' (List.mem_cons_of_mem _ hc'))
    | dir j p cs' =>
      rw [setDirSizeGo, setDirSizeGo]
      have hjj : s1 j = s2 j := h _ (List.mem_cons_self _ _)
      rw [hjj]
      rcases s2 j with _ | v
      · rfl
      · exact ih _ (fun c' hc' => h c' (List.mem_cons_of_mem _ hc'))
    | symlink j p =>
      rw [setDirSizeGo, setDirSizeGo]
      exact ih _ (fun c' hc' => h c' (List.mem_cons_of_mem _ hc'))
    | inaccessible j p => rfl

/-- What pass 2 leaves in the `sizes` map at a `Dir` node, in terms of the
final sizes of the children. -/
def P2sizeChar (s : EqState) : RTree → Prop
  | .dir i _ cs => s.sizes i = setDirSizeGo s.sizes cs.toList 0
  | _ => True

theorem P2sizeChar_congr (s1 s2 : EqState) (u : RTree)
    (h : ∀ j ∈ u.ids, s1.sizes j = s2.sizes j) (hc : P2sizeChar s1 u) :
    P2sizeChar s2 u := by
  cases u with
  | dir i p cs =>
    rw [P2sizeChar] at hc ⊢
    have hcs : ∀ c ∈ cs.toList, s1.sizes c.nodeId = s2.sizes c.nodeId := by
      intro c hcmem
      exact h c.nodeId (RTree.mem_ids_of_mem _ _
        (RTree.childList_mem_postNodes (.dir i p cs) c hcmem))
    rw [← setDirSizeGo_congr s1.sizes s2.sizes cs.toList 0 hcs,
      ← h i (RTree.mem_ids_of_mem _ _ (RTree.self_mem_postNodes _))]
    exact hc
  | file d => trivial
  | symlink i p => trivial
  | inaccessible i p => trivial

mutual
theorem pass2_size_tree (F : RForest) :
    ∀ (t : RTree) (s : EqState),
      (∀ u ∈ t.postNodes, u.isDir = true → s.sizes u.nodeId = none) → t.ids.Nodup →
      ((∀ j, j ∉ t.ids → (List.foldl (pass2Step F) s t.postNodes).sizes j = s.sizes j) ∧
       (∀ u ∈ t.postNodes, P2sizeChar (List.foldl (pass2Step F) s t.postNodes) u))
  | .file d, s, _, _ => by
    rw [RTree.postNodes, List.foldl_cons, List.foldl_nil]
    exact ⟨fun j _ => rfl, fun u hu => by
      rcases List.mem_singleton.mp hu with rfl
      trivial⟩
  | .symlink i p, s, _, _ => by
    rw [RTree.postNodes, List.foldl_cons, List.foldl_nil]
    exact ⟨fun j _ => rfl, fun u hu => by
      rcases List.mem_singleton.mp hu with rfl
      trivial⟩
  | .inaccessible i p, s, _, _ => by
    rw [RTree.postNodes, List.foldl_cons, List.foldl_nil]
    exact ⟨fun j _ => rfl, fun u hu => by
      rcases List.mem_singleton.mp hu with rfl
      trivial⟩
  | .dir i p cs, s, hinit, hnd => by
    rw [RTree.ids_dir] at hnd
    rw [List.nodup_append] at hnd
    obtain ⟨hndcs, _, hdisj⟩ := hnd
    have hinotcs : i ∉ RForest.allIds cs :=
      fun hc => hdisj hc (List.mem_singleton.mpr rfl)
    obtain ⟨hframe1, hchar1⟩ := pass2_size_forest F cs s
      (fun u hu hud => hinit u (by
        rw [RTree.postNodes]
        exact List.mem_append.mpr (Or.inl hu)) hud)
      hndcs
    rw [RTree.postNodes, List.foldl_append, List.foldl_cons, List.foldl_nil]
    have hchildid : ∀ c ∈ cs.toList, c.nodeId ∈ RForest.allIds cs := by
      intro c hcm
      exact List.mem_map.mpr ⟨c, RForest.toList_subset_postNodes cs c hcm, rfl⟩
    constructor
    · intro j hj
      rw [RTree.ids_dir, List.mem_append] at hj
      have hji : j ≠ (RTree.dir i p cs).nodeId :=
        fun hc => hj (Or.inr (hc ▸ List.mem_singleton.mpr rfl))
      rw [pass2Step_sizes_frame F _ _ j hji]
      exact hframe1 j (fun hc => hj (Or.inl hc))
    · intro u hu
      rw [List.mem_append] at hu
      rcases hu with hu | hu
      · refine P2sizeChar_congr _ _ u ?_ (hchar1 u hu)
        intro j hj
        have hjcs : j ∈ RForest.allIds cs := by
          obtain ⟨v, hv, rfl⟩ := List.mem_map.mp hj
          exact List.mem_map.mpr ⟨v, RForest.postNodes_trans_forest cs u v hu hv, rfl⟩
        refine (pass2Step_sizes_frame F _ _ j ?_).symm
        intro hc
        apply hinotcs
        have hji2 : j = i := hc
        rw [← hji2]
        exact hjcs
      · rcases List.mem_singleton.mp hu with rfl
        rw [P2sizeChar]
        set s1 := List.foldl (pass2Step F) s cs.postNodes with hs1
        have hown : s1.sizes i = none := by
          rw [hframe1 i hinotcs]
          exact hinit (.dir i p cs) (RTree.self_mem_postNodes _) rfl
        have hcs2 : ∀ c ∈ cs.toList,
            (pass2Step F s1 (.dir i p cs)).sizes c.nodeId = s1.sizes c.nodeId := by
          intro c hcm
          refine pass2Step_sizes_frame F s1 _ c.nodeId ?_
          intro hc
          apply hinotcs
          have hci : c.nodeId = i := hc
          rw [← hci]
          exact hchildid c hcm
        rw [setDirSizeGo_congr _ s1.sizes cs.toList 0 hcs2]
        rcases hgo : setDirSizeGo s1.sizes cs.toList 0 with _ | r
        · have hval : (pass2Step F s1 (.dir i p cs)).sizes i = s1.sizes i := by
            rw [pass2Step_dir, hgo]
          rw [hval]
          exact hown
        · have hval : (pass2Step F s1 (.dir i p cs)).sizes i = some r := by
            rw [pass2Step_dir, hgo]
            exact upd_self _ _ _
          rw [hval]

theorem pass2_size_forest (F : RForest) :
    ∀ (G : RForest) (s : EqState),
      (∀ u ∈ G.postNodes, u.isDir = true → s.sizes u.nodeId = none) → G.allIds.Nodup →
      ((∀ j, j ∉ G.allIds → (List.foldl (pass2Step F) s G.postNodes).sizes j = s.sizes j) ∧
       (∀ u ∈ G.postNodes, P2sizeChar (List.foldl (pass2Step F) s G.postNodes) u))
  | .nil, s, _, _ => by
    rw [RForest.postNodes, List.foldl_nil]
    exact ⟨fun j _ => rfl, fun u hu => absurd hu (by simp)⟩
  | .cons t ts, s, hinit, hnd => by
    rw [RForest.allIds_cons] at hnd
    rw [List.nodup_append] at hnd
    obtain ⟨hndt, hndts, hdisj⟩ := hnd
    obtain ⟨hframe1, hchar1⟩ := pass2_size_tree F t s
      (fun u hu hud => hinit u (by
        rw [RForest.postNodes]
        exact List.mem_append.mpr (Or.inl hu)) hud)
      hndt
    obtain ⟨hframe2, hchar2⟩ := pass2_size_forest F ts
      (List.foldl (pass2Step F) s t.postNodes)
      (fun u hu hud => by
        rw [hframe1 u.nodeId (fun hc =>
          hdisj hc (List.mem_map.mpr ⟨u, hu, rfl⟩))]
        exact hinit u (by
          rw [RForest.postNodes]
          exact List.mem_append.mpr (Or.inr hu)) hud)
      hndts
    rw [RForest.postNodes, List.foldl_append]
    constructor
    · intro j hj
      rw [RForest.allIds_cons, List.mem_append] at hj
      rw [hframe2 j (fun hc => hj (Or.inr hc))]
      exact hframe1 j (fun hc => hj (Or.inl hc))
    · intro u hu
      rw [List.mem_append] at hu
      rcases hu with hu | hu
      · refine P2sizeChar_congr _ _ u ?_ (hchar1 u hu)
        intro j hj
        have hjt : j ∈ t.ids := RTree.ids_subset t u hu j hj
        exact (hframe2 j (fun hc => hdisj hjt hc)).symm
      · exact hchar2 u hu
end

/-- Size contribution of one child according to the specification: files
their reported size, dirs their computed size, symlinks zero. -/
def childSizeContrib (sizes : Nat → Option Nat) : RTree → Nat
  | .file d => d.size
  | .dir j _ _ => (sizes j).getD 0
  | _ => 0

/-- Whether a child makes its parent dir's size unknown: an Inaccessible
child, or a Dir child of unknown size. -/
def badChild (sizes : Nat → Option Nat) (c : RTree) : Bool :=
  c.isInaccessible || (c.isDir && (sizes c.nodeId).isNone)

/-- Modelled from the specification text of C4: a Dir's size is `None` if
any child is Inaccessible or a Dir of unknown size, and otherwise the sum
of the children's sizes plus exactly 4096 bytes of directory-listing
overhead. -/
def dirSizeSpec (sizes : Nat → Option Nat) (cs : List RTree) : Option Nat :=
  if cs.any (badChild sizes) then none
  else some ((cs.map (childSizeContrib sizes)).sum + DIR_SIZE)

set_option maxRecDepth 4096 in
theorem setDirSizeGo_eq_spec (sizes : Nat → Option Nat) :
    ∀ (cs : List RTree) (acc : Nat),
      setDirSizeGo sizes cs acc =
        (if cs.any (badChild sizes) then none
         else some (acc + ((cs.map (childSizeContrib sizes)).sum + DIR_SIZE))) := by
  intro cs
  induction cs with
  | nil =>
    intro acc
    rw [setDirSizeGo, if_neg (by simp)]
    simp
  | cons c rest ih =>
    intro acc
    rw [List.any_cons]
    cases c with
    | file d =>
      rw [setDirSizeGo, ih,
        show badChild sizes (RTree.file d) = false from rfl, Bool.false_or,
        List.map_cons, List.sum_cons,
        show childSizeContrib sizes (RTree.file d) = d.size from rfl]
      rcases hb : rest.any (badChild sizes) with _ | _
      · rw [if_neg Bool.false_ne_true, if_neg Bool.false_ne_true,
          Option.some.injEq]
        omega
      · rw [if_pos rfl, if_pos rfl]
    | dir j p cs2 =>
      rcases hs : sizes j with _ | v
      · have hred : setDirSizeGo sizes (RTree.dir j p cs2 :: rest) acc = none := by
          rw [setDirSizeGo, hs]
        rw [hred, show badChild sizes (RTree.dir j p cs2) = (sizes j).isNone from rfl, hs,
          if_pos (by simp)]
      · have hred : setDirSizeGo sizes (RTree.dir j p cs2 :: rest) acc =
            setDirSizeGo sizes rest (acc + v) := by
          rw [setDirSizeGo, hs]
        rw [hred, ih, show badChild sizes (RTree.dir j p cs2) = (sizes j).isNone from rfl,
          hs, show (Option.isNone (some v)) = false from rfl, Bool.false_or,
          List.map_cons, List.sum_cons,
          show childSizeContrib sizes (RTree.dir j p cs2) = (sizes j).getD 0 from rfl,
          hs, Option.getD_some]
        rcases hb : rest.any (badChild sizes) with _ | _
        · rw [if_neg Bool.false_ne_true, if_neg Bool.false_ne_true,
            Option.some.injEq]
          omega
        · rw [if_pos rfl, if_pos rfl]
    | symlink j p =>
      rw [setDirSizeGo, ih,
        show badChild sizes (RTree.symlink j p) = false from rfl, Bool.false_or,
        List.map_cons, List.sum_cons,
        show childSizeContrib sizes (RTree.symlink j p) = 0 from rfl]
      rcases hb : rest.any (badChild sizes) with _ | _
      · rw [if_neg Bool.false_ne_true, if_neg Bool.false_ne_true,
          Option.some.injEq]
        omega
      · rw [if_pos rfl, if_pos rfl]
    | inaccessible j p =>
      rw [setDirSizeGo,
        show badChild sizes (RTree.inaccessible j p) = true from rfl,
        if_pos (by simp)]

/-- C4: after both Equivalence passes, every `Dir` node's size is `None`
when some child is Inaccessible or is a Dir of unknown size, and otherwise
equals the sum of the children's sizes (files their reported size, dirs
their computed size, symlinks zero) plus exactly 4096 bytes of
directory-listing overhead. -/
theorem claim4_dir_size (hf : HashFns) (F : RForest) (hN : F.allIds.Nodup)
    (i : Nat) (p : OsStr) (cs : RForest) (ht : RTree.dir i p cs ∈ F.postNodes) :
    (findDuplicates hf F).sizes i =
      dirSizeSpec (findDuplicates hf F).sizes cs.toList := by
  have hchar := (pass2_size_forest F F ⟨pass1 hf F, fun _ => none⟩
    (fun _ _ _ => rfl) hN).2 (.dir i p cs) ht
  rw [P2sizeChar] at hchar
  rw [show findDuplicates hf F =
    List.foldl (pass2Step F) ⟨pass1 hf F, fun _ => none⟩ F.postNodes from rfl]
  rw [hchar, setDirSizeGo_eq_spec, dirSizeSpec]
  rw [Nat.zero_add]

/-- The concrete two-root forest used by the witnesses: `/A` and `/B` each
hold one file with identical content. -/
def wF : RForest :=
  .cons (.dir 1 (os "/A") (.cons (.file ⟨2, os "/A/x", 10⟩) .nil))
    (.cons (.dir 3 (os "/B") (.cons (.file ⟨4, os "/B/x", 10⟩) .nil)) .nil)

/-- Checksum functions under which both witness files are byte-identical. -/
def wHf : HashFns := ⟨fun _ => "p", fun _ => "f"⟩

/-- C3, witness: on the concrete forest, the candidate set of dir 1
contains dir 3 exactly as the characterisation states. -/
theorem claim3_witness :
    wF.allIds.Nodup ∧
    RTree.dir 1 (os "/A") (RForest.cons (RTree.file ⟨2, os "/A/x", 10⟩) RForest.nil)
      ∈ wF.postNodes ∧
    (3 ∈ pass1 wHf wF 1 ↔
      ((∀ c ∈ (RForest.cons (RTree.file ⟨2, os "/A/x", 10⟩) RForest.nil).toList,
        3 ∈ childParentSet wF (pass1 wHf wF c.nodeId)) ∧ 3 ≠ 1)) :=
  ⟨by decide, by decide,
   (claim3_pass1_dir_candidates wHf wF (by decide) 1 (os "/A") _ (by decide)).2
     (by decide) (by decide) 3⟩

/-- C4, witness: on the concrete forest, dir 1 has the size of its single
10-byte file plus 4096. -/
theorem claim4_witness :
    wF.allIds.Nodup ∧
    (findDuplicates wHf wF).sizes 1 =
      dirSizeSpec (findDuplicates wHf wF).sizes
        (RForest.cons (RTree.file ⟨2, os "/A/x", 10⟩) RForest.nil).toList ∧
    (findDuplicates wHf wF).sizes 1 = some 4106 :=
  ⟨by decide,
   claim4_dir_size wHf wF (by decide) 1 (os "/A") _ (by decide),
   by decide⟩

/-! ### Node identity lemmas under a duplicate-free id assignment -/

/-- The id is carried by a `Dir` node of the forest. -/
def IsDirId (F : RForest) (x : Nat) : Prop := ∃ p cs, RTree.dir x p cs ∈ F.postNodes

theorem RForest.filesPre_id_mem_forest (G : RForest) (d : FileData) (h : d ∈ G.filesPre) :
    d.id ∈ G.allIds :=
  List.mem_map.mpr ⟨.file d, (RForest.mem_filesPre_iff_forest G d).mp h, rfl⟩

theorem RTree.filesPre_id_mem (t : RTree) (d : FileData) (h : d ∈ t.filesPre) :
    d.id ∈ t.ids :=
  List.mem_map.mpr ⟨.file d, (RTree.mem_filesPre_iff t d).mp h, rfl⟩

mutual
theorem RTree.filesPre_nodup : ∀ (t : RTree), t.ids.Nodup →
    (t.filesPre.map FileData.id).Nodup
  | .file d, _ => by
    rw [RTree.filesPre]
    simp
  | .dir i p cs, h => by
    rw [RTree.ids_dir, List.nodup_append] at h
    rw [RTree.filesPre]
    exact RForest.filesPre_nodup_forest cs h.1
  | .symlink i p, _ => by
    rw [RTree.filesPre]
    simp
  | .inaccessible i p, _ => by
    rw [RTree.filesPre]
    simp

theorem RForest.filesPre_nodup_forest : ∀ (G : RForest), G.allIds.Nodup →
    (G.filesPre.map FileData.id).Nodup
  | .nil, _ => by
    rw [RForest.filesPre]
    simp
  | .cons t ts, h => by
    rw [RForest.allIds_cons, List.nodup_append] at h
    rw [RForest.filesPre, List.map_append, List.nodup_append]
    refine ⟨RTree.filesPre_nodup t h.1, RForest.filesPre_nodup_forest ts h.2.1, ?_⟩
    intro a ha hb
    obtain ⟨d1, hd1, rfl⟩ := List.mem_map.mp ha
    obtain ⟨d2, hd2, hid⟩ := List.mem_map.mp hb
    exact h.2.2 (RTree.filesPre_id_mem t d1 hd1)
      (hid ▸ RForest.filesPre_id_mem_forest ts d2 hd2)
end

mutual
theorem RTree.findNode_sound : ∀ (t : RTree) (i : Nat) (u : RTree),
    t.findNode i = some u → u ∈ t.postNodes ∧ u.nodeId = i
  | .file d, i, u, h => by
    rw [RTree.findNode] at h
    split at h
    · rename_i hid
      cases h
      exact ⟨RTree.self_mem_postNodes _, hid⟩
    · cases h
  | .dir j p cs, i, u, h => by
    rw [RTree.findNode] at h
    split at h
    · rename_i hid
      cases h
      exact ⟨RTree.self_mem_postNodes _, hid⟩
    · obtain ⟨hmem, hid⟩ := RForest.findNode_sound_forest cs i u h
      refine ⟨?_, hid⟩
      rw [RTree.postNodes]
      exact List.mem_append.mpr (Or.inl hmem)
  | .symlink j p, i, u, h => by
    rw [RTree.findNode] at h
    split at h
    · rename_i hid
      cases h
      exact ⟨RTree.self_mem_postNodes _, hid⟩
    · cases h
  | .inaccessible j p, i, u, h => by
    rw [RTree.findNode] at h
    split at h
    · rename_i hid
      cases h
      exact ⟨RTree.self_mem_postNodes _, hid⟩
    · cases h

theorem RForest.findNode_sound_forest : ∀ (G : RForest) (i : Nat) (u : RTree),
    G.findNode i = some u → u ∈ G.postNodes ∧ u.nodeId = i
  | .cons t ts, i, u, h => by
    rw [RForest.findNode] at h
    rw [RForest.postNodes]
    rcases hh : t.findNode i with _ | v
    · rw [hh] at h
      obtain ⟨hmem, hid⟩ := RForest.findNode_sound_forest ts i u h
      exact ⟨List.mem_append.mpr (Or.inr hmem), hid⟩
    · rw [hh] at h
      cases h
      obtain ⟨hmem, hid⟩ := RTree.findNode_sound t i u hh
      exact ⟨List.mem_append.mpr (Or.inl hmem), hid⟩
end

mutual
theorem RTree.findNode_complete : ∀ (t : RTree) (i : Nat),
    i ∈ t.ids → ∃ u, t.findNode i = some u
  | .file d, i, h => by
    rw [RTree.ids, RTree.postNodes] at h
    simp only [List.map_cons, List.map_nil, List.mem_singleton] at h
    exact ⟨.file d, by rw [RTree.findNode]; exact if_pos h.symm⟩
  | .dir j p cs, i, h => by
    by_cases hji : j = i
    · exact ⟨.dir j p cs, by rw [RTree.findNode, if_pos hji]⟩
    · rw [RTree.ids_dir, List.mem_append] at h
      rcases h with h | h
      · obtain ⟨u, hu⟩ := RForest.findNode_complete_forest cs i h
        exact ⟨u, by rw [RTree.findNode, if_neg hji]; exact hu⟩
      · exact absurd (List.mem_singleton.mp h).symm hji
  | .symlink j p, i, h => by
    rw [RTree.ids, RTree.postNodes] at h
    simp only [List.map_cons, List.map_nil, List.mem_singleton] at h
    exact ⟨.symlink j p, by rw [RTree.findNode]; exact if_pos h.symm⟩
  | .inaccessible j p, i, h => by
    rw [RTree.ids, RTree.postNodes] at h
    simp only [List.map_cons, List.map_nil, List.mem_singleton] at h
    exact ⟨.inaccessible j p, by rw [RTree.findNode]; exact if_pos h.symm⟩

theorem RForest.findNode_complete_forest : ∀ (G : RForest) (i : Nat),
    i ∈ G.allIds → ∃ u, G.findNode i = some u
  | .cons t ts, i, h => by
    rw [RForest.allIds_cons, List.mem_append] at h
    rcases hh : t.findNode i with _ | v
    · rcases h with h | h
      · obtain ⟨u, hu⟩ := RTree.findNode_complete t i h
        rw [hu] at hh
        cases hh
      · obtain ⟨u, hu⟩ := RForest.findNode_complete_forest ts i h
        exact ⟨u, by rw [RForest.findNode, hh]; exact hu⟩
    · exact ⟨v, by rw [RForest.findNode, hh]⟩
end

theorem postNodes_inj (F : RForest) (hN : F.allIds.Nodup) (u v : RTree)
    (hu : u ∈ F.postNodes) (hv : v ∈ F.postNodes) (h : u.nodeId = v.nodeId) : u = v :=
  List.inj_on_of_nodup_map hN hu hv h

/-- With duplicate-free ids, looking up a `Dir` node's id finds that node. -/
theorem findNode_dir_eq (F : RForest) (hN : F.allIds.Nodup) (x : Nat) (p : OsStr)
    (cs : RForest) (hd : RTree.dir x p cs ∈ F.postNodes) :
    F.findNode x = some (.dir x p cs) := by
  obtain ⟨u, hu⟩ := RForest.findNode_complete_forest F x (List.mem_map.mpr ⟨_, hd, rfl⟩)
  obtain ⟨humem, huid⟩ := RForest.findNode_sound_forest F x u hu
  rw [hu, postNodes_inj F hN u (.dir x p cs) humem hd huid]

/-! ### Pass-1 facts feeding the symmetry proof -/

theorem isDuplMutual_dir_eq (F : RForest) (dp : DuplState) (i x : Nat) (px : OsStr)
    (csx : RForest) (h : F.findNode x = some (.dir x px csx)) :
    isDuplMutual F dp i x = decide (i ∈ dp x) := by
  rw [isDuplMutual, h]

theorem getPossibleDupl_sub (F : RForest) (st : DuplState) (i : Nat)
    (cs : List RTree) (r : List Nat) (h : getPossibleDupl F st i cs = some r) :
    ∀ x ∈ r, (∃ y, F.parentIn y = some x) ∧ x ≠ i := by
  cases cs with
  | nil => cases h
  | cons c rest =>
    rw [getPossibleDupl] at h
    rcases hnd : nodeDups st c with _ | hs
    · rw [hnd] at h
      cases h
    · rw [hnd] at h
      by_cases hhs : hs = []
      · rw [hhs] at h
        simp at h
      · simp only [hhs, if_false] at h
        intro x hx
        have := (gpdGo_mem F st i rest _ r h x).mp hx
        obtain ⟨hacc, _, hne⟩ := this
        refine ⟨?_, hne⟩
        obtain ⟨y, _, hy⟩ := List.mem_filterMap.mp hacc
        exact ⟨y, hy⟩

theorem pass1_dir_sub (hf : HashFns) (F : RForest) (hN : F.allIds.Nodup)
    (i : Nat) (p : OsStr) (cs : RForest) (ht : RTree.dir i p cs ∈ F.postNodes) :
    ∀ x ∈ pass1 hf F i, IsDirId F x ∧ x ≠ i := by
  have hchar := (pass1_char_forest hf F (buildTable hf F) F
    (fun _ => ([] : List Nat)) (fun _ _ => rfl) hN).2 (RTree.dir i p cs) ht
  rw [P1char] at hchar
  rw [show pass1 hf F = List.foldl (pass1Step hf F (buildTable hf F))
    (fun _ => []) F.postNodes from rfl]
  intro x hx
  rcases hg : getPossibleDupl F (List.foldl (pass1Step hf F (buildTable hf F))
      (fun _ => []) F.postNodes) i cs.toList with _ | r
  · rw [hg] at hchar
    rw [hchar] at hx
    cases hx
  · rw [hg] at hchar
    rw [hchar] at hx
    obtain ⟨⟨y, hy⟩, hne⟩ := getPossibleDupl_sub F _ i cs.toList r hg x hx
    obtain ⟨px, csx, hmem, _⟩ := RForest.parentIn_anc F y x hy
    exact ⟨⟨px, csx, hmem⟩, hne⟩

theorem pass1_file_mem (hf : HashFns) (F : RForest) (hN : F.allIds.Nodup)
    (d : FileData) (ht : RTree.file d ∈ F.postNodes) :
    ∀ j, j ∈ pass1 hf F d.id ↔
      ∃ g ∈ F.filesPre, g.id = j ∧ hf.pdig g.path = hf.pdig d.path ∧
        hf.fdig g.path = hf.fdig d.path ∧ g.id ≠ d.id := by
  have hchar := (pass1_char_forest hf F (buildTable hf F) F
    (fun _ => ([] : List Nat)) (fun _ _ => rfl) hN).2 (RTree.file d) ht
  rw [P1char] at hchar
  obtain ⟨l, hok, hmem⟩ := getDuplicates_buildTable hf F d
    (RForest.filesPre_nodup_forest F hN) ((RForest.mem_filesPre_iff_forest F d).mpr ht)
  rw [queryIds_ok _ _ _ _ hok] at hchar
  rw [show pass1 hf F = List.foldl (pass1Step hf F (buildTable hf F))
    (fun _ => []) F.postNodes from rfl]
  intro j
  rw [hchar]
  exact hmem j

/-! ### The pass-2 duplicate filter and claim C2 -/

/-- Invariant of the second `find_duplicates` loop over the duplicate sets:
`P` is the set of dir ids already processed; a processed dir holds its
filtered set, everything else still holds its pass-1 set. -/
def SInv (F : RForest) (d1 : DuplState) (s : EqState) (P : Nat → Prop) : Prop :=
  (∀ i, IsDirId F i →
    ((P i → s.dupl i = (d1 i).filter (fun x => decide (i ∈ d1 x))) ∧
     (¬P i → s.dupl i = d1 i))) ∧
  (∀ i, ¬IsDirId F i → s.dupl i = d1 i)

theorem SInv_congr (F : RForest) (d1 : DuplState) (s : EqState) (P Q : Nat → Prop)
    (h : ∀ i, P i ↔ Q i) (hs : SInv F d1 s P) : SInv F d1 s Q := by
  refine ⟨fun i hi => ⟨fun hq => (hs.1 i hi).1 ((h i).mpr hq),
    fun hq => (hs.1 i hi).2 (fun hp => hq ((h i).mp hp))⟩, hs.2⟩

theorem pass2_dupl_fold (F : RForest) (hN : F.allIds.Nodup) (d1 : DuplState)
    (hd : ∀ i p cs, RTree.dir i p cs ∈ F.postNodes → ∀ x ∈ d1 i, IsDirId F x) :
    ∀ (L : List RTree) (s : EqState) (P : Nat → Prop),
      (∀ u ∈ L, u ∈ F.postNodes) →
      (L.map RTree.nodeId).Nodup →
      (∀ u ∈ L, u.isDir = true → ¬P u.nodeId) →
      SInv F d1 s P →
      SInv F d1 (L.foldl (pass2Step F) s)
        (fun i => P i ∨ ∃ u ∈ L, u.isDir = true ∧ u.nodeId = i) := by
  intro L
  induction L with
  | nil =>
    intro s P _ _ _ hs
    rw [List.foldl_nil]
    refine SInv_congr F d1 s P _ (fun i => ⟨fun h => Or.inl h, fun h => ?_⟩) hs
    rcases h with h | ⟨u, hu, _⟩
    · exact h
    · cases hu
  | cons u rest ih =>
    intro s P hmem hnd hP hs
    rw [List.foldl_cons]
    rw [List.map_cons, List.nodup_cons] at hnd
    cases u with
    | dir i0 p0 cs0 =>
      have hi0dir : IsDirId F i0 := ⟨p0, cs0, hmem _ (List.mem_cons_self _ _)⟩
      have hP0 : ¬P i0 := hP _ (List.mem_cons_self _ _) rfl
      have hdupl0 : s.dupl i0 = d1 i0 := (hs.1 i0 hi0dir).2 hP0
      have hfilt : (s.dupl i0).filter (fun x => isDuplMutual F s.dupl i0 x) =
          (d1 i0).filter (fun x => decide (i0 ∈ d1 x)) := by
        rw [hdupl0]
        refine List.filter_congr ?_
        intro x hx
        obtain ⟨px, csx, hxmem⟩ := hd i0 p0 cs0 (hmem _ (List.mem_cons_self _ _)) x hx
        rw [isDuplMutual_dir_eq F s.dupl i0 x px csx
          (findNode_dir_eq F hN x px csx hxmem)]
        by_cases hPx : P x
        · rw [(hs.1 x ⟨px, csx, hxmem⟩).1 hPx]
          refine decide_eq_decide.mpr ?_
          rw [List.mem_filter]
          constructor
          · exact fun hh => hh.1
          · intro hh
            exact ⟨hh, by simpa using hx⟩
        · rw [(hs.1 x ⟨px, csx, hxmem⟩).2 hPx]
      have hstep : (pass2Step F s (.dir i0 p0 cs0)).dupl =
          upd s.dupl i0 ((d1 i0).filter (fun x => decide (i0 ∈ d1 x))) := by
        rw [pass2Step_dir, ← hfilt]
      have hs1 : SInv F d1 (pass2Step F s (.dir i0 p0 cs0))
          (fun i => P i ∨ i = i0) := by
        constructor
        · intro i hi
          by_cases hii : i = i0
          · subst hii
            constructor
            · intro _
              rw [hstep]
              exact upd_self _ _ _
            · intro hq
              exact absurd (Or.inr rfl) hq
          · constructor
            · intro hq
              rcases hq with hq | hq
              · rw [hstep, upd_ne _ _ _ _ hii]
                exact (hs.1 i hi).1 hq
              · exact absurd hq hii
            · intro hq
              rw [hstep, upd_ne _ _ _ _ hii]
              exact (hs.1 i hi).2 (fun hp => hq (Or.inl hp))
        · intro i hni
          have hii : i ≠ i0 := fun hc => hni (hc ▸ hi0dir)
          rw [hstep, upd_ne _ _ _ _ hii]
          exact hs.2 i hni
      have hres := ih (pass2Step F s (.dir i0 p0 cs0)) (fun i => P i ∨ i = i0)
        (fun u' hu' => hmem u' (List.mem_cons_of_mem _ hu'))
        hnd.2
        (fun u' hu' hud' => by
          rintro (hq | hq)
          · exact hP u' (List.mem_cons_of_mem _ hu') hud' hq
          · exact hnd.1 (hq ▸ List.mem_map.mpr ⟨u', hu', rfl⟩))
        hs1
      refine SInv_congr F d1 _ _ _ (fun i => ?_) hres
      constructor
      · rintro ((hq | hq) | ⟨u', hu', hud', hid'⟩)
        · exact Or.inl hq
        · exact Or.inr ⟨.dir i0 p0 cs0, List.mem_cons_self _ _, rfl, hq.symm⟩
        · exact Or.inr ⟨u', List.mem_cons_of_mem _ hu', hud', hid'⟩
      · rintro (hq | ⟨u', hu', hud', hid'⟩)
        · exact Or.inl (Or.inl hq)
        · rcases List.mem_cons.mp hu' with rfl | hu'
          · exact Or.inl (Or.inr hid'.symm)
          · exact Or.inr ⟨u', hu', hud', hid'⟩
    | file d =>
      rw [pass2Step_not_dir F s (.file d) rfl]
      have hres := ih s P (fun u' hu' => hmem u' (List.mem_cons_of_mem _ hu'))
        hnd.2 (fun u' hu' => hP u' (List.mem_cons_of_mem _ hu')) hs
      refine SInv_congr F d1 _ _ _ (fun i => ?_) hres
      constructor
      · rintro (hq | ⟨u', hu', hud', hid'⟩)
        · exact Or.inl hq
        · exact Or.inr ⟨u', List.mem_cons_of_mem _ hu', hud', hid'⟩
      · rintro (hq | ⟨u', hu', hud', hid'⟩)
        · exact Or.inl hq
        · rcases List.mem_cons.mp hu' with rfl | hu'
          · cases hud'
          · exact Or.inr ⟨u', hu', hud', hid'⟩
    | symlink j p =>
      rw [pass2Step_not_dir F s (.symlink j p) rfl]
      have hres := ih s P (fun u' hu' => hmem u' (List.mem_cons_of_mem _ hu'))
        hnd.2 (fun u' hu' => hP u' (List.mem_cons_of_mem _ hu')) hs
      refine SInv_congr F d1 _ _ _ (fun i => ?_) hres
      constructor
      · rintro (hq | ⟨u', hu', hud', hid'⟩)
        · exact Or.inl hq
        · exact Or.inr ⟨u', List.mem_cons_of_mem _ hu', hud', hid'⟩
      · rintro (hq | ⟨u', hu', hud', hid'⟩)
        · exact Or.inl hq
        · rcases List.mem_cons.mp hu' with rfl | hu'
          · cases hud'
          · exact Or.inr ⟨u', hu', hud', hid'⟩
    | inaccessible j p =>
      rw [pass2Step_not_dir F s (.inaccessible j p) rfl]
      have hres := ih s P (fun u' hu' => hmem u' (List.mem_cons_of_mem _ hu'))
        hnd.2 (fun u' hu' => hP u' (List.mem_cons_of_mem _ hu')) hs
      refine SInv_congr F d1 _ _ _ (fun i => ?_) hres
      constructor
      · rintro (hq | ⟨u', hu', hud', hid'⟩)
        · exact Or.inl hq
        · exact Or.inr ⟨u', List.mem_cons_of_mem _ hu', hud', hid'⟩
      · rintro (hq | ⟨u', hu', hud', hid'⟩)
        · exact Or.inl hq
        · rcases List.mem_cons.mp hu' with rfl | hu'
          · cases hud'
          · exact Or.inr ⟨u', hu', hud', hid'⟩
theorem pass2_dupl_final (F : RForest) (hN : F.allIds.Nodup) (s0 : EqState)
    (hd : ∀ i p cs, RTree.dir i p cs ∈ F.postNodes → ∀ x ∈ s0.dupl i, IsDirId F x) :
    (∀ i, IsDirId F i → (pass2 F s0).dupl i =
        (s0.dupl i).filter (fun x => decide (i ∈ s0.dupl x))) ∧
    (∀ i, ¬IsDirId F i → (pass2 F s0).dupl i = s0.dupl i) := by
  have h := pass2_dupl_fold F hN s0.dupl hd F.postNodes s0 (fun _ => False)
    (fun _ hu => hu) hN (fun _ _ _ hq => hq)
    ⟨fun i _ => ⟨fun hq => hq.elim, fun _ => rfl⟩, fun _ _ => rfl⟩
  rw [show pass2 F s0 = F.postNodes.foldl (pass2Step F) s0 from rfl]
  have hiff : ∀ i, (False ∨ ∃ u ∈ F.postNodes, u.isDir = true ∧ u.nodeId = i) ↔
      IsDirId F i := by
    intro i
    constructor
    · rintro (hq | ⟨u, hu, hud, hid⟩)
      · exact hq.elim
      · cases u with
        | dir j p cs =>
          have hji : j = i := hid
          exact ⟨p, cs, hji ▸ hu⟩
        | file d => cases hud
        | symlink j p => cases hud
        | inaccessible j p => cases hud
    · rintro ⟨p, cs, hmem⟩
      exact Or.inr ⟨.dir i p cs, hmem, rfl, rfl⟩
  exact ⟨fun i hi => (h.1 i hi).1 ((hiff i).mpr hi), fun i hi => h.2 i hi⟩

/-- The id is carried by a `File` node of the forest. -/
def IsFileId (F : RForest) (x : Nat) : Prop :=
  ∃ d : FileData, RTree.file d ∈ F.postNodes ∧ d.id = x

theorem not_isDirId_of_isFileId (F : RForest) (hN : F.allIds.Nodup) (x : Nat)
    (hf : IsFileId F x) : ¬IsDirId F x := by
  rintro ⟨p, cs, hdmem⟩
  obtain ⟨d, hfmem, hid⟩ := hf
  have heq := postNodes_inj F hN _ _ hdmem hfmem (show x = d.id from hid.symm)
  cases heq

theorem pass1_file_members (hf : HashFns) (F : RForest) (hN : F.allIds.Nodup)
    (d : FileData) (ht : RTree.file d ∈ F.postNodes) :
    ∀ j ∈ pass1 hf F d.id, IsFileId F j ∧ j ≠ d.id := by
  intro j hj
  obtain ⟨g, hg, rfl, _, _, hne⟩ := (pass1_file_mem hf F hN d ht j).mp hj
  exact ⟨⟨g, (RForest.mem_filesPre_iff_forest F g).mp hg, rfl⟩, hne⟩

theorem pass1_file_symm (hf : HashFns) (F : RForest) (hN : F.allIds.Nodup)
    (da db : FileData) (hta : RTree.file da ∈ F.postNodes)
    (htb : RTree.file db ∈ F.postNodes) :
    (db.id ∈ pass1 hf F da.id ↔ da.id ∈ pass1 hf F db.id) := by
  have hdamem : da ∈ F.filesPre := (RForest.mem_filesPre_iff_forest F da).mpr hta
  have hdbmem : db ∈ F.filesPre := (RForest.mem_filesPre_iff_forest F db).mpr htb
  rw [pass1_file_mem hf F hN da hta db.id, pass1_file_mem hf F hN db htb da.id]
  constructor
  · rintro ⟨g, hg, hgid, hp, hq, hne⟩
    have hgdb : g = db :=
      List.inj_on_of_nodup_map (RForest.filesPre_nodup_forest F hN) hg hdbmem hgid
    subst hgdb
    exact ⟨da, hdamem, rfl, hp.symm, hq.symm, fun hc => hne hc.symm⟩
  · rintro ⟨g, hg, hgid, hp, hq, hne⟩
    have hgda : g = da :=
      List.inj_on_of_nodup_map (RForest.filesPre_nodup_forest F hN) hg hdamem hgid
    subst hgda
    exact ⟨db, hdbmem, rfl, hp.symm, hq.symm, fun hc => hne hc.symm⟩

/-- C2: after both Equivalence passes complete, duplication is symmetric:
for every two `File` or `Dir` nodes A and B of a tree with duplicate-free
node ids, B is in A's duplicate set if and only if A is in B's. -/
theorem claim2_duplication_symmetric (hf : HashFns) (F : RForest)
    (hN : F.allIds.Nodup) (a b : RTree) (ha : a ∈ F.postNodes)
    (hb : b ∈ F.postNodes) (hafd : a.isFileOrDir = true)
    (hbfd : b.isFileOrDir = true) :
    (b.nodeId ∈ (findDuplicates hf F).dupl a.nodeId ↔
     a.nodeId ∈ (findDuplicates hf F).dupl b.nodeId) := by
  have hd : ∀ i p cs, RTree.dir i p cs ∈ F.postNodes →
      ∀ x ∈ (⟨pass1 hf F, fun _ => none⟩ : EqState).dupl i, IsDirId F x :=
    fun i p cs hmem x hx => (pass1_dir_sub hf F hN i p cs hmem x hx).1
  have hfin := pass2_dupl_final F hN ⟨pass1 hf F, fun _ => none⟩ hd
  rw [show findDuplicates hf F = pass2 F ⟨pass1 hf F, fun _ => none⟩ from rfl]
  cases a with
  | symlink ja pa => cases hafd
  | inaccessible ja pa => cases hafd
  | file da =>
    cases b with
    | symlink jb pb => cases hbfd
    | inaccessible jb pb => cases hbfd
    | file db =>
      simp only [RTree.nodeId]
      have hna : ¬IsDirId F da.id :=
        not_isDirId_of_isFileId F hN da.id ⟨da, ha, rfl⟩
      have hnb : ¬IsDirId F db.id :=
        not_isDirId_of_isFileId F hN db.id ⟨db, hb, rfl⟩
      rw [hfin.2 _ hna, hfin.2 _ hnb]
      exact pass1_file_symm hf F hN da db ha hb
    | dir ib pb csb =>
      simp only [RTree.nodeId]
      have hna : ¬IsDirId F da.id :=
        not_isDirId_of_isFileId F hN da.id ⟨da, ha, rfl⟩
      have hib : IsDirId F ib := ⟨pb, csb, hb⟩
      rw [hfin.2 _ hna, hfin.1 ib hib]
      constructor
      · intro hc
        exact absurd hib (not_isDirId_of_isFileId F hN ib
          ((pass1_file_members hf F hN da ha ib hc).1))
      · intro hc
        have := (pass1_dir_sub hf F hN ib pb csb hb da.id
          (List.mem_filter.mp hc).1).1
        exact absurd this hna
  | dir ia pa csa =>
    cases b with
    | symlink jb pb => cases hbfd
    | inaccessible jb pb => cases hbfd
    | file db =>
      simp only [RTree.nodeId]
      have hnb : ¬IsDirId F db.id :=
        not_isDirId_of_isFileId F hN db.id ⟨db, hb, rfl⟩
      have hia : IsDirId F ia := ⟨pa, csa, ha⟩
      rw [hfin.2 _ hnb, hfin.1 ia hia]
      constructor
      · intro hc
        have := (pass1_dir_sub hf F hN ia pa csa ha db.id
          (List.mem_filter.mp hc).1).1
        exact absurd this hnb
      · intro hc
        exact absurd hia (not_isDirId_of_isFileId F hN ia
          ((pass1_file_members hf F hN db hb ia hc).1))
    | dir ib pb csb =>
      simp only [RTree.nodeId]
      have hia : IsDirId F ia := ⟨pa, csa, ha⟩
      have hib : IsDirId F ib := ⟨pb, csb, hb⟩
      rw [hfin.1 ia hia, hfin.1 ib hib]
      simp only [List.mem_filter, decide_eq_true_eq]
      exact ⟨fun hc => ⟨hc.2, hc.1⟩, fun hc => ⟨hc.2, hc.1⟩⟩

/-- Concrete instance of C2 on a forest of two duplicated directories. -/
theorem claim2_witness :
    wF.allIds.Nodup ∧
    (3 ∈ (findDuplicates wHf wF).dupl 1 ↔ 1 ∈ (findDuplicates wHf wF).dupl 3) ∧
    3 ∈ (findDuplicates wHf wF).dupl 1 :=
  ⟨by decide,
   claim2_duplication_symmetric wHf wF (by decide)
     (.dir 1 (os "/A") (.cons (.file ⟨2, os "/A/x", 10⟩) .nil))
     (.dir 3 (os "/B") (.cons (.file ⟨4, os "/B/x", 10⟩) .nil))
     (by decide) (by decide) (by decide) (by decide),
   by decide⟩

/-! ### The extraction phase (`DirTree::get_duplicates` and helpers) -/

/-- The `IsContained` flag stored on every node. -/
inductive IsContained where
  | no
  | childOfDuplicate
  | parentOfDuplicate
  | duplicate
deriving DecidableEq, Repr

/-- Extractor state: the per-node `is_contained` flags and the list of
emitted duplicate groups. -/
structure XState where
  tags : Nat → IsContained
  groups : List DuplicateObject

/-- `get_node_path` (`none` models the panic on a missing node). -/
def getPath (F : RForest) (i : Nat) : Option OsStr :=
  (F.findNode i).map RTree.pathOf

/-- Insertion into a path set (`HashSet::insert`). -/
def insertPath (p : OsStr) (ps : List OsStr) : List OsStr :=
  if p ∈ ps then ps else p :: ps

/-- The member paths in order (`none` as soon as one lookup panics). -/
def pathsList (F : RForest) : List Nat → Option (List OsStr)
  | [] => some []
  | i :: rest =>
    match getPath F i, pathsList F rest with
    | some p, some ps => some (p :: ps)
    | _, _ => none

/-- `data.iter().map(|x| self.get_node_path(x)).collect::<HashSet<_>>()`:
the member paths as a set (duplicate paths collapse). -/
def pathsOf (F : RForest) (ids : List Nat) : Option (List OsStr) :=
  (pathsList F ids).map List.dedup

/-- `node.get_size()`: a File's reported size, a Dir's computed size,
`none` for the other node kinds. -/
def nodeSize (sizes : Nat → Option Nat) : RTree → Option Nat
  | .file d => some d.size
  | .dir i _ _ => sizes i
  | _ => none

/-- `make_duplicate_object_from_node`: the member paths of the node's
duplicate set plus the node's own path, with the node's size (`none`
models the `expect` panics on a node without duplicates or size). -/
def makeDuplicateObjectFromNode (F : RForest) (dupl : DuplState)
    (sizes : Nat → Option Nat) (t : RTree) : Option DuplicateObject :=
  match nodeDups dupl t, nodeSize sizes t with
  | some ds, some sz =>
    (pathsOf F ds).map (fun ps => ⟨insertPath t.pathOf ps, sz⟩)
  | _, _ => none

/-- `duplicates.remove(duplicates.iter().position(|x| *x == ob) ...)`:
drop the first group equal (derived `PartialEq`: path set and size) to
`ob`; `none` models the panic when no group matches. -/
def removeObject (ob : DuplicateObject) : List DuplicateObject →
    Option (List DuplicateObject)
  | [] => none
  | g :: rest =>
    if DuplicateObject.eqv g ob then some rest
    else (removeObject ob rest).map (g :: ·)

/-- `matches!(is_contained, ParentOfDuplicate | Duplicate)`. -/
def isNodeParentOrDuplicate (tags : Nat → IsContained) (i : Nat) : Bool :=
  decide (tags i = IsContained.parentOfDuplicate) ||
  decide (tags i = IsContained.duplicate)

mutual
/-- `recursively_tag_as_contained`: tag the node and its whole subtree as
`ChildOfDuplicate`, without descending into a subtree whose root already
carries that tag. -/
def recursivelyTag : (Nat → IsContained) → RTree → (Nat → IsContained)
  | tags, .file d =>
    if tags d.id = IsContained.childOfDuplicate then tags
    else upd tags d.id IsContained.childOfDuplicate
  | tags, .dir i _ cs =>
    if tags i = IsContained.childOfDuplicate then tags
    else recursivelyTagF (upd tags i IsContained.childOfDuplicate) cs
  | tags, .symlink i _ =>
    if tags i = IsContained.childOfDuplicate then tags
    else upd tags i IsContained.childOfDuplicate
  | tags, .inaccessible i _ =>
    if tags i = IsContained.childOfDuplicate then tags
    else upd tags i IsContained.childOfDuplicate

/-- `recursively_tag_as_contained` over a list of sibling subtrees. -/
def recursivelyTagF : (Nat → IsContained) → RForest → (Nat → IsContained)
  | tags, .nil => tags
  | tags, .cons t ts => recursivelyTagF (recursivelyTag tags t) ts
end

/-- `set_parents_of_duplicate` over the ancestor chain (nearest first,
synthetic root excluded), with the early return on an ancestor already
tagged `ParentOfDuplicate`. -/
def setParentsGo : (Nat → IsContained) → List Nat → (Nat → IsContained)
  | tags, [] => tags
  | tags, p :: rest =>
    if tags p = IsContained.parentOfDuplicate then tags
    else setParentsGo (upd tags p IsContained.parentOfDuplicate) rest

/-- `DirTree::duplicates_contain_path`. -/
def duplicatesContainPath (gs : List DuplicateObject) (p : OsStr) : Bool :=
  gs.any (fun x => decide (p ∈ x.duplicates))

/-- Tagging loop of the push branch of `add_duplicates_to_list`: for each
member, tag its children subtrees as contained, its ancestors as parents
of duplicate, and the member itself as `Duplicate`. -/
def tagMemberLoop (F : RForest) : (Nat → IsContained) → List Nat →
    Option (Nat → IsContained)
  | tags, [] => some tags
  | tags, i :: rest =>
    match F.findNode i with
    | none => none
    | some t =>
      let tg1 := t.childList.foldl recursivelyTag tags
      let tg2 := setParentsGo tg1 (F.ancestorIds i)
      tagMemberLoop F (upd tg2 i IsContained.duplicate) rest

/-- Tagging loop of the contained branch of `add_duplicates_to_list`:
`recursively_tag_as_contained` on every member. -/
def tagContainedLoop (F : RForest) : (Nat → IsContained) → List Nat →
    Option (Nat → IsContained)
  | tags, [] => some tags
  | tags, i :: rest =>
    match F.findNode i with
    | none => none
    | some t => tagContainedLoop F (recursivelyTag tags t) rest

/-- The `Duplicate` branch of `remove_duplicate_from_list`: remove the
node's duplicate object from the group list and retag the node and its
whole duplicate set as `ChildOfDuplicate`. -/
def removeDuplStep (F : RForest) (dupl : DuplState) (sizes : Nat → Option Nat)
    (s : XState) (t : RTree) : Option XState :=
  if s.tags t.nodeId = IsContained.duplicate then
    match makeDuplicateObjectFromNode F dupl sizes t, nodeDups dupl t with
    | some ob, some ds =>
      match removeObject ob s.groups with
      | none => none
      | some gs =>
        some ⟨(t.nodeId :: ds).foldl
          (fun tg i => upd tg i IsContained.childOfDuplicate) s.tags, gs⟩
    | _, _ => none
  else some s

mutual
/-- `remove_duplicate_from_list`: handle a `Duplicate`-tagged node, then
recurse into the children tagged `ParentOfDuplicate` or `Duplicate` (the
child list is filtered against the tags as they stand before any
recursive call, as in the source). -/
def removeDuplicateFromList (F : RForest) (dupl : DuplState)
    (sizes : Nat → Option Nat) : XState → RTree → Option XState
  | s, .file d => removeDuplStep F dupl sizes s (.file d)
  | s, .dir i p cs =>
    match removeDuplStep F dupl sizes s (.dir i p cs) with
    | none => none
    | some s1 => removeDuplicateFromListF F dupl sizes s1 s1.tags cs
  | s, .symlink i p => removeDuplStep F dupl sizes s (.symlink i p)
  | s, .inaccessible i p => removeDuplStep F dupl sizes s (.inaccessible i p)

/-- The filtered-children loop of `remove_duplicate_from_list`; `snap` is
the tag state at the time the child list was filtered. -/
def removeDuplicateFromListF (F : RForest) (dupl : DuplState)
    (sizes : Nat → Option Nat) : XState → (Nat → IsContained) → RForest →
    Option XState
  | s, _, .nil => some s
  | s, snap, .cons c ts =>
    if isNodeParentOrDuplicate snap c.nodeId then
      match removeDuplicateFromList F dupl sizes s c with
      | none => none
      | some s' => removeDuplicateFromListF F dupl sizes s' snap ts
    else removeDuplicateFromListF F dupl sizes s snap ts
end

/-- Removal loop of `add_duplicates_to_list`: for each member currently
tagged `ParentOfDuplicate`, run `remove_duplicate_from_list` on it. -/
def remParentsLoop (F : RForest) (dupl : DuplState) (sizes : Nat → Option Nat) :
    XState → List Nat → Option XState
  | s, [] => some s
  | s, i :: rest =>
    if s.tags i = IsContained.parentOfDuplicate then
      match F.findNode i with
      | none => none
      | some t =>
        match removeDuplicateFromList F dupl sizes s t with
        | none => none
        | some s' => remParentsLoop F dupl sizes s' rest
    else remParentsLoop F dupl sizes s rest

/-- `add_duplicates_to_list`. The `is_contained` flag is computed first,
the removal loop then runs unconditionally, and only afterwards does the
branch on the flag decide between pushing a new group (tagging members as
`Duplicate`, their subtrees as contained and their ancestors as parents)
and merely tagging the members as contained. The leading presence check
models the panic of the first loop on a member missing from the tree. -/
def addDuplicatesToList (F : RForest) (dupl : DuplState)
    (sizes : Nat → Option Nat) (size : Nat) (data : List Nat) (s : XState) :
    Option XState :=
  if data.all (fun i => (F.findNode i).isSome) then
    match remParentsLoop F dupl sizes s data with
    | none => none
    | some s1 =>
      if data.any (fun i => decide (s.tags i = IsContained.childOfDuplicate)) then
        (tagContainedLoop F s1.tags data).map (fun tg => ⟨tg, s1.groups⟩)
      else
        match pathsOf F data with
        | none => none
        | some ps =>
          (tagMemberLoop F s1.tags data).map
            (fun tg => ⟨tg, s1.groups ++ [⟨ps, size⟩]⟩)
  else none

mutual
/-- `recursively_get_duplicates`: at a node with a non-empty duplicate
set whose path is not already listed and whose size exceeds `minSize`,
add the group (the node plus its duplicates); otherwise recurse into the
children. The `&&` of the source short-circuits, so a Dir whose path is
already listed recurses without consulting its (possibly missing) size;
`none` models the `expect` panic on a duplicated Dir without size. -/
def recursivelyGetDuplicates (F : RForest) (dupl : DuplState)
    (sizes : Nat → Option Nat) (minSize : Nat) : XState → RTree → Option XState
  | s, .file d =>
    if dupl d.id = [] then some s
    else if duplicatesContainPath s.groups d.path then some s
    else if minSize < d.size then
      addDuplicatesToList F dupl sizes d.size (d.id :: dupl d.id) s
    else some s
  | s, .dir i p cs =>
    if dupl i = [] then recursivelyGetDuplicatesF F dupl sizes minSize s cs
    else if duplicatesContainPath s.groups p then
      recursivelyGetDuplicatesF F dupl sizes minSize s cs
    else
      match sizes i with
      | none => none
      | some sz =>
        if minSize < sz then addDuplicatesToList F dupl sizes sz (i :: dupl i) s
        else recursivelyGetDuplicatesF F dupl sizes minSize s cs
  | s, .symlink _ _ => some s
  | s, .inaccessible _ _ => some s

/-- `recursively_get_duplicates` over a list of sibling subtrees. -/
def recursivelyGetDuplicatesF (F : RForest) (dupl : DuplState)
    (sizes : Nat → Option Nat) (minSize : Nat) : XState → RForest → Option XState
  | s, .nil => some s
  | s, .cons t ts =>
    match recursivelyGetDuplicates F dupl sizes minSize s t with
    | none => none
    | some s' => recursivelyGetDuplicatesF F dupl sizes minSize s' ts
end

/-- The extraction driver of `DirTree::get_duplicates`: run
`recursively_get_duplicates` over the root nodes with fresh tags (every
node starts as `IsContained::No`) and an empty group list. -/
def runExtractor (F : RForest) (dupl : DuplState) (sizes : Nat → Option Nat)
    (minSize : Nat) : Option (List DuplicateObject) :=
  (recursivelyGetDuplicatesF F dupl sizes minSize
    ⟨fun _ => IsContained.no, []⟩ F).map XState.groups

/-- `DirTree::get_duplicates(min_size)`: both Equivalence passes, then
extraction on the resulting duplicate sets and sizes. -/
def treeGetDuplicates (hf : HashFns) (F : RForest) (minSize : Nat) :
    Option (List DuplicateObject) :=
  runExtractor F (findDuplicates hf F).dupl (findDuplicates hf F).sizes minSize

/-- Stable insertion into a size-ascending list: an element goes before
the first element of size ≥ its own, so earlier elements precede later
ones of equal size. -/
def insertBySize (g : DuplicateObject) : List DuplicateObject →
    List DuplicateObject
  | [] => [g]
  | h :: t => if g.size ≤ h.size then g :: h :: t else h :: insertBySize g t

/-- Stable ascending sort by size, the behaviour of
`duplicates.sort_by_key(|x| x.size)` (Rust's sort is stable). -/
def sortBySize : List DuplicateObject → List DuplicateObject
  | [] => []
  | g :: rest => insertBySize g (sortBySize rest)

/-- `lib.rs get_duplicates`: read `min_size` from the options map with
default 0, run the tree search, sort ascending by size and reverse. -/
def libGetDuplicates (hf : HashFns) (F : RForest)
    (opts : List (String × Nat)) : Option (List DuplicateObject) :=
  (treeGetDuplicates hf F ((alGet "min_size" opts).getD 0)).map
    (fun gs => (sortBySize gs).reverse)

/-! ### Group-list and tag lemmas for the extraction phase -/

theorem removeObject_sublist (ob : DuplicateObject) :
    ∀ (gs gs' : List DuplicateObject), removeObject ob gs = some gs' →
      gs'.Sublist gs := by
  intro gs
  induction gs with
  | nil => intro gs' h; cases h
  | cons g rest ih =>
    intro gs' h
    rw [removeObject] at h
    split at h
    · cases h
      exact List.sublist_cons_self g rest
    · rcases hr : removeObject ob rest with _ | r <;> rw [hr] at h
      · cases h
      · rw [Option.map_some'] at h
        cases h
        exact List.Sublist.cons₂ g (ih r hr)

theorem removeDuplStep_eq_dup (F : RForest) (dupl : DuplState)
    (sizes : Nat → Option Nat) (s : XState) (t : RTree) (ob : DuplicateObject)
    (ds : List Nat) (hd : s.tags t.nodeId = IsContained.duplicate)
    (hm : makeDuplicateObjectFromNode F dupl sizes t = some ob)
    (hn : nodeDups dupl t = some ds) :
    removeDuplStep F dupl sizes s t =
      match removeObject ob s.groups with
      | none => none
      | some gs =>
        some ⟨(t.nodeId :: ds).foldl
          (fun tg i => upd tg i IsContained.childOfDuplicate) s.tags, gs⟩ := by
  rw [removeDuplStep, if_pos hd, hm, hn]

theorem removeDuplStep_sublist (F : RForest) (dupl : DuplState)
    (sizes : Nat → Option Nat) (s : XState) (t : RTree) (s' : XState)
    (h : removeDuplStep F dupl sizes s t = some s') :
    s'.groups.Sublist s.groups := by
  by_cases hd : s.tags t.nodeId = IsContained.duplicate
  · rcases hm : makeDuplicateObjectFromNode F dupl sizes t with _ | ob
    · rcases hn : nodeDups dupl t with _ | ds <;>
        rw [removeDuplStep, if_pos hd, hm, hn] at h <;> exact Option.noConfusion h
    · rcases hn : nodeDups dupl t with _ | ds
      · rw [removeDuplStep, if_pos hd, hm, hn] at h
        exact Option.noConfusion h
      · rw [removeDuplStep_eq_dup F dupl sizes s t ob ds hd hm hn] at h
        rcases hr : removeObject ob s.groups with _ | gs <;> rw [hr] at h
        · exact Option.noConfusion h
        · have h2 : some (⟨(t.nodeId :: ds).foldl
              (fun tg i => upd tg i IsContained.childOfDuplicate) s.tags, gs⟩ :
              XState) = some s' := h
          cases h2
          exact removeObject_sublist ob s.groups gs hr
  · rw [removeDuplStep, if_neg hd] at h
    cases h
    exact List.Sublist.refl _

mutual
theorem removeDuplicateFromList_sublist (F : RForest) (dupl : DuplState)
    (sizes : Nat → Option Nat) : ∀ (t : RTree) (s s' : XState),
    removeDuplicateFromList F dupl sizes s t = some s' →
    s'.groups.Sublist s.groups
  | .file d, s, s', h => by
    rw [removeDuplicateFromList] at h
    exact removeDuplStep_sublist F dupl sizes s _ s' h
  | .dir i p cs, s, s', h => by
    rw [removeDuplicateFromList] at h
    rcases h1 : removeDuplStep F dupl sizes s (.dir i p cs) with _ | s1 <;>
      rw [h1] at h
    · cases h
    · exact (removeDuplicateFromListF_sublist F dupl sizes cs s1 s1.tags s' h).trans
        (removeDuplStep_sublist F dupl sizes s _ s1 h1)
  | .symlink i p, s, s', h => by
    rw [removeDuplicateFromList] at h
    exact removeDuplStep_sublist F dupl sizes s _ s' h
  | .inaccessible i p, s, s', h => by
    rw [removeDuplicateFromList] at h
    exact removeDuplStep_sublist F dupl sizes s _ s' h

theorem removeDuplicateFromListF_sublist (F : RForest) (dupl : DuplState)
    (sizes : Nat → Option Nat) : ∀ (G : RForest) (s : XState)
    (snap : Nat → IsContained) (s' : XState),
    removeDuplicateFromListF F dupl sizes s snap G = some s' →
    s'.groups.Sublist s.groups
  | .nil, s, snap, s', h => by
    rw [removeDuplicateFromListF] at h
    cases h
    exact List.Sublist.refl _
  | .cons c ts, s, snap, s', h => by
    rw [removeDuplicateFromListF] at h
    split at h
    · rcases h1 : removeDuplicateFromList F dupl sizes s c with _ | s1 <;>
        rw [h1] at h
      · cases h
      · exact (removeDuplicateFromListF_sublist F dupl sizes ts s1 snap s' h).trans
          (removeDuplicateFromList_sublist F dupl sizes c s s1 h1)
    · exact removeDuplicateFromListF_sublist F dupl sizes ts s snap s' h
end

theorem remParentsLoop_cons_parent (F : RForest) (dupl : DuplState)
    (sizes : Nat → Option Nat) (s : XState) (i : Nat) (rest : List Nat)
    (t : RTree) (htag : s.tags i = IsContained.parentOfDuplicate)
    (hf : F.findNode i = some t) :
    remParentsLoop F dupl sizes s (i :: rest) =
      match removeDuplicateFromList F dupl sizes s t with
      | none => none
      | some s1 => remParentsLoop F dupl sizes s1 rest := by
  rw [remParentsLoop, if_pos htag, hf]

theorem remParentsLoop_sublist (F : RForest) (dupl : DuplState)
    (sizes : Nat → Option Nat) : ∀ (data : List Nat) (s s' : XState),
    remParentsLoop F dupl sizes s data = some s' →
    s'.groups.Sublist s.groups := by
  intro data
  induction data with
  | nil =>
    intro s s' h
    rw [remParentsLoop] at h
    cases h
    exact List.Sublist.refl _
  | cons i rest ih =>
    intro s s' h
    by_cases htag : s.tags i = IsContained.parentOfDuplicate
    · rcases h1 : F.findNode i with _ | t
      · rw [remParentsLoop, if_pos htag, h1] at h
        exact Option.noConfusion h
      · rw [remParentsLoop_cons_parent F dupl sizes s i rest t htag h1] at h
        rcases h2 : removeDuplicateFromList F dupl sizes s t with _ | s1 <;>
          rw [h2] at h
        · exact Option.noConfusion h
        · exact (ih s1 s' h).trans
            (removeDuplicateFromList_sublist F dupl sizes t s s1 h2)
    · rw [remParentsLoop, if_neg htag] at h
      exact ih s s' h

mutual
theorem recursivelyTag_mono : ∀ (tags : Nat → IsContained) (t : RTree) (j : Nat),
    (recursivelyTag tags t) j = tags j ∨
    (recursivelyTag tags t) j = IsContained.childOfDuplicate
  | tags, .file d, j => by
    rw [recursivelyTag]
    split
    · exact Or.inl rfl
    · by_cases hj : j = d.id
      · subst hj
        rw [upd_self]
        exact Or.inr rfl
      · rw [upd_ne _ _ _ _ hj]
        exact Or.inl rfl
  | tags, .dir i p cs, j => by
    rw [recursivelyTag]
    split
    · exact Or.inl rfl
    · rcases recursivelyTagF_mono (upd tags i IsContained.childOfDuplicate) cs j
        with h | h
      · rw [h]
        by_cases hj : j = i
        · subst hj
          rw [upd_self]
          exact Or.inr rfl
        · rw [upd_ne _ _ _ _ hj]
          exact Or.inl rfl
      · exact Or.inr h
  | tags, .symlink i p, j => by
    rw [recursivelyTag]
    split
    · exact Or.inl rfl
    · by_cases hj : j = i
      · subst hj
        rw [upd_self]
        exact Or.inr rfl
      · rw [upd_ne _ _ _ _ hj]
        exact Or.inl rfl
  | tags, .inaccessible i p, j => by
    rw [recursivelyTag]
    split
    · exact Or.inl rfl
    · by_cases hj : j = i
      · subst hj
        rw [upd_self]
        exact Or.inr rfl
      · rw [upd_ne _ _ _ _ hj]
        exact Or.inl rfl

theorem recursivelyTagF_mono : ∀ (tags : Nat → IsContained) (G : RForest) (j : Nat),
    (recursivelyTagF tags G) j = tags j ∨
    (recursivelyTagF tags G) j = IsContained.childOfDuplicate
  | tags, .nil, j => Or.inl rfl
  | tags, .cons t ts, j => by
    rw [recursivelyTagF]
    rcases recursivelyTagF_mono (recursivelyTag tags t) ts j with h | h
    · rw [h]
      exact recursivelyTag_mono tags t j
    · exact Or.inr h
end

theorem recursivelyTag_keep (tags : Nat → IsContained) (t : RTree) (j : Nat)
    (h : tags j = IsContained.childOfDuplicate) :
    (recursivelyTag tags t) j = IsContained.childOfDuplicate := by
  rcases recursivelyTag_mono tags t j with h2 | h2
  · rw [h2, h]
  · exact h2

theorem recursivelyTagF_keep (tags : Nat → IsContained) (G : RForest) (j : Nat)
    (h : tags j = IsContained.childOfDuplicate) :
    (recursivelyTagF tags G) j = IsContained.childOfDuplicate := by
  rcases recursivelyTagF_mono tags G j with h2 | h2
  · rw [h2, h]
  · exact h2

theorem recursivelyTag_sets (tags : Nat → IsContained) (t : RTree) :
    (recursivelyTag tags t) t.nodeId = IsContained.childOfDuplicate := by
  cases t with
  | file d =>
    rw [recursivelyTag]
    split
    · assumption
    · exact upd_self _ _ _
  | dir i p cs =>
    rw [recursivelyTag]
    split
    · assumption
    · exact recursivelyTagF_keep _ cs i (upd_self _ _ _)
  | symlink i p =>
    rw [recursivelyTag]
    split
    · assumption
    · exact upd_self _ _ _
  | inaccessible i p =>
    rw [recursivelyTag]
    split
    · assumption
    · exact upd_self _ _ _

theorem tagContainedLoop_tags (F : RForest) : ∀ (data : List Nat)
    (tags tg : Nat → IsContained), tagContainedLoop F tags data = some tg →
    (∀ i ∈ data, tg i = IsContained.childOfDuplicate) ∧
    (∀ j, tags j = IsContained.childOfDuplicate →
      tg j = IsContained.childOfDuplicate) := by
  intro data
  induction data with
  | nil =>
    intro tags tg h
    rw [tagContainedLoop] at h
    cases h
    exact ⟨fun i hi => absurd hi (List.not_mem_nil i), fun j hj => hj⟩
  | cons i rest ih =>
    intro tags tg h
    rw [tagContainedLoop] at h
    rcases hf : F.findNode i with _ | t <;> rw [hf] at h
    · cases h
    · obtain ⟨h1, h2⟩ := ih (recursivelyTag tags t) tg h
      have hroot : (recursivelyTag tags t) i = IsContained.childOfDuplicate := by
        have hs := recursivelyTag_sets tags t
        rwa [(RForest.findNode_sound_forest F i t hf).2] at hs
      refine ⟨?_, fun j hj => h2 j (recursivelyTag_keep tags t j hj)⟩
      intro k hk
      rcases List.mem_cons.mp hk with rfl | hk
      · exact h2 k hroot
      · exact h1 k hk

theorem addDuplicatesToList_eq_branch (F : RForest) (dupl : DuplState)
    (sizes : Nat → Option Nat) (sz : Nat) (data : List Nat) (s s1 : XState)
    (hall : data.all (fun i => (F.findNode i).isSome) = true)
    (hr : remParentsLoop F dupl sizes s data = some s1) :
    addDuplicatesToList F dupl sizes sz data s =
      if data.any (fun i => decide (s.tags i = IsContained.childOfDuplicate)) = true then
        (tagContainedLoop F s1.tags data).map (fun tg => ⟨tg, s1.groups⟩)
      else
        match pathsOf F data with
        | none => none
        | some ps =>
          (tagMemberLoop F s1.tags data).map
            (fun tg => ⟨tg, s1.groups ++ [⟨ps, sz⟩]⟩) := by
  rw [addDuplicatesToList, if_pos hall, hr]

theorem addDuplicatesToList_groups (F : RForest) (dupl : DuplState)
    (sizes : Nat → Option Nat) (sz : Nat) (data : List Nat) (s s' : XState)
    (h : addDuplicatesToList F dupl sizes sz data s = some s') :
    ∃ s1 : XState, s1.groups.Sublist s.groups ∧
      (s'.groups = s1.groups ∨
        ∃ ps, pathsOf F data = some ps ∧ s'.groups = s1.groups ++ [⟨ps, sz⟩]) := by
  rcases hall : data.all (fun i => (F.findNode i).isSome) with _ | _
  · rw [addDuplicatesToList, if_neg (by simp [hall])] at h
    exact Option.noConfusion h
  · rcases hr : remParentsLoop F dupl sizes s data with _ | s1
    · rw [addDuplicatesToList, if_pos hall, hr] at h
      exact Option.noConfusion h
    · rw [addDuplicatesToList_eq_branch F dupl sizes sz data s s1 hall hr] at h
      refine ⟨s1, remParentsLoop_sublist F dupl sizes data s s1 hr, ?_⟩
      split at h
      · rcases ht : tagContainedLoop F s1.tags data with _ | tg <;> rw [ht] at h
        · exact Option.noConfusion h
        · rw [Option.map_some'] at h
          cases h
          exact Or.inl rfl
      · rcases hp : pathsOf F data with _ | ps <;> rw [hp] at h
        · exact Option.noConfusion h
        · rcases ht : tagMemberLoop F s1.tags data with _ | tg <;> rw [ht] at h
          · exact Option.noConfusion h
          · have h2 : some (⟨tg, s1.groups ++ [⟨ps, sz⟩]⟩ : XState) = some s' := h
            cases h2
            exact Or.inr ⟨ps, rfl, rfl⟩

theorem addDuplicatesToList_P (F : RForest) (dupl : DuplState)
    (sizes : Nat → Option Nat) (sz : Nat) (data : List Nat) (s s' : XState)
    (P : DuplicateObject → Prop) (hP : ∀ g ∈ s.groups, P g)
    (hnew : ∀ ps, pathsOf F data = some ps → P ⟨ps, sz⟩)
    (h : addDuplicatesToList F dupl sizes sz data s = some s') :
    ∀ g ∈ s'.groups, P g := by
  obtain ⟨s1, hsub, hor⟩ := addDuplicatesToList_groups F dupl sizes sz data s s' h
  have h1 : ∀ g ∈ s1.groups, P g := fun g hg => hP g (hsub.subset hg)
  rcases hor with he | ⟨ps, hps, he⟩
  · rw [he]
    exact h1
  · rw [he]
    intro g hg
    rcases List.mem_append.mp hg with hg | hg
    · exact h1 g hg
    · rw [List.mem_singleton.mp hg]
      exact hnew ps hps

mutual
/-- Invariant of the extraction recursion over one subtree: every group
ever pushed satisfies `P` (supplied by `hnew` for the push sites), so the
final group list satisfies `P` throughout. -/
theorem recGetDup_groups_tree (F : RForest) (dupl : DuplState)
    (sizes : Nat → Option Nat) (minSize : Nat) (P : DuplicateObject → Prop)
    (hnew : ∀ (u : RTree), u ∈ F.postNodes → dupl u.nodeId ≠ [] →
      ∀ sz, nodeSize sizes u = some sz → minSize < sz →
      ∀ ps, pathsOf F (u.nodeId :: dupl u.nodeId) = some ps → P ⟨ps, sz⟩) :
    ∀ (t : RTree) (s s' : XState), t ∈ F.postNodes →
      recursivelyGetDuplicates F dupl sizes minSize s t = some s' →
      (∀ g ∈ s.groups, P g) → ∀ g ∈ s'.groups, P g
  | .file d, s, s', hmem, h, hP => by
    rw [recursivelyGetDuplicates] at h
    by_cases h0 : dupl d.id = []
    · rw [if_pos h0] at h
      cases h
      exact hP
    · rw [if_neg h0] at h
      by_cases h1 : duplicatesContainPath s.groups d.path = true
      · rw [if_pos h1] at h
        cases h
        exact hP
      · rw [if_neg h1] at h
        by_cases h2 : minSize < d.size
        · rw [if_pos h2] at h
          exact addDuplicatesToList_P F dupl sizes d.size (d.id :: dupl d.id)
            s s' P hP (fun ps hps => hnew (.file d) hmem h0 d.size rfl h2 ps hps) h
        · rw [if_neg h2] at h
          cases h
          exact hP
  | .dir i p cs, s, s', hmem, h, hP => by
    rw [recursivelyGetDuplicates] at h
    have hch : ∀ u, u ∈ cs.toList → u ∈ F.postNodes := fun u hu =>
      RForest.postNodes_trans_forest F _ u hmem
        (RTree.childList_mem_postNodes (.dir i p cs) u hu)
    by_cases h0 : dupl i = []
    · rw [if_pos h0] at h
      exact recGetDup_groups_forest F dupl sizes minSize P hnew cs s s' hch h hP
    · rw [if_neg h0] at h
      by_cases h1 : duplicatesContainPath s.groups p = true
      · rw [if_pos h1] at h
        exact recGetDup_groups_forest F dupl sizes minSize P hnew cs s s' hch h hP
      · rw [if_neg h1] at h
        rcases hsz : sizes i with _ | sz <;> rw [hsz] at h
        · exact Option.noConfusion h
        · have h3 : (if minSize < sz then
              addDuplicatesToList F dupl sizes sz (i :: dupl i) s
            else recursivelyGetDuplicatesF F dupl sizes minSize s cs) = some s' := h
          by_cases h2 : minSize < sz
          · rw [if_pos h2] at h3
            exact addDuplicatesToList_P F dupl sizes sz (i :: dupl i)
              s s' P hP (fun ps hps => hnew (.dir i p cs) hmem h0 sz hsz h2 ps hps) h3
          · rw [if_neg h2] at h3
            exact recGetDup_groups_forest F dupl sizes minSize P hnew cs s s' hch h3 hP
  | .symlink i p, s, s', hmem, h, hP => by
    rw [recursivelyGetDuplicates] at h
    cases h
    exact hP
  | .inaccessible i p, s, s', hmem, h, hP => by
    rw [recursivelyGetDuplicates] at h
    cases h
    exact hP

/-- Invariant of the extraction recursion over a list of subtrees. -/
theorem recGetDup_groups_forest (F : RForest) (dupl : DuplState)
    (sizes : Nat → Option Nat) (minSize : Nat) (P : DuplicateObject → Prop)
    (hnew : ∀ (u : RTree), u ∈ F.postNodes → dupl u.nodeId ≠ [] →
      ∀ sz, nodeSize sizes u = some sz → minSize < sz →
      ∀ ps, pathsOf F (u.nodeId :: dupl u.nodeId) = some ps → P ⟨ps, sz⟩) :
    ∀ (G : RForest) (s s' : XState), (∀ u, u ∈ G.toList → u ∈ F.postNodes) →
      recursivelyGetDuplicatesF F dupl sizes minSize s G = some s' →
      (∀ g ∈ s.groups, P g) → ∀ g ∈ s'.groups, P g
  | .nil, s, s', _, h, hP => by
    rw [recursivelyGetDuplicatesF] at h
    cases h
    exact hP
  | .cons t ts, s, s', hmem, h, hP => by
    rw [recursivelyGetDuplicatesF] at h
    rcases h1 : recursivelyGetDuplicates F dupl sizes minSize s t with _ | s1 <;>
      rw [h1] at h
    · exact Option.noConfusion h
    · have hP1 := recGetDup_groups_tree F dupl sizes minSize P hnew t s s1
        (hmem t (by rw [RForest.toList]; exact List.mem_cons_self _ _)) h1 hP
      exact recGetDup_groups_forest F dupl sizes minSize P hnew ts s1 s'
        (fun u hu => hmem u (by rw [RForest.toList]; exact List.mem_cons_of_mem _ hu)) h hP1
end

/-- The final group list of a run of the extractor satisfies any property
that holds of every group pushed at a push site. -/
theorem runExtractor_groups (F : RForest) (dupl : DuplState)
    (sizes : Nat → Option Nat) (minSize : Nat) (P : DuplicateObject → Prop)
    (hnew : ∀ (u : RTree), u ∈ F.postNodes → dupl u.nodeId ≠ [] →
      ∀ sz, nodeSize sizes u = some sz → minSize < sz →
      ∀ ps, pathsOf F (u.nodeId :: dupl u.nodeId) = some ps → P ⟨ps, sz⟩)
    (gs : List DuplicateObject) (h : runExtractor F dupl sizes minSize = some gs) :
    ∀ g ∈ gs, P g := by
  rw [runExtractor] at h
  rcases h1 : recursivelyGetDuplicatesF F dupl sizes minSize
      ⟨fun _ => IsContained.no, []⟩ F with _ | sfin <;> rw [h1] at h
  · exact Option.noConfusion h
  · rw [Option.map_some'] at h
    cases h
    exact recGetDup_groups_forest F dupl sizes minSize P hnew F
      ⟨fun _ => IsContained.no, []⟩ sfin
      (fun u hu => RForest.toList_subset_postNodes F u hu) h1
      (fun g hg => absurd hg (List.not_mem_nil g))

/-! ### Claims C9 and C5 -/

/-- Two duplicated root files of size 12 bytes. -/
def F9 : RForest :=
  .cons (.file ⟨1, os "/a", 12⟩) (.cons (.file ⟨2, os "/b", 12⟩) .nil)

/-- Hash functions making all paths collide (identical content). -/
def hf9 : HashFns := ⟨fun _ => "p", fun _ => "f"⟩

theorem mem_insertBySize (a g : DuplicateObject) : ∀ (l : List DuplicateObject),
    g ∈ insertBySize a l ↔ g = a ∨ g ∈ l
  | [] => by
    rw [insertBySize]
    simp
  | h :: t => by
    rw [insertBySize]
    split
    · simp only [List.mem_cons]
    · rw [List.mem_cons, mem_insertBySize a g t, List.mem_cons]
      tauto

theorem mem_sortBySize (g : DuplicateObject) : ∀ (l : List DuplicateObject),
    g ∈ sortBySize l ↔ g ∈ l
  | [] => Iff.rfl
  | h :: t => by
    rw [sortBySize, mem_insertBySize, mem_sortBySize g t, List.mem_cons]

/-- C9 counterexample: with no options given, `get_duplicates` emits a
group whose size 12 does not exceed 100 — the effective default minimum
size is 0 (`options.remove("min_size").unwrap_or(0)`), not 100; passing
`min_size = 100` explicitly does suppress the group. -/
theorem claim9_counterexample :
    libGetDuplicates hf9 F9 [] = some [⟨[os "/a", os "/b"], 12⟩] ∧
    (12 : Nat) ≤ 100 ∧
    libGetDuplicates hf9 F9 [("min_size", 100)] = some [] :=
  ⟨rfl, by decide, rfl⟩

/-- C9 (corrected): the option is keyed `min_size` and defaults to 0, not
100: with the option absent, `lib.rs get_duplicates` runs the search with
minimum size 0, and all that holds of an emitted group is that its size
exceeds 0. -/
theorem claim9_default_min_size (hf : HashFns) (F : RForest)
    (opts : List (String × Nat)) (hopt : alGet "min_size" opts = none)
    (gs : List DuplicateObject) (h : libGetDuplicates hf F opts = some gs) :
    libGetDuplicates hf F opts =
      (treeGetDuplicates hf F 0).map (fun l => (sortBySize l).reverse) ∧
    ∀ g ∈ gs, 0 < g.size := by
  constructor
  · rw [libGetDuplicates, hopt, Option.getD_none]
  · rw [libGetDuplicates, hopt, Option.getD_none] at h
    rcases ht : treeGetDuplicates hf F 0 with _ | gs0 <;> rw [ht] at h
    · exact Option.noConfusion h
    · rw [Option.map_some'] at h
      injection h with h
      subst h
      intro g hg
      have hg0 : g ∈ gs0 :=
        (mem_sortBySize g gs0).mp (List.mem_reverse.mp hg)
      exact runExtractor_groups F (findDuplicates hf F).dupl
        (findDuplicates hf F).sizes 0 (fun g => 0 < g.size)
        (fun u hu hne sz hsz h2 ps hps => h2) gs0 ht g hg0

/-- Concrete instance of the corrected C9 statement. -/
theorem claim9_witness :
    libGetDuplicates hf9 F9 [] =
      (treeGetDuplicates hf9 F9 0).map (fun l => (sortBySize l).reverse) ∧
    0 < (⟨[os "/a", os "/b"], 12⟩ : DuplicateObject).size :=
  ⟨(claim9_default_min_size hf9 F9 [] rfl [⟨[os "/a", os "/b"], 12⟩] rfl).1,
   (claim9_default_min_size hf9 F9 [] rfl [⟨[os "/a", os "/b"], 12⟩] rfl).2
     ⟨[os "/a", os "/b"], 12⟩ (List.mem_singleton.mpr rfl)⟩

/-- Two root files with the same path `/a` and identical content —
modelling the same file handed to `add_directories` twice. -/
def F5 : RForest :=
  .cons (.file ⟨1, os "/a", 20⟩) (.cons (.file ⟨2, os "/a", 20⟩) .nil)

/-- Hash functions making the two `/a` copies collide. -/
def hf5 : HashFns := ⟨fun _ => "p", fun _ => "f"⟩

/-- C5 counterexample: on an input list containing the same path twice,
the engine emits a group whose path set has exactly one element — the two
member paths collapse in the `HashSet` — contradicting "every emitted
group contains at least two paths". -/
theorem claim5_counterexample :
    treeGetDuplicates hf5 F5 0 = some [⟨[os "/a"], 20⟩] ∧
    libGetDuplicates hf5 F5 [] = some [⟨[os "/a"], 20⟩] ∧
    (⟨[os "/a"], 20⟩ : DuplicateObject).duplicates.length = 1 :=
  ⟨rfl, rfl, rfl⟩

theorem two_le_length_of_mem_ne {α : Type} {l : List α} {a b : α}
    (ha : a ∈ l) (hb : b ∈ l) (hne : a ≠ b) : 2 ≤ l.length := by
  cases l with
  | nil => cases ha
  | cons x xs =>
    cases xs with
    | nil =>
      rw [List.mem_singleton] at ha hb
      exact absurd (ha.trans hb.symm) hne
    | cons y ys =>
      simp only [List.length_cons]
      omega

theorem pathsList_mem (F : RForest) : ∀ (ids : List Nat) (l : List OsStr),
    pathsList F ids = some l → ∀ i ∈ ids, ∃ p, getPath F i = some p ∧ p ∈ l := by
  intro ids
  induction ids with
  | nil => intro l h i hi; cases hi
  | cons j rest ih =>
    intro l h i hi
    rw [pathsList] at h
    rcases h1 : getPath F j with _ | p <;> rw [h1] at h
    · rcases h2 : pathsList F rest with _ | ps <;> rw [h2] at h <;>
        exact Option.noConfusion h
    · rcases h2 : pathsList F rest with _ | ps <;> rw [h2] at h
      · exact Option.noConfusion h
      · have h3 : some (p :: ps) = some l := h
        cases h3
        rcases List.mem_cons.mp hi with rfl | hi
        · exact ⟨p, h1, List.mem_cons_self _ _⟩
        · obtain ⟨q, hq1, hq2⟩ := ih ps h2 i hi
          exact ⟨q, hq1, List.mem_cons_of_mem _ hq2⟩

/-- Under duplicate-free ids, `get_node_path` of a present node yields
that node's path. -/
theorem getPath_eq (F : RForest) (hN : F.allIds.Nodup) (u : RTree)
    (hu : u ∈ F.postNodes) : getPath F u.nodeId = some u.pathOf := by
  obtain ⟨v, hv⟩ := RForest.findNode_complete_forest F u.nodeId
    (List.mem_map.mpr ⟨u, hu, rfl⟩)
  obtain ⟨hvmem, hvid⟩ := RForest.findNode_sound_forest F u.nodeId v hv
  rw [getPath, hv, Option.map_some', postNodes_inj F hN v u hvmem hu hvid]

/-- After both passes, a duplicate-set member of a File or Dir node is a
different node id that occurs in the forest. -/
theorem findDuplicates_mem_facts (hf : HashFns) (F : RForest)
    (hN : F.allIds.Nodup) : ∀ u ∈ F.postNodes, u.isFileOrDir = true →
    ∀ x ∈ (findDuplicates hf F).dupl u.nodeId, x ≠ u.nodeId ∧ x ∈ F.allIds := by
  have hd : ∀ i p cs, RTree.dir i p cs ∈ F.postNodes →
      ∀ x ∈ (⟨pass1 hf F, fun _ => none⟩ : EqState).dupl i, IsDirId F x :=
    fun i p cs hmem x hx => (pass1_dir_sub hf F hN i p cs hmem x hx).1
  have hfin := pass2_dupl_final F hN ⟨pass1 hf F, fun _ => none⟩ hd
  intro u hu hfd x hx
  rw [show findDuplicates hf F = pass2 F ⟨pass1 hf F, fun _ => none⟩ from rfl] at hx
  cases u with
  | file d =>
    simp only [RTree.nodeId] at hx ⊢
    have hna : ¬IsDirId F d.id := not_isDirId_of_isFileId F hN d.id ⟨d, hu, rfl⟩
    rw [hfin.2 _ hna] at hx
    obtain ⟨g, hg, hgid, _, _, hne⟩ := (pass1_file_mem hf F hN d hu x).mp hx
    refine ⟨hgid ▸ hne, ?_⟩
    exact List.mem_map.mpr ⟨.file g, (RForest.mem_filesPre_iff_forest F g).mp hg, hgid⟩
  | dir i p cs =>
    simp only [RTree.nodeId] at hx ⊢
    have hia : IsDirId F i := ⟨p, cs, hu⟩
    rw [hfin.1 i hia] at hx
    obtain ⟨⟨px, csx, hm⟩, hne⟩ := pass1_dir_sub hf F hN i p cs hu x
      (List.mem_filter.mp hx).1
    exact ⟨hne, List.mem_map.mpr ⟨.dir x px csx, hm, rfl⟩⟩
  | symlink i p => cases hfd
  | inaccessible i p => cases hfd

/-- C5 (corrected): when the node ids are duplicate-free and distinct
nodes carry distinct paths (no input path occurs twice), every emitted
group has at least two member paths; with a duplicated input path the
path set of a group can collapse to a single element. -/
theorem claim5_groups_min_two (hf : HashFns) (F : RForest)
    (hN : F.allIds.Nodup)
    (hinj : ∀ u ∈ F.postNodes, ∀ v ∈ F.postNodes, u.pathOf = v.pathOf → u = v)
    (minSize : Nat) (gs : List DuplicateObject)
    (h : treeGetDuplicates hf F minSize = some gs) :
    ∀ g ∈ gs, 2 ≤ g.duplicates.length := by
  refine runExtractor_groups F (findDuplicates hf F).dupl
    (findDuplicates hf F).sizes minSize (fun g => 2 ≤ g.duplicates.length)
    ?_ gs h
  intro u hu hne sz hsz hlt ps hps
  have hfd : u.isFileOrDir = true := by
    cases u with
    | file d => rfl
    | dir i p cs => rfl
    | symlink i p => exact Option.noConfusion hsz
    | inaccessible i p => exact Option.noConfusion hsz
  obtain ⟨x, xs, hxs⟩ := List.exists_cons_of_ne_nil hne
  have hxmem : x ∈ (findDuplicates hf F).dupl u.nodeId := by
    rw [hxs]
    exact List.mem_cons_self _ _
  obtain ⟨hxne, hxids⟩ := findDuplicates_mem_facts hf F hN u hu hfd x hxmem
  obtain ⟨v, hv⟩ := RForest.findNode_complete_forest F x hxids
  obtain ⟨hvmem, hvid⟩ := RForest.findNode_sound_forest F x v hv
  rw [pathsOf] at hps
  rcases hl : pathsList F (u.nodeId :: (findDuplicates hf F).dupl u.nodeId)
    with _ | l <;> rw [hl] at hps
  · exact Option.noConfusion hps
  · rw [Option.map_some'] at hps
    injection hps with hps
    subst hps
    obtain ⟨p1, hp1, hp1mem⟩ := pathsList_mem F _ l hl u.nodeId
      (List.mem_cons_self _ _)
    obtain ⟨p2, hp2, hp2mem⟩ := pathsList_mem F _ l hl x
      (List.mem_cons_of_mem _ hxmem)
    have hp1eq : p1 = u.pathOf := by
      have h4 : some u.pathOf = some p1 := (getPath_eq F hN u hu).symm.trans hp1
      exact ((Option.some.injEq _ _).mp h4).symm
    have hp2eq : p2 = v.pathOf := by
      rw [getPath, hv, Option.map_some'] at hp2
      exact ((Option.some.injEq _ _).mp hp2).symm
    have hvu : v ≠ u := fun hc => hxne (by rw [← hvid, hc])
    have hpne : p2 ≠ p1 := by
      rw [hp1eq, hp2eq]
      intro hc
      exact hvu (hinj v hvmem u hu hc)
    exact two_le_length_of_mem_ne (List.mem_dedup.mpr hp2mem)
      (List.mem_dedup.mpr hp1mem) hpne

/-- Two duplicated root files with distinct paths. -/
def F5w : RForest :=
  .cons (.file ⟨1, os "/a", 20⟩) (.cons (.file ⟨2, os "/b", 20⟩) .nil)

/-- Concrete instance of the corrected C5 statement. -/
theorem claim5_witness :
    2 ≤ (⟨[os "/a", os "/b"], 20⟩ : DuplicateObject).duplicates.length :=
  claim5_groups_min_two hf5 F5w (by decide) (by decide) 0
    [⟨[os "/a", os "/b"], 20⟩] rfl ⟨[os "/a", os "/b"], 20⟩
    (List.mem_singleton.mpr rfl)

/-- Forest for the C6 counterexample: a file `/r1`, a dir `/p` holding
dir `/p/m`, a dir `/m` holding file `/m/e`, and an empty dir `/p2`. -/
def FC6 : RForest :=
  .cons (.file ⟨1, os "/r1", 20⟩)
  (.cons (.dir 2 (os "/p") (.cons (.dir 3 (os "/p/m") .nil) .nil))
  (.cons (.dir 4 (os "/m") (.cons (.file ⟨5, os "/m/e", 20⟩) .nil))
  (.cons (.dir 6 (os "/p2") .nil) .nil)))

/-- Stored duplicate sets for `FC6`: 1 ↔ 5, 2 ↔ 6, 3 ↔ 4. -/
def duplC6 : DuplState := fun i =>
  if i = 1 then [5]
  else if i = 5 then [1]
  else if i = 2 then [6]
  else if i = 6 then [2]
  else if i = 3 then [4]
  else if i = 4 then [3]
  else []

/-- Stored dir sizes for `FC6`. -/
def sizesC6 : Nat → Option Nat := fun i =>
  if i = 2 then some 8192
  else if i = 3 then some 4096
  else if i = 4 then some 4116
  else if i = 6 then some 4096
  else none

/-- The first two root trees of `FC6`. -/
def firstTwoC6 : RForest :=
  .cons (.file ⟨1, os "/r1", 20⟩)
  (.cons (.dir 2 (os "/p") (.cons (.dir 3 (os "/p/m") .nil) .nil)) .nil)

/-- C6 counterexample: after the first two roots are processed the state
holds the groups {/r1, /m/e} and {/p, /p2}, node 3 is tagged
`ChildOfDuplicate` and node 4 `ParentOfDuplicate`. Visiting node 4 (dir
`/m`) then calls `add_duplicates_to_list` with `data = [4, 3]`; member 3
carries the `ChildOfDuplicate` tag, yet the already-emitted group
{/r1, /m/e} disappears — the removal loop runs before the contained check
takes effect. The full run ends without that group. -/
theorem claim6_counterexample :
    duplC6 4 = [3] ∧
    (recursivelyGetDuplicatesF FC6 duplC6 sizesC6 0
        ⟨fun _ => IsContained.no, []⟩ firstTwoC6).map
      (fun s => (s.tags 3, s.tags 4, s.groups)) =
      some (IsContained.childOfDuplicate, IsContained.parentOfDuplicate,
        [⟨[os "/r1", os "/m/e"], 20⟩, ⟨[os "/p", os "/p2"], 8192⟩]) ∧
    ((recursivelyGetDuplicatesF FC6 duplC6 sizesC6 0
        ⟨fun _ => IsContained.no, []⟩ firstTwoC6).bind
      (fun s => addDuplicatesToList FC6 duplC6 sizesC6 4116 [4, 3] s)).map
      XState.groups = some [⟨[os "/p", os "/p2"], 8192⟩] ∧
    runExtractor FC6 duplC6 sizesC6 0 = some [⟨[os "/p", os "/p2"], 8192⟩] :=
  ⟨rfl, rfl, rfl, rfl⟩

/-! ### Structural lemmas for the topmost-groups invariant (C1) -/

/-- The strict descendant nodes of a subtree root. -/
def RTree.descNodes : RTree → List RTree
  | .dir _ _ cs => cs.postNodes
  | _ => []

theorem descNodes_sub_postNodes (u v : RTree) (h : v ∈ u.descNodes) :
    v ∈ u.postNodes := by
  cases u with
  | dir i p cs =>
    rw [RTree.descNodes] at h
    rw [RTree.postNodes]
    exact List.mem_append.mpr (Or.inl h)
  | file d => cases h
  | symlink i p => cases h
  | inaccessible i p => cases h

theorem mem_postNodes_cases (u v : RTree) (h : v ∈ u.postNodes) :
    v = u ∨ v ∈ u.descNodes := by
  cases u with
  | dir i p cs =>
    rw [RTree.postNodes] at h
    rcases List.mem_append.mp h with h | h
    · exact Or.inr (by rw [RTree.descNodes]; exact h)
    · exact Or.inl (List.mem_singleton.mp h)
  | file d =>
    rw [RTree.postNodes] at h
    exact Or.inl (List.mem_singleton.mp h)
  | symlink i p =>
    rw [RTree.postNodes] at h
    exact Or.inl (List.mem_singleton.mp h)
  | inaccessible i p =>
    rw [RTree.postNodes] at h
    exact Or.inl (List.mem_singleton.mp h)

mutual
theorem RTree.subtree_postNodes_sublist : ∀ (t u : RTree),
    u ∈ t.postNodes → u.postNodes.Sublist t.postNodes
  | .file d, u, h => by
    rw [RTree.postNodes] at h
    rcases List.mem_singleton.mp h with rfl
    exact List.Sublist.refl _
  | .dir i p cs, u, h => by
    rw [RTree.postNodes] at h
    rcases List.mem_append.mp h with h | h
    · exact (RForest.subtree_postNodes_sublist_forest cs u h).trans
        (by rw [RTree.postNodes]; exact List.sublist_append_left _ _)
    · rcases List.mem_singleton.mp h with rfl
      exact List.Sublist.refl _
  | .symlink i p, u, h => by
    rw [RTree.postNodes] at h
    rcases List.mem_singleton.mp h with rfl
    exact List.Sublist.refl _
  | .inaccessible i p, u, h => by
    rw [RTree.postNodes] at h
    rcases List.mem_singleton.mp h with rfl
    exact List.Sublist.refl _

theorem RForest.subtree_postNodes_sublist_forest : ∀ (G : RForest) (u : RTree),
    u ∈ G.postNodes → u.postNodes.Sublist G.postNodes
  | .cons t ts, u, h => by
    rw [RForest.postNodes] at h ⊢
    rcases List.mem_append.mp h with h | h
    · exact (RTree.subtree_postNodes_sublist t u h).trans
        (List.sublist_append_left _ _)
    · exact (RForest.subtree_postNodes_sublist_forest ts u h).trans
        (List.sublist_append_right _ _)
end

/-- Under duplicate-free forest ids, every subtree has duplicate-free ids. -/
theorem subtree_ids_nodup (F : RForest) (hN : F.allIds.Nodup) (t : RTree)
    (ht : t ∈ F.postNodes) : t.ids.Nodup :=
  hN.sublist ((RForest.subtree_postNodes_sublist_forest F t ht).map RTree.nodeId)

theorem descNodes_id_ne (F : RForest) (hN : F.allIds.Nodup) (u : RTree)
    (hu : u ∈ F.postNodes) (v : RTree) (hv : v ∈ u.descNodes) :
    v.nodeId ≠ u.nodeId := by
  have hnd := subtree_ids_nodup F hN u hu
  cases u with
  | dir i p cs =>
    rw [RTree.descNodes] at hv
    rw [RTree.ids_dir, List.nodup_append] at hnd
    intro hc
    have hci : v.nodeId = i := hc
    exact hnd.2.2 (List.mem_map.mpr ⟨v, hv, rfl⟩) (List.mem_singleton.mpr hci)
  | file d => cases hv
  | symlink i p => cases hv
  | inaccessible i p => cases hv

theorem descNodes_trans (u v w : RTree) (hv : v ∈ u.descNodes)
    (hw : w ∈ v.descNodes) : w ∈ u.descNodes := by
  cases u with
  | dir i p cs =>
    rw [RTree.descNodes] at hv ⊢
    exact RForest.postNodes_trans_forest cs v w hv (descNodes_sub_postNodes v w hw)
  | file d => cases hv
  | symlink i p => cases hv
  | inaccessible i p => cases hv

theorem mem_forest_toList : ∀ (G : RForest) (v : RTree),
    v ∈ G.postNodes ↔ ∃ c ∈ G.toList, v ∈ c.postNodes
  | .nil, v => by
    rw [RForest.postNodes, RForest.toList]
    simp
  | .cons t ts, v => by
    rw [RForest.postNodes, RForest.toList, List.mem_append]
    constructor
    · rintro (h | h)
      · exact ⟨t, List.mem_cons_self _ _, h⟩
      · obtain ⟨c, hc, hv⟩ := (mem_forest_toList ts v).mp h
        exact ⟨c, List.mem_cons_of_mem _ hc, hv⟩
    · rintro ⟨c, hc, hv⟩
      rcases List.mem_cons.mp hc with rfl | hc
      · exact Or.inl hv
      · exact Or.inr ((mem_forest_toList ts v).mpr ⟨c, hc, hv⟩)

/-- Under duplicate-free ids, looking up any present node's id finds that
node. -/
theorem findNode_self_eq (F : RForest) (hN : F.allIds.Nodup) (u : RTree)
    (hu : u ∈ F.postNodes) : F.findNode u.nodeId = some u := by
  obtain ⟨v, hv⟩ := RForest.findNode_complete_forest F u.nodeId
    (List.mem_map.mpr ⟨u, hu, rfl⟩)
  obtain ⟨hvmem, hvid⟩ := RForest.findNode_sound_forest F u.nodeId v hv
  rw [hv, postNodes_inj F hN v u hvmem hu hvid]

mutual
theorem RTree.ancChain_complete : ∀ (t : RTree) (i : Nat), i ∈ t.ids →
    ∃ l, t.ancChain i = some l
  | .file d, i, h => by
    rw [RTree.ids, RTree.postNodes] at h
    simp only [List.map_cons, List.map_nil, List.mem_singleton] at h
    exact ⟨[], by rw [RTree.ancChain]; exact if_pos h.symm⟩
  | .dir j p cs, i, h => by
    by_cases hji : j = i
    · exact ⟨[], by rw [RTree.ancChain]; exact if_pos hji⟩
    · rw [RTree.ids_dir, List.mem_append] at h
      rcases h with h | h
      · obtain ⟨l, hl⟩ := RForest.ancChain_complete_forest cs i h
        exact ⟨l ++ [j], by rw [RTree.ancChain, if_neg hji, hl]; rfl⟩
      · exact absurd (List.mem_singleton.mp h).symm hji
  | .symlink j p, i, h => by
    rw [RTree.ids, RTree.postNodes] at h
    simp only [List.map_cons, List.map_nil, List.mem_singleton] at h
    exact ⟨[], by rw [RTree.ancChain]; exact if_pos h.symm⟩
  | .inaccessible j p, i, h => by
    rw [RTree.ids, RTree.postNodes] at h
    simp only [List.map_cons, List.map_nil, List.mem_singleton] at h
    exact ⟨[], by rw [RTree.ancChain]; exact if_pos h.symm⟩

theorem RForest.ancChain_complete_forest : ∀ (G : RForest) (i : Nat),
    i ∈ G.allIds → ∃ l, G.ancChain i = some l
  | .cons t ts, i, h => by
    rw [RForest.allIds_cons, List.mem_append] at h
    rcases hh : t.ancChain i with _ | l
    · rcases h with h | h
      · obtain ⟨l, hl⟩ := RTree.ancChain_complete t i h
        rw [hl] at hh
        cases hh
      · obtain ⟨l, hl⟩ := RForest.ancChain_complete_forest ts i h
        exact ⟨l, by rw [RForest.ancChain, hh]; exact hl⟩
    · exact ⟨l, by rw [RForest.ancChain, hh]⟩
end

mutual
theorem RTree.ancChain_nodup : ∀ (t : RTree) (i : Nat) (l : List Nat),
    t.ids.Nodup → t.ancChain i = some l → l.Nodup
  | .file d, i, l, _, h => by
    rw [RTree.ancChain] at h
    split at h
    · cases h
      exact List.nodup_nil
    · cases h
  | .dir j p cs, i, l, hnd, h => by
    rw [RTree.ancChain] at h
    split at h
    · cases h
      exact List.nodup_nil
    · rcases hh : cs.ancChain i with _ | l' <;> rw [hh] at h
      · cases h
      · cases h
        rw [RTree.ids_dir, List.nodup_append] at hnd
        rw [List.nodup_append]
        refine ⟨RForest.ancChain_nodup_forest cs i l' hnd.1 hh,
          List.nodup_singleton j, ?_⟩
        intro a ha hb
        rcases List.mem_singleton.mp hb with rfl
        obtain ⟨p', cs', hmem, _⟩ := RForest.ancChain_anc_forest cs i l' hh a ha
        exact hnd.2.2 (List.mem_map.mpr ⟨_, hmem, rfl⟩) (List.mem_singleton.mpr rfl)
  | .symlink j p, i, l, _, h => by
    rw [RTree.ancChain] at h
    split at h
    · cases h
      exact List.nodup_nil
    · cases h
  | .inaccessible j p, i, l, _, h => by
    rw [RTree.ancChain] at h
    split at h
    · cases h
      exact List.nodup_nil
    · cases h

theorem RForest.ancChain_nodup_forest : ∀ (G : RForest) (i : Nat) (l : List Nat),
    G.allIds.Nodup → G.ancChain i = some l → l.Nodup
  | .cons t ts, i, l, hnd, h => by
    rw [RForest.ancChain] at h
    rw [RForest.allIds_cons, List.nodup_append] at hnd
    rcases hh : t.ancChain i with _ | l' <;> rw [hh] at h
    · exact RForest.ancChain_nodup_forest ts i l hnd.2.1 h
    · cases h
      exact RTree.ancChain_nodup t i l hnd.1 hh
end

mutual
theorem RTree.ancChain_tail : ∀ (t : RTree) (i a : Nat) (l : List Nat),
    t.ids.Nodup → t.ancChain i = some (a :: l) → t.ancChain a = some l
  | .file d, i, a, l, _, h => by
    rw [RTree.ancChain] at h
    split at h
    · cases h
    · cases h
  | .dir j p cs, i, a, l, hnd, h => by
    rw [RTree.ancChain] at h
    split at h
    · cases h
    · rcases hh : cs.ancChain i with _ | l' <;> rw [hh] at h
      · cases h
      · rw [Option.map_some'] at h
        injection h with h
        rw [RTree.ids_dir, List.nodup_append] at hnd
        cases l' with
        | nil =>
          rw [List.nil_append] at h
          cases h
          rw [RTree.ancChain]
          exact if_pos rfl
        | cons b m =>
          rw [List.cons_append] at h
          injection h with h1 h2
          rw [← h1, ← h2]
          have hbcs : b ∈ cs.allIds := by
            obtain ⟨p', cs', hmem, _⟩ := RForest.ancChain_anc_forest cs i
              (b :: m) hh b (List.mem_cons_self _ _)
            exact List.mem_map.mpr ⟨_, hmem, rfl⟩
          have hjb : j ≠ b := fun hc =>
            hnd.2.2 (by rw [hc]; exact hbcs) (List.mem_singleton.mpr rfl)
          rw [RTree.ancChain, if_neg hjb,
            RForest.ancChain_tail_forest cs i b m hnd.1 hh, Option.map_some']
  | .symlink j p, i, a, l, _, h => by
    rw [RTree.ancChain] at h
    split at h
    · cases h
    · cases h
  | .inaccessible j p, i, a, l, _, h => by
    rw [RTree.ancChain] at h
    split at h
    · cases h
    · cases h

theorem RForest.ancChain_tail_forest : ∀ (G : RForest) (i a : Nat) (l : List Nat),
    G.allIds.Nodup → G.ancChain i = some (a :: l) → G.ancChain a = some l
  | .cons t ts, i, a, l, hnd, h => by
    rw [RForest.ancChain] at h
    rw [RForest.allIds_cons, List.nodup_append] at hnd
    rcases hh : t.ancChain i with _ | l' <;> rw [hh] at h
    · have hts := RForest.ancChain_tail_forest ts i a l hnd.2.1 h
      rcases ha : t.ancChain a with _ | la
      · rw [RForest.ancChain, ha]
        exact hts
      · have hat : a ∈ t.ids := RTree.ancChain_mem_ids t a la ha
        have hats : a ∈ ts.allIds := by
          obtain ⟨p', cs', hmem, _⟩ := RForest.ancChain_anc_forest ts i (a :: l) h
            a (List.mem_cons_self _ _)
          exact List.mem_map.mpr ⟨_, hmem, rfl⟩
        exact absurd hats (hnd.2.2 hat)
    · cases h
      rw [RForest.ancChain, RTree.ancChain_tail t i a l hnd.1 hh]
end

/-- An ancestor-chain element is a `Dir` node having the queried node
strictly below it. -/
theorem ancestor_desc (F : RForest) (hN : F.allIds.Nodup) (i a : Nat)
    (chain : List Nat) (hc : F.ancChain i = some chain) (ha : a ∈ chain)
    (u : RTree) (hu : F.findNode i = some u) :
    ∃ pa csa, F.findNode a = some (.dir a pa csa) ∧
      u ∈ RForest.postNodes csa := by
  obtain ⟨pa, csa, hmem, hin⟩ := RForest.ancChain_anc_forest F i chain hc a ha
  refine ⟨pa, csa, findNode_self_eq F hN _ hmem, ?_⟩
  obtain ⟨v, hvmem, hvid⟩ := List.mem_map.mp hin
  obtain ⟨humem, huid⟩ := RForest.findNode_sound_forest F i u hu
  have hvF : v ∈ F.postNodes := RForest.postNodes_trans_forest F _ v hmem
    (by rw [RTree.postNodes]; exact List.mem_append.mpr (Or.inl hvmem))
  rw [postNodes_inj F hN u v humem hvF (by rw [huid, hvid])]
  exact hvmem

mutual
theorem RTree.desc_ancChain : ∀ (t : RTree), t.ids.Nodup →
    ∀ (j : Nat) (pj : OsStr) (csj : RForest), RTree.dir j pj csj ∈ t.postNodes →
    ∀ u ∈ RForest.postNodes csj, ∃ l, t.ancChain u.nodeId = some l ∧ j ∈ l
  | .file d, _, j, pj, csj, hmem, u, hu => by
    rw [RTree.postNodes] at hmem
    cases List.mem_singleton.mp hmem
  | .dir k p cs, hnd, j, pj, csj, hmem, u, hu => by
    rw [RTree.postNodes] at hmem
    rw [RTree.ids_dir, List.nodup_append] at hnd
    have hkne : ∀ w : RTree, w ∈ cs.postNodes → k ≠ w.nodeId := by
      intro w hw hc
      exact hnd.2.2 (by rw [hc]; exact List.mem_map.mpr ⟨w, hw, rfl⟩)
        (List.mem_singleton.mpr rfl)
    rcases List.mem_append.mp hmem with hmem | hmem
    · obtain ⟨l, hl, hj⟩ := RForest.desc_ancChain_forest cs hnd.1 j pj csj hmem u hu
      have huin : u ∈ cs.postNodes := RForest.postNodes_trans_forest cs _ u hmem
        (by rw [RTree.postNodes]; exact List.mem_append.mpr (Or.inl hu))
      refine ⟨l ++ [k], ?_, List.mem_append.mpr (Or.inl hj)⟩
      rw [RTree.ancChain, if_neg (hkne u huin), hl, Option.map_some']
    · cases List.mem_singleton.mp hmem
      obtain ⟨l, hl⟩ := RForest.ancChain_complete_forest cs u.nodeId
        (List.mem_map.mpr ⟨u, hu, rfl⟩)
      refine ⟨l ++ [k], ?_,
        List.mem_append.mpr (Or.inr (List.mem_singleton.mpr rfl))⟩
      rw [RTree.ancChain, if_neg (hkne u hu), hl, Option.map_some']
  | .symlink k p, _, j, pj, csj, hmem, u, hu => by
    rw [RTree.postNodes] at hmem
    cases List.mem_singleton.mp hmem
  | .inaccessible k p, _, j, pj, csj, hmem, u, hu => by
    rw [RTree.postNodes] at hmem
    cases List.mem_singleton.mp hmem

theorem RForest.desc_ancChain_forest : ∀ (G : RForest), G.allIds.Nodup →
    ∀ (j : Nat) (pj : OsStr) (csj : RForest), RTree.dir j pj csj ∈ G.postNodes →
    ∀ u ∈ RForest.postNodes csj, ∃ l, G.ancChain u.nodeId = some l ∧ j ∈ l
  | .cons t ts, hnd, j, pj, csj, hmem, u, hu => by
    rw [RForest.postNodes] at hmem
    rw [RForest.allIds_cons, List.nodup_append] at hnd
    rcases List.mem_append.mp hmem with hmem | hmem
    · obtain ⟨l, hl, hj⟩ := RTree.desc_ancChain t hnd.1 j pj csj hmem u hu
      exact ⟨l, by rw [RForest.ancChain, hl], hj⟩
    · obtain ⟨l, hl, hj⟩ := RForest.desc_ancChain_forest ts hnd.2.1 j pj csj hmem u hu
      rcases hh : t.ancChain u.nodeId with _ | l0
      · exact ⟨l, by rw [RForest.ancChain, hh]; exact hl, hj⟩
      · have h1 : u.nodeId ∈ t.ids := RTree.ancChain_mem_ids t _ l0 hh
        have h2 : u.nodeId ∈ ts.allIds := by
          have hm : u ∈ ts.postNodes := RForest.postNodes_trans_forest ts _ u hmem
            (by rw [RTree.postNodes]; exact List.mem_append.mpr (Or.inl hu))
          exact List.mem_map.mpr ⟨u, hm, rfl⟩
        exact absurd h2 (hnd.2.2 h1)
end

/-- A strict tree ancestor's id occurs in the `ancestor_ids` chain. -/
theorem desc_ancestorIds (F : RForest) (hN : F.allIds.Nodup) (w u : RTree)
    (hw : w ∈ F.postNodes) (hu : u ∈ w.descNodes) :
    w.nodeId ∈ F.ancestorIds u.nodeId ∧ u ∈ F.postNodes := by
  cases w with
  | dir j p cs =>
    rw [RTree.descNodes] at hu
    obtain ⟨l, hl, hj⟩ := RForest.desc_ancChain_forest F hN j p cs hw u hu
    refine ⟨?_, RForest.postNodes_trans_forest F _ u hw
      (by rw [RTree.postNodes]; exact List.mem_append.mpr (Or.inl hu))⟩
    rw [RForest.ancestorIds, hl]
    exact hj
  | file d => cases hu
  | symlink j p => cases hu
  | inaccessible j p => cases hu

/-- An `ancestor_ids` element resolves to a `Dir` node with the queried
node strictly below it. -/
theorem ancestorIds_desc (F : RForest) (hN : F.allIds.Nodup) (i a : Nat)
    (ha : a ∈ F.ancestorIds i) (u : RTree) (hu : F.findNode i = some u) :
    ∃ w, F.findNode a = some w ∧ w ∈ F.postNodes ∧ u ∈ w.descNodes ∧
      w.nodeId = a := by
  rcases hc : F.ancChain i with _ | chain
  · rw [RForest.ancestorIds, hc] at ha
    cases ha
  · rw [RForest.ancestorIds, hc] at ha
    obtain ⟨pa, csa, hfa, hua⟩ := ancestor_desc F hN i a chain hc ha u hu
    obtain ⟨hamem, haid⟩ := RForest.findNode_sound_forest F a _ hfa
    exact ⟨.dir a pa csa, hfa, hamem, by rw [RTree.descNodes]; exact hua, rfl⟩

/-! ### Tag-operation lemmas for the topmost-groups invariant (C1) -/

theorem RTree.self_id_mem (t : RTree) : t.nodeId ∈ t.ids :=
  List.mem_map.mpr ⟨t, RTree.self_mem_postNodes t, rfl⟩

mutual
theorem recursivelyTag_frame : ∀ (tags : Nat → IsContained) (t : RTree) (j : Nat),
    j ∉ t.ids → (recursivelyTag tags t) j = tags j
  | tags, .file d, j, hj => by
    rw [recursivelyTag]
    split
    · rfl
    · exact upd_ne _ _ _ _ (fun hc => hj (hc ▸ RTree.self_id_mem (.file d)))
  | tags, .dir i p cs, j, hj => by
    rw [recursivelyTag]
    split
    · rfl
    · rw [recursivelyTagF_frame _ cs j (fun hc => hj
        (by rw [RTree.ids_dir]; exact List.mem_append.mpr (Or.inl hc)))]
      exact upd_ne _ _ _ _ (fun hc => hj (by
        rw [RTree.ids_dir]
        exact List.mem_append.mpr (Or.inr (List.mem_singleton.mpr hc))))
  | tags, .symlink i p, j, hj => by
    rw [recursivelyTag]
    split
    · rfl
    · exact upd_ne _ _ _ _ (fun hc => hj (hc ▸ RTree.self_id_mem (.symlink i p)))
  | tags, .inaccessible i p, j, hj => by
    rw [recursivelyTag]
    split
    · rfl
    · exact upd_ne _ _ _ _ (fun hc => hj (hc ▸ RTree.self_id_mem (.inaccessible i p)))

theorem recursivelyTagF_frame : ∀ (tags : Nat → IsContained) (G : RForest) (j : Nat),
    j ∉ G.allIds → (recursivelyTagF tags G) j = tags j
  | _, .nil, _, _ => rfl
  | tags, .cons t ts, j, hj => by
    rw [recursivelyTagF]
    rw [recursivelyTagF_frame _ ts j (fun hc => hj
      (by rw [RForest.allIds_cons]; exact List.mem_append.mpr (Or.inr hc)))]
    exact recursivelyTag_frame tags t j (fun hc => hj
      (by rw [RForest.allIds_cons]; exact List.mem_append.mpr (Or.inl hc)))
end

mutual
theorem recursivelyTag_covers : ∀ (tags : Nat → IsContained) (t : RTree),
    t.ids.Nodup → ∀ v ∈ t.postNodes,
    (recursivelyTag tags t) v.nodeId = IsContained.childOfDuplicate ∨
    (tags v.nodeId ≠ IsContained.childOfDuplicate ∧
      ∃ c ∈ t.postNodes, tags c.nodeId = IsContained.childOfDuplicate ∧
        v ∈ c.descNodes)
  | tags, .file d, _, v, hv => by
    rcases mem_postNodes_cases _ v hv with rfl | hd
    · rw [recursivelyTag]
      split
      · rename_i hc
        exact Or.inl hc
      · exact Or.inl (upd_self _ _ _)
    · cases hd
  | tags, .dir i p cs, hnd, v, hv => by
    rw [RTree.ids_dir, List.nodup_append] at hnd
    by_cases h0 : tags i = IsContained.childOfDuplicate
    · rw [recursivelyTag, if_pos h0]
      rcases mem_postNodes_cases _ v hv with rfl | hd
      · exact Or.inl h0
      · by_cases hvc : tags v.nodeId = IsContained.childOfDuplicate
        · exact Or.inl hvc
        · exact Or.inr ⟨hvc, .dir i p cs, RTree.self_mem_postNodes _, h0, hd⟩
    · rw [recursivelyTag, if_neg h0]
      rcases mem_postNodes_cases _ v hv with rfl | hd
    -- v is the root itself
      · exact Or.inl (recursivelyTagF_keep _ cs i (upd_self _ _ _))
      · rw [RTree.descNodes] at hd
        have hine : ∀ w : RTree, w ∈ cs.postNodes → w.nodeId ≠ i := by
          intro w hw hc
          exact hnd.2.2 (hc ▸ List.mem_map.mpr ⟨w, hw, rfl⟩)
            (List.mem_singleton.mpr rfl)
        rcases recursivelyTagF_covers (upd tags i IsContained.childOfDuplicate)
          cs hnd.1 v hd with h | ⟨hne, c, hc, hcc, hvd⟩
        · exact Or.inl h
        · rw [upd_ne _ _ _ _ (hine v hd)] at hne
          rw [upd_ne _ _ _ _ (hine c hc)] at hcc
          exact Or.inr ⟨hne, c,
            by rw [RTree.postNodes]; exact List.mem_append.mpr (Or.inl hc),
            hcc, hvd⟩
  | tags, .symlink i p, _, v, hv => by
    rcases mem_postNodes_cases _ v hv with rfl | hd
    · rw [recursivelyTag]
      split
      · rename_i hc
        exact Or.inl hc
      · exact Or.inl (upd_self _ _ _)
    · cases hd
  | tags, .inaccessible i p, _, v, hv => by
    rcases mem_postNodes_cases _ v hv with rfl | hd
    · rw [recursivelyTag]
      split
      · rename_i hc
        exact Or.inl hc
      · exact Or.inl (upd_self _ _ _)
    · cases hd

theorem recursivelyTagF_covers : ∀ (tags : Nat → IsContained) (G : RForest),
    G.allIds.Nodup → ∀ v ∈ G.postNodes,
    (recursivelyTagF tags G) v.nodeId = IsContained.childOfDuplicate ∨
    (tags v.nodeId ≠ IsContained.childOfDuplicate ∧
      ∃ c ∈ G.postNodes, tags c.nodeId = IsContained.childOfDuplicate ∧
        v ∈ c.descNodes)
  | tags, .cons t ts, hnd, v, hv => by
    rw [RForest.allIds_cons, List.nodup_append] at hnd
    rw [RForest.postNodes] at hv
    rw [recursivelyTagF]
    rcases List.mem_append.mp hv with hv | hv
    · rcases recursivelyTag_covers tags t hnd.1 v hv with h | ⟨hne, c, hc, hcc, hvd⟩
      · exact Or.inl (recursivelyTagF_keep _ ts _ h)
      · exact Or.inr ⟨hne, c,
          by rw [RForest.postNodes]; exact List.mem_append.mpr (Or.inl hc),
          hcc, hvd⟩
    · rcases recursivelyTagF_covers (recursivelyTag tags t) ts hnd.2.1 v hv
        with h | ⟨hne, c, hc, hcc, hvd⟩
      · exact Or.inl h
      · have hvne : tags v.nodeId ≠ IsContained.childOfDuplicate := by
          intro hc2
          exact hne (recursivelyTag_keep tags t _ hc2)
        have hcid : c.nodeId ∉ t.ids := by
          intro hc2
          exact hnd.2.2 hc2 (List.mem_map.mpr ⟨c, hc, rfl⟩)
        rw [recursivelyTag_frame tags t _ hcid] at hcc
        exact Or.inr ⟨hvne, c,
          by rw [RForest.postNodes]; exact List.mem_append.mpr (Or.inr hc),
          hcc, hvd⟩
end

/-- The downward-closure property of the `ChildOfDuplicate` tags that
justifies the early return of `recursively_tag_as_contained`. -/
def H7 (F : RForest) (tags : Nat → IsContained) : Prop :=
  ∀ x ∈ F.postNodes, tags x.nodeId = IsContained.childOfDuplicate →
    ∀ v ∈ x.descNodes, tags v.nodeId = IsContained.childOfDuplicate

theorem recursivelyTag_h7 (F : RForest) (hN : F.allIds.Nodup)
    (tags : Nat → IsContained) (c : RTree) (hc : c ∈ F.postNodes)
    (h7 : H7 F tags) :
    (∀ v ∈ c.postNodes,
      (recursivelyTag tags c) v.nodeId = IsContained.childOfDuplicate) ∧
    H7 F (recursivelyTag tags c) := by
  have hcov : ∀ v ∈ c.postNodes,
      (recursivelyTag tags c) v.nodeId = IsContained.childOfDuplicate := by
    intro v hv
    rcases recursivelyTag_covers tags c (subtree_ids_nodup F hN c hc) v hv with
      h | ⟨hne, x, hx, hxc, hvd⟩
    · exact h
    · exact absurd (h7 x (RForest.postNodes_trans_forest F c x hc hx) hxc v hvd) hne
  refine ⟨hcov, ?_⟩
  intro x hx hxc v hv
  by_cases hold : tags x.nodeId = IsContained.childOfDuplicate
  · exact recursivelyTag_keep tags c _ (h7 x hx hold v hv)
  · have hxid : x.nodeId ∈ c.ids := by
      by_contra hxid
      exact hold (by rw [← recursivelyTag_frame tags c _ hxid]; exact hxc)
    obtain ⟨y, hy, hyid⟩ := List.mem_map.mp hxid
    have hyF : y ∈ F.postNodes := RForest.postNodes_trans_forest F c y hc hy
    have hyx : y = x := postNodes_inj F hN y x hyF hx hyid
    subst hyx
    exact hcov v (RTree.postNodes_trans c y v hy (descNodes_sub_postNodes y v hv))

theorem foldl_recTag_keep : ∀ (cl : List RTree) (tags : Nat → IsContained)
    (j : Nat), tags j = IsContained.childOfDuplicate →
    (cl.foldl recursivelyTag tags) j = IsContained.childOfDuplicate := by
  intro cl
  induction cl with
  | nil => intro tags j h; exact h
  | cons c rest ih =>
    intro tags j h
    rw [List.foldl_cons]
    exact ih _ j (recursivelyTag_keep tags c j h)

theorem foldl_recTag_h7 (F : RForest) (hN : F.allIds.Nodup) :
    ∀ (cl : List RTree) (tags : Nat → IsContained),
    (∀ c ∈ cl, c ∈ F.postNodes) → H7 F tags →
    ((∀ c ∈ cl, ∀ v ∈ c.postNodes,
      (cl.foldl recursivelyTag tags) v.nodeId = IsContained.childOfDuplicate) ∧
     H7 F (cl.foldl recursivelyTag tags)) := by
  intro cl
  induction cl with
  | nil => intro tags _ h7; exact ⟨fun c hc => absurd hc (List.not_mem_nil c), h7⟩
  | cons c0 rest ih =>
    intro tags hmem h7
    rw [List.foldl_cons]
    obtain ⟨hcov0, h7'⟩ := recursivelyTag_h7 F hN tags c0
      (hmem c0 (List.mem_cons_self _ _)) h7
    obtain ⟨hcov, h7''⟩ := ih (recursivelyTag tags c0)
      (fun c hc => hmem c (List.mem_cons_of_mem _ hc)) h7'
    refine ⟨?_, h7''⟩
    intro c hc v hv
    rcases List.mem_cons.mp hc with rfl | hc
    · -- covered at step 0, preserved by the rest
      exact foldl_recTag_keep rest _ _ (hcov0 v hv)
    · exact hcov c hc v hv

theorem foldl_recTag_frame : ∀ (cl : List RTree) (tags : Nat → IsContained)
    (j : Nat), (∀ c ∈ cl, j ∉ c.ids) →
    (cl.foldl recursivelyTag tags) j = tags j := by
  intro cl
  induction cl with
  | nil => intro tags j _; rfl
  | cons c rest ih =>
    intro tags j hj
    rw [List.foldl_cons, ih _ j (fun c' hc' => hj c' (List.mem_cons_of_mem _ hc'))]
    exact recursivelyTag_frame tags c j (hj c (List.mem_cons_self _ _))

theorem setParentsGo_frame : ∀ (chain : List Nat) (tags : Nat → IsContained)
    (j : Nat), j ∉ chain → setParentsGo tags chain j = tags j := by
  intro chain
  induction chain with
  | nil => intro tags j _; rfl
  | cons a rest ih =>
    intro tags j hj
    rw [setParentsGo]
    split
    · rfl
    · rw [ih _ j (fun hc => hj (List.mem_cons_of_mem _ hc))]
      exact upd_ne _ _ _ _ (fun hc => hj (hc ▸ List.mem_cons_self _ _))

theorem setParentsGo_mono : ∀ (chain : List Nat) (tags : Nat → IsContained)
    (j : Nat), setParentsGo tags chain j = tags j ∨
      setParentsGo tags chain j = IsContained.parentOfDuplicate := by
  intro chain
  induction chain with
  | nil => intro tags j; exact Or.inl rfl
  | cons a rest ih =>
    intro tags j
    rw [setParentsGo]
    split
    · exact Or.inl rfl
    · rcases ih (upd tags a IsContained.parentOfDuplicate) j with h | h
      · rw [h]
        by_cases hj : j = a
        · subst hj
          rw [upd_self]
          exact Or.inr rfl
        · rw [upd_ne _ _ _ _ hj]
          exact Or.inl rfl
      · exact Or.inr h

theorem setParentsGo_spec (F : RForest) (hN : F.allIds.Nodup) :
    ∀ (chain : List Nat) (tags : Nat → IsContained) (i : Nat),
    F.ancChain i = some chain →
    (∀ x ∈ chain, tags x = IsContained.parentOfDuplicate →
      ∀ b ∈ F.ancestorIds x, tags b = IsContained.parentOfDuplicate ∨
        tags b = IsContained.duplicate) →
    (∀ a ∈ chain, tags a ≠ IsContained.duplicate) →
    ∀ a ∈ chain, setParentsGo tags chain a = IsContained.parentOfDuplicate := by
  intro chain
  induction chain with
  | nil => intro tags i _ _ _ a ha; cases ha
  | cons a0 rest ih =>
    intro tags i hanc h8 hnd b hb
    have hrest : F.ancChain a0 = some rest :=
      RForest.ancChain_tail_forest F i a0 rest hN hanc
    have hnodup : (a0 :: rest).Nodup :=
      RForest.ancChain_nodup_forest F i _ hN hanc
    rw [setParentsGo]
    by_cases h0 : tags a0 = IsContained.parentOfDuplicate
    · rw [if_pos h0]
      rcases List.mem_cons.mp hb with rfl | hb
      · exact h0
      · rcases h8 a0 (List.mem_cons_self _ _) h0 b
          (by rw [RForest.ancestorIds, hrest]; exact hb) with h | h
        · exact h
        · exact absurd h (hnd b (List.mem_cons_of_mem _ hb))
    · rw [if_neg h0]
      have ha0nr : a0 ∉ rest := (List.nodup_cons.mp hnodup).1
      have h8' : ∀ x ∈ rest,
          (upd tags a0 IsContained.parentOfDuplicate) x = IsContained.parentOfDuplicate →
          ∀ b1 ∈ F.ancestorIds x,
            (upd tags a0 IsContained.parentOfDuplicate) b1 = IsContained.parentOfDuplicate ∨
            (upd tags a0 IsContained.parentOfDuplicate) b1 = IsContained.duplicate := by
        intro x hx hxp b1 hb1
        have hxa0 : x ≠ a0 := fun hc => ha0nr (hc ▸ hx)
        rw [upd_ne _ _ _ _ hxa0] at hxp
        rcases h8 x (List.mem_cons_of_mem _ hx) hxp b1 hb1 with h | h
        · by_cases hba : b1 = a0
          · subst hba
            rw [upd_self]
            exact Or.inl rfl
          · rw [upd_ne _ _ _ _ hba]
            exact Or.inl h
        · have hba : b1 ≠ a0 := fun hc =>
            (hnd a0 (List.mem_cons_self _ _)) (hc ▸ h)
          rw [upd_ne _ _ _ _ hba]
          exact Or.inr h
      have hnd' : ∀ a ∈ rest,
          (upd tags a0 IsContained.parentOfDuplicate) a ≠ IsContained.duplicate := by
        intro a ha
        have haa0 : a ≠ a0 := fun hc => ha0nr (hc ▸ ha)
        rw [upd_ne _ _ _ _ haa0]
        exact hnd a (List.mem_cons_of_mem _ ha)
      have hres := ih (upd tags a0 IsContained.parentOfDuplicate) a0 hrest h8' hnd'
      rcases List.mem_cons.mp hb with rfl | hb
      · rw [setParentsGo_frame rest _ b ha0nr]
        exact upd_self _ _ _
      · exact hres b hb

/-! ### Hypotheses and state invariant for the topmost-groups proof (C1) -/

/-- The facts about the finished Equivalence state that the extraction
phase relies on: duplicate-free ids, injective paths, and duplicate sets
forming irreflexive, coherent, duplicate-free classes of existing,
pairwise non-nested nodes. -/
structure DuplHyps (F : RForest) (dupl : DuplState) : Prop where
  hN : F.allIds.Nodup
  hirr : ∀ i, i ∉ dupl i
  hdnd : ∀ i, (dupl i).Nodup
  hcl : ∀ i j, j ∈ dupl i → ∀ k, (k ∈ dupl j ∨ k = j) ↔ (k ∈ dupl i ∨ k = i)
  hids : ∀ i j, j ∈ dupl i → j ∈ F.allIds
  hnest : ∀ i j, j ∈ dupl i → ∀ u v, F.findNode i = some u →
    F.findNode j = some v → v ∉ u.descNodes
  hpinj : ∀ u ∈ F.postNodes, ∀ v ∈ F.postNodes, u.pathOf = v.pathOf → u = v

theorem clos_eq {F : RForest} {dupl : DuplState} (H : DuplHyps F dupl)
    {i j : Nat} (h : j ∈ dupl i ∨ j = i) :
    ∀ k, (k ∈ dupl j ∨ k = j) ↔ (k ∈ dupl i ∨ k = i) := by
  rcases h with h | rfl
  · exact H.hcl i j h
  · exact fun k => Iff.rfl

theorem clos_mem_list {dupl : DuplState} {i j : Nat} :
    j ∈ i :: dupl i ↔ (j ∈ dupl i ∨ j = i) := by
  rw [List.mem_cons]
  tauto

theorem clos_nonempty_of_mem {F : RForest} {dupl : DuplState}
    (H : DuplHyps F dupl) {i j : Nat} (hj : j ∈ dupl i ∨ j = i)
    (hne : dupl i ≠ []) : dupl j ≠ [] := by
  intro hc
  rcases hj with hj | rfl
  · -- i is a class mate of j, so i ∈ dupl j ∨ i = j; dupl j = [] forces i = j
    have := (clos_eq H (Or.inl hj) i).mpr (Or.inr rfl)
    rcases this with h | rfl
    · rw [hc] at h
      cases h
    · exact H.hirr i hj
  · exact hne hc

theorem pathSetEq_iff (a b : List OsStr) :
    pathSetEq a b = true ↔ ((∀ x ∈ a, x ∈ b) ∧ ∀ x ∈ b, x ∈ a) := by
  rw [pathSetEq, decide_eq_true_eq]

theorem pairwise_mem_eq {α : Type} {R : α → α → Prop} :
    ∀ {l : List α} {a b : α}, l.Pairwise R → a ∈ l → b ∈ l →
      ¬ R a b → ¬ R b a → a = b := by
  intro l
  induction l with
  | nil => intro a b _ ha; cases ha
  | cons x xs ih =>
    intro a b hpw ha hb hab hba
    rw [List.pairwise_cons] at hpw
    rcases List.mem_cons.mp ha with ha1 | ha2
    · rcases List.mem_cons.mp hb with hb1 | hb2
      · rw [ha1, hb1]
      · rw [ha1] at hab
        exact absurd (hpw.1 b hb2) hab
    · rcases List.mem_cons.mp hb with hb1 | hb2
      · rw [hb1] at hba
        exact absurd (hpw.1 a ha2) hba
      · exact ih hpw.2 ha2 hb2 hab hba

theorem removeObject_split (ob : DuplicateObject) :
    ∀ (gs gs' : List DuplicateObject), removeObject ob gs = some gs' →
    ∃ pre grem post, gs = pre ++ grem :: post ∧ gs' = pre ++ post ∧
      DuplicateObject.eqv grem ob = true := by
  intro gs
  induction gs with
  | nil => intro gs' h; cases h
  | cons g rest ih =>
    intro gs' h
    rw [removeObject] at h
    split at h
    · cases h
      rename_i heq
      exact ⟨[], g, rest, rfl, rfl, heq⟩
    · rcases hr : removeObject ob rest with _ | r <;> rw [hr] at h
      · cases h
      · rw [Option.map_some'] at h
        cases h
        obtain ⟨pre, grem, post, h1, h2, h3⟩ := ih r hr
        exact ⟨g :: pre, grem, post, by rw [h1]; rfl, by rw [h2]; rfl, h3⟩

theorem tagAll_keep : ∀ (ids : List Nat) (tags : Nat → IsContained) (j : Nat),
    tags j = IsContained.childOfDuplicate →
    (ids.foldl (fun tg i => upd tg i IsContained.childOfDuplicate) tags) j =
      IsContained.childOfDuplicate := by
  intro ids
  induction ids with
  | nil => intro tags j h; exact h
  | cons a rest ih =>
    intro tags j h
    rw [List.foldl_cons]
    refine ih _ j ?_
    by_cases hja : j = a
    · subst hja
      exact upd_self _ _ _
    · rw [upd_ne _ _ _ _ hja]
      exact h

theorem tagAll_mem : ∀ (ids : List Nat) (tags : Nat → IsContained) (j : Nat),
    j ∈ ids → (ids.foldl (fun tg i => upd tg i IsContained.childOfDuplicate) tags) j =
      IsContained.childOfDuplicate := by
  intro ids
  induction ids with
  | nil => intro tags j hj; cases hj
  | cons a rest ih =>
    intro tags j hj
    rw [List.foldl_cons]
    rcases List.mem_cons.mp hj with rfl | hj
    · exact tagAll_keep rest _ j (upd_self _ _ _)
    · exact ih _ j hj

theorem tagAll_frame : ∀ (ids : List Nat) (tags : Nat → IsContained) (j : Nat),
    j ∉ ids → (ids.foldl (fun tg i => upd tg i IsContained.childOfDuplicate) tags) j =
      tags j := by
  intro ids
  induction ids with
  | nil => intro tags j _; rfl
  | cons a rest ih =>
    intro tags j hj
    rw [List.foldl_cons, ih _ j (fun hc => hj (List.mem_cons_of_mem _ hc))]
    exact upd_ne _ _ _ _ (fun hc => hj (hc ▸ List.mem_cons_self _ _))

theorem pathsList_mem_rev (F : RForest) : ∀ (ids : List Nat) (l : List OsStr),
    pathsList F ids = some l → ∀ p ∈ l, ∃ i ∈ ids, getPath F i = some p := by
  intro ids
  induction ids with
  | nil =>
    intro l h p hp
    rw [pathsList] at h
    cases h
    cases hp
  | cons j rest ih =>
    intro l h p hp
    rw [pathsList] at h
    rcases h1 : getPath F j with _ | q <;> rw [h1] at h
    · rcases h2 : pathsList F rest with _ | ps <;> rw [h2] at h <;>
        exact Option.noConfusion h
    · rcases h2 : pathsList F rest with _ | ps <;> rw [h2] at h
      · exact Option.noConfusion h
      · have h3 : some (q :: ps) = some l := h
        cases h3
        rcases List.mem_cons.mp hp with rfl | hp
        · exact ⟨j, List.mem_cons_self _ _, h1⟩
        · obtain ⟨i, hi1, hi2⟩ := ih ps h2 p hp
          exact ⟨i, List.mem_cons_of_mem _ hi1, hi2⟩

/-- Membership in a computed path set: exactly the paths of the listed
members. -/
theorem pathsOf_mem (F : RForest) (ids : List Nat) (ps : List OsStr)
    (h : pathsOf F ids = some ps) :
    ∀ p, p ∈ ps ↔ ∃ i ∈ ids, getPath F i = some p := by
  rw [pathsOf] at h
  rcases hl : pathsList F ids with _ | l <;> rw [hl] at h
  · exact Option.noConfusion h
  · rw [Option.map_some'] at h
    injection h with h
    subst h
    intro p
    rw [List.mem_dedup]
    constructor
    · exact pathsList_mem_rev F ids l hl p
    · rintro ⟨i, hi, hgi⟩
      obtain ⟨q, hq1, hq2⟩ := pathsList_mem F ids l hl i hi
      rw [hgi] at hq1
      injection hq1 with hq1
      rw [hq1]
      exact hq2

theorem mem_insertPath (p q : OsStr) (ps : List OsStr) :
    q ∈ insertPath p ps ↔ q = p ∨ q ∈ ps := by
  rw [insertPath]
  split
  · rename_i hmem
    constructor
    · exact fun h => Or.inr h
    · rintro (rfl | h)
      · exact hmem
      · exact h
  · rw [List.mem_cons]

/-- Membership in the duplicate object built from a node: the paths of
the node and of its stored duplicates. -/
theorem makeDuplObj_mem (F : RForest) (hN : F.allIds.Nodup) (dupl : DuplState)
    (sizes : Nat → Option Nat) (t : RTree) (ob : DuplicateObject)
    (ht : t ∈ F.postNodes)
    (h : makeDuplicateObjectFromNode F dupl sizes t = some ob) :
    ∀ p, p ∈ ob.duplicates ↔
      ∃ i ∈ t.nodeId :: dupl t.nodeId, getPath F i = some p := by
  rcases hfd : t.isFileOrDir with _ | _
  · rw [makeDuplicateObjectFromNode, nodeDups_of_not_fileOrDir dupl t hfd] at h
    rcases hsz : nodeSize sizes t with _ | sz <;> rw [hsz] at h <;>
      exact Option.noConfusion h
  · rw [makeDuplicateObjectFromNode, nodeDups_of_fileOrDir dupl t hfd] at h
    rcases hsz : nodeSize sizes t with _ | sz <;> rw [hsz] at h
    · exact Option.noConfusion h
    · have h2 : Option.map (fun ps => (⟨insertPath t.pathOf ps, sz⟩ :
          DuplicateObject)) (pathsOf F (dupl t.nodeId)) = some ob := h
      clear h
      rcases hps : pathsOf F (dupl t.nodeId) with _ | psd <;> rw [hps] at h2
      · exact Option.noConfusion h2
      · rw [Option.map_some'] at h2
        injection h2 with h2
        subst h2
        intro p
        simp only [mem_insertPath]
        constructor
        · rintro (rfl | hp)
          · exact ⟨t.nodeId, List.mem_cons_self _ _, getPath_eq F hN t ht⟩
          · obtain ⟨i, hi1, hi2⟩ := (pathsOf_mem F _ psd hps p).mp hp
            exact ⟨i, List.mem_cons_of_mem _ hi1, hi2⟩
        · rintro ⟨i, hi, hgi⟩
          rcases List.mem_cons.mp hi with rfl | hi
          · rw [getPath_eq F hN t ht] at hgi
            injection hgi with hgi
            exact Or.inl hgi.symm
          · exact Or.inr ((pathsOf_mem F _ psd hps p).mpr ⟨i, hi, hgi⟩)

/-- Two members of the same duplicate class generate set-equal path sets. -/
theorem class_paths_eq {F : RForest} {dupl : DuplState} (H : DuplHyps F dupl)
    (n i : Nat) (hin : i ∈ dupl n ∨ i = n) (psn : List OsStr)
    (hn : pathsOf F (n :: dupl n) = some psn) (A : List OsStr)
    (hA : ∀ p, p ∈ A ↔ ∃ j ∈ i :: dupl i, getPath F j = some p) :
    pathSetEq psn A = true := by
  rw [pathSetEq_iff]
  have hcl := clos_eq H hin
  constructor
  · intro p hp
    obtain ⟨j, hj, hgj⟩ := (pathsOf_mem F _ psn hn p).mp hp
    refine (hA p).mpr ⟨j, ?_, hgj⟩
    rw [clos_mem_list]
    exact (hcl j).mpr (clos_mem_list.mp hj)
  · intro p hp
    obtain ⟨j, hj, hgj⟩ := (hA p).mp hp
    refine (pathsOf_mem F _ psn hn p).mpr ⟨j, ?_, hgj⟩
    rw [clos_mem_list]
    exact (hcl j).mp (clos_mem_list.mp hj)

/-- All tag changes are to `ChildOfDuplicate`. -/
def ChildWrites (s s' : XState) : Prop :=
  ∀ j, s'.tags j = s.tags j ∨ s'.tags j = IsContained.childOfDuplicate

theorem childWrites_refl (s : XState) : ChildWrites s s := fun _ => Or.inl rfl

theorem childWrites_trans {s1 s2 s3 : XState} (h1 : ChildWrites s1 s2)
    (h2 : ChildWrites s2 s3) : ChildWrites s1 s3 := by
  intro j
  rcases h2 j with h | h
  · rw [h]
    exact h1 j
  · exact Or.inr h

theorem childWrites_keep {s s' : XState} (h : ChildWrites s s') (j : Nat)
    (hc : s.tags j = IsContained.childOfDuplicate) :
    s'.tags j = IsContained.childOfDuplicate := by
  rcases h j with h2 | h2
  · rw [h2, hc]
  · exact h2

theorem childWrites_dup_back {s s' : XState} (h : ChildWrites s s') (j : Nat)
    (hd : s'.tags j = IsContained.duplicate) :
    s.tags j = IsContained.duplicate := by
  rcases h j with h2 | h2
  · rw [← h2, hd]
  · rw [h2] at hd
    cases hd

theorem childWrites_pO_back {s s' : XState} (h : ChildWrites s s') (j : Nat)
    (hd : s'.tags j = IsContained.parentOfDuplicate) :
    s.tags j = IsContained.parentOfDuplicate := by
  rcases h j with h2 | h2
  · rw [← h2, hd]
  · rw [h2] at hd
    cases hd

/-- All tag changes overwrite a `Duplicate` tag with `ChildOfDuplicate`
(the write discipline of the removal phase). -/
def DupWrites (s s' : XState) : Prop :=
  ∀ j, s'.tags j = s.tags j ∨
    (s.tags j = IsContained.duplicate ∧
     s'.tags j = IsContained.childOfDuplicate)

theorem dupWrites_child {s s' : XState} (h : DupWrites s s') :
    ChildWrites s s' := fun j => (h j).imp id And.right

theorem dupWrites_refl (s : XState) : DupWrites s s := fun _ => Or.inl rfl

theorem dupWrites_trans {s1 s2 s3 : XState} (h1 : DupWrites s1 s2)
    (h2 : DupWrites s2 s3) : DupWrites s1 s3 := by
  intro j
  rcases h2 j with h | ⟨hd, hc⟩
  · rw [h]
    exact h1 j
  · rcases h1 j with h3 | ⟨hd3, hc3⟩
    · rw [h3] at hd
      exact Or.inr ⟨hd, hc⟩
    · rw [hc3] at hd
      cases hd

/-- The extraction-state invariant: every group in the list is realised
by a fully `Duplicate`-tagged duplicate class; every `Duplicate` node
belongs to such a realiser; strict descendants of `Duplicate` nodes are
`ChildOfDuplicate`; strict ancestors of `Duplicate` and of
`ParentOfDuplicate` nodes are `ParentOfDuplicate` or `Duplicate`;
`ChildOfDuplicate` is closed downwards; and the listed groups have
pairwise different path sets. -/
structure XInv (F : RForest) (dupl : DuplState) (s : XState) : Prop where
  i1 : ∀ G ∈ s.groups, ∃ n, n ∈ F.allIds ∧ dupl n ≠ [] ∧
    pathsOf F (n :: dupl n) = some G.duplicates ∧
    ∀ j ∈ n :: dupl n, s.tags j = IsContained.duplicate
  i6 : ∀ e, s.tags e = IsContained.duplicate →
    ∃ G ∈ s.groups, ∃ n, n ∈ F.allIds ∧ dupl n ≠ [] ∧
      pathsOf F (n :: dupl n) = some G.duplicates ∧
      e ∈ n :: dupl n ∧
      ∀ j ∈ n :: dupl n, s.tags j = IsContained.duplicate
  i3 : ∀ e u, s.tags e = IsContained.duplicate → F.findNode e = some u →
    ∀ v ∈ u.descNodes, s.tags v.nodeId = IsContained.childOfDuplicate
  i4 : ∀ e u, s.tags e = IsContained.duplicate → F.findNode e = some u →
    ∀ w ∈ F.postNodes, u ∈ w.descNodes →
      s.tags w.nodeId = IsContained.parentOfDuplicate ∨
      s.tags w.nodeId = IsContained.duplicate
  i8 : ∀ x u, s.tags x = IsContained.parentOfDuplicate → F.findNode x = some u →
    ∀ w ∈ F.postNodes, u ∈ w.descNodes →
      s.tags w.nodeId = IsContained.parentOfDuplicate ∨
      s.tags w.nodeId = IsContained.duplicate
  i7 : H7 F s.tags
  i5 : s.groups.Pairwise
    (fun G G' => pathSetEq G.duplicates G'.duplicates = false)

theorem pathSetEq_refl (A : List OsStr) : pathSetEq A A = true :=
  (pathSetEq_iff A A).mpr ⟨fun _ h => h, fun _ h => h⟩

theorem getPath_char (F : RForest) (j : Nat) (p : OsStr)
    (h : getPath F j = some p) :
    ∃ u, F.findNode j = some u ∧ u.pathOf = p ∧ u.nodeId = j ∧
      u ∈ F.postNodes := by
  rw [getPath] at h
  rcases hf : F.findNode j with _ | u <;> rw [hf] at h
  · exact Option.noConfusion h
  · rw [Option.map_some'] at h
    injection h with h
    obtain ⟨hmem, hid⟩ := RForest.findNode_sound_forest F j u hf
    exact ⟨u, rfl, h, hid, hmem⟩

/-- With injective paths, two duplicate classes whose path sets coincide
are the same class. -/
theorem class_eq_of_paths {F : RForest} {dupl : DuplState} (H : DuplHyps F dupl)
    (m n : Nat) (psm psn : List OsStr)
    (hm : pathsOf F (m :: dupl m) = some psm)
    (hn : pathsOf F (n :: dupl n) = some psn)
    (heq : pathSetEq psm psn = true) :
    ∀ j, j ∈ m :: dupl m ↔ j ∈ n :: dupl n := by
  obtain ⟨h1, h2⟩ := (pathSetEq_iff psm psn).mp heq
  have core : ∀ (a b : Nat) (psa psb : List OsStr),
      pathsOf F (a :: dupl a) = some psa →
      pathsOf F (b :: dupl b) = some psb →
      (∀ p ∈ psa, p ∈ psb) → ∀ j, j ∈ a :: dupl a → j ∈ b :: dupl b := by
    intro a b psa psb ha hb hab j hj
    have hl' : ∃ l, pathsList F (a :: dupl a) = some l := by
      have ha2 := ha
      rw [pathsOf] at ha2
      rcases hl : pathsList F (a :: dupl a) with _ | l <;> rw [hl] at ha2
      · exact Option.noConfusion ha2
      · exact ⟨l, rfl⟩
    obtain ⟨l, hl⟩ := hl'
    obtain ⟨q, hq1, hq2⟩ := pathsList_mem F _ l hl j hj
    have hqa : q ∈ psa := (pathsOf_mem F _ psa ha q).mpr ⟨j, hj, hq1⟩
    obtain ⟨k, hk1, hk2⟩ := (pathsOf_mem F _ psb hb q).mp (hab q hqa)
    obtain ⟨u, hu1, hu2, hu3, hu4⟩ := getPath_char F j q hq1
    obtain ⟨v, hv1, hv2, hv3, hv4⟩ := getPath_char F k q hk2
    have huv : u = v := H.hpinj u hu4 v hv4 (hu2.trans hv2.symm)
    have hjk : j = k := by rw [← hu3, huv, hv3]
    rw [hjk]
    exact hk1
  exact fun j => ⟨core m n psm psn hm hn h1 j, core n m psn psm hn hm h2 j⟩

/-- The invariant-preserving specification of the `Duplicate` branch of
`remove_duplicate_from_list`: on success the removed group is exactly the
one realised by the node's class, whose members all become
`ChildOfDuplicate`; the invariant survives and the node is no longer
tagged `Duplicate`. -/
theorem rdStep_spec {F : RForest} {dupl : DuplState} (H : DuplHyps F dupl)
    (sizes : Nat → Option Nat) (s : XState) (t : RTree)
    (ht : t ∈ F.postNodes) (hInv : XInv F dupl s) (s' : XState)
    (h : removeDuplStep F dupl sizes s t = some s') :
    XInv F dupl s' ∧ DupWrites s s' ∧ s'.groups.Sublist s.groups ∧
    s'.tags t.nodeId ≠ IsContained.duplicate := by
  by_cases hd : s.tags t.nodeId = IsContained.duplicate
  case neg =>
    rw [removeDuplStep, if_neg hd] at h
    cases h
    exact ⟨hInv, dupWrites_refl s, List.Sublist.refl _, hd⟩
  case pos =>
    rcases hm : makeDuplicateObjectFromNode F dupl sizes t with _ | ob
    · rcases hn : nodeDups dupl t with _ | ds <;>
        rw [removeDuplStep, if_pos hd, hm, hn] at h <;> exact Option.noConfusion h
    · rcases hn : nodeDups dupl t with _ | ds
      · rw [removeDuplStep, if_pos hd, hm, hn] at h
        exact Option.noConfusion h
      · rw [removeDuplStep_eq_dup F dupl sizes s t ob ds hd hm hn] at h
        rcases hr : removeObject ob s.groups with _ | gs <;> rw [hr] at h
        · exact Option.noConfusion h
        · have h2 : some (⟨(t.nodeId :: ds).foldl
              (fun tg i => upd tg i IsContained.childOfDuplicate) s.tags, gs⟩ :
              XState) = some s' := h
          cases h2
          -- the node carries a duplicate set
          have hfd : t.isFileOrDir = true := by
            rcases hfd : t.isFileOrDir with _ | _
            · rw [nodeDups_of_not_fileOrDir dupl t hfd] at hn
              exact Option.noConfusion hn
            · rfl
          have hds : ds = dupl t.nodeId := by
            rw [nodeDups_of_fileOrDir dupl t hfd] at hn
            injection hn with hn
            exact hn.symm
          subst hds
          -- the live group realised by the node's class
          obtain ⟨Ge, hGemem, n, hnF, hnne, hpsn, htin, hall⟩ := hInv.i6 t.nodeId hd
          have htin' : t.nodeId ∈ dupl n ∨ t.nodeId = n := clos_mem_list.mp htin
          have hCT : ∀ j, j ∈ t.nodeId :: dupl t.nodeId ↔ j ∈ n :: dupl n := by
            intro j
            rw [clos_mem_list, clos_mem_list]
            exact clos_eq H htin' j
          have hallCT : ∀ j ∈ t.nodeId :: dupl t.nodeId,
              s.tags j = IsContained.duplicate :=
            fun j hj => hall j ((hCT j).mp hj)
          have hobmem := makeDuplObj_mem F H.hN dupl sizes t ob ht hm
          have hGeob : pathSetEq Ge.duplicates ob.duplicates = true :=
            class_paths_eq H n t.nodeId htin' Ge.duplicates hpsn ob.duplicates hobmem
          obtain ⟨pre, grem, post, hsplit, hgs, heqv⟩ :=
            removeObject_split ob s.groups gs hr
          have hgremmem : grem ∈ s.groups := by
            rw [hsplit]
            exact List.mem_append.mpr (Or.inr (List.mem_cons_self _ _))
          have hgremob : pathSetEq grem.duplicates ob.duplicates = true := by
            rw [DuplicateObject.eqv, Bool.and_eq_true] at heqv
            exact heqv.1
          have hgremGe : pathSetEq grem.duplicates Ge.duplicates = true := by
            rw [pathSetEq_iff]
            obtain ⟨a1, a2⟩ := (pathSetEq_iff _ _).mp hgremob
            obtain ⟨b1, b2⟩ := (pathSetEq_iff _ _).mp hGeob
            exact ⟨fun x hx => b2 x (a1 x hx), fun x hx => a2 x (b1 x hx)⟩
          have hGegrem : pathSetEq Ge.duplicates grem.duplicates = true := by
            rw [pathSetEq_iff]
            obtain ⟨a1, a2⟩ := (pathSetEq_iff _ _).mp hgremGe
            exact ⟨a2, a1⟩
          have hgeq : grem = Ge := by
            refine pairwise_mem_eq hInv.i5 hgremmem hGemem ?_ ?_
            · intro hc
              rw [hgremGe] at hc
              cases hc
            · intro hc
              rw [hGegrem] at hc
              cases hc
          subst hgeq
          -- list relations
          have hsubl : gs.Sublist s.groups := by
            rw [hgs, hsplit]
            exact List.Sublist.append (List.Sublist.refl pre)
              (List.sublist_cons_self grem post)
          have hnotin : grem ∉ gs := by
            intro hc
            have hpw := hInv.i5
            rw [hsplit] at hpw
            rw [hgs] at hc
            obtain ⟨hpre, hrest, hcross⟩ := List.pairwise_append.mp hpw
            rcases List.mem_append.mp hc with hc | hc
            · have h3 := hcross grem hc grem (List.mem_cons_self _ _)
              rw [pathSetEq_refl] at h3
              cases h3
            · have h3 := (List.pairwise_cons.mp hrest).1 grem hc
              rw [pathSetEq_refl] at h3
              cases h3
          have hmemgs : ∀ G ∈ gs, G ∈ s.groups := fun G hG => hsubl.subset hG
          have hGnotGe : ∀ G ∈ gs, G ≠ grem := fun G hG hc => hnotin (hc ▸ hG)
          have hmem_back : ∀ G ∈ s.groups, G ≠ grem → G ∈ gs := by
            intro G hG hne
            rw [hsplit] at hG
            rw [hgs]
            rcases List.mem_append.mp hG with hG | hG
            · exact List.mem_append.mpr (Or.inl hG)
            · rcases List.mem_cons.mp hG with rfl | hG
              · exact absurd rfl hne
              · exact List.mem_append.mpr (Or.inr hG)
          have hclass_not_CT : ∀ G ∈ gs, ∀ m,
              pathsOf F (m :: dupl m) = some G.duplicates →
              ∀ j ∈ m :: dupl m, j ∉ t.nodeId :: dupl t.nodeId := by
            intro G hG m hpsm j hjm hjCT
            have hjm' := clos_eq H (clos_mem_list.mp hjm)
            have hjn' := clos_eq H (clos_mem_list.mp ((hCT j).mp hjCT))
            have hmn : ∀ k, k ∈ m :: dupl m ↔ k ∈ n :: dupl n := by
              intro k
              rw [clos_mem_list, clos_mem_list]
              exact ((hjm' k).symm.trans (hjn' k))
            have hps : pathSetEq G.duplicates grem.duplicates = true := by
              rw [pathSetEq_iff]
              constructor
              · intro p hp
                obtain ⟨i, hi, hgi⟩ := (pathsOf_mem F _ _ hpsm p).mp hp
                exact (pathsOf_mem F _ _ hpsn p).mpr ⟨i, (hmn i).mp hi, hgi⟩
              · intro p hp
                obtain ⟨i, hi, hgi⟩ := (pathsOf_mem F _ _ hpsn p).mp hp
                exact (pathsOf_mem F _ _ hpsm p).mpr ⟨i, (hmn i).mpr hi, hgi⟩
            have hps' : pathSetEq grem.duplicates G.duplicates = true := by
              rw [pathSetEq_iff]
              obtain ⟨a1, a2⟩ := (pathSetEq_iff _ _).mp hps
              exact ⟨a2, a1⟩
            refine hGnotGe G hG (pairwise_mem_eq hInv.i5 (hmemgs G hG) hgremmem ?_ ?_)
            · intro hc
              rw [hps] at hc
              cases hc
            · intro hc
              rw [hps'] at hc
              cases hc
          have hτmem : ∀ j ∈ t.nodeId :: dupl t.nodeId,
              ((t.nodeId :: dupl t.nodeId).foldl
                (fun tg i => upd tg i IsContained.childOfDuplicate) s.tags) j =
                IsContained.childOfDuplicate :=
            fun j hj => tagAll_mem _ s.tags j hj
          have hτframe : ∀ j, j ∉ t.nodeId :: dupl t.nodeId →
              ((t.nodeId :: dupl t.nodeId).foldl
                (fun tg i => upd tg i IsContained.childOfDuplicate) s.tags) j =
                s.tags j :=
            fun j hj => tagAll_frame _ s.tags j hj
          have hcw : DupWrites s ⟨(t.nodeId :: dupl t.nodeId).foldl
              (fun tg i => upd tg i IsContained.childOfDuplicate) s.tags, gs⟩ := by
            intro j
            by_cases hj : j ∈ t.nodeId :: dupl t.nodeId
            · exact Or.inr ⟨hallCT j hj, hτmem j hj⟩
            · exact Or.inl (hτframe j hj)
          have hdup_back2 : ∀ j, ((t.nodeId :: dupl t.nodeId).foldl
              (fun tg i => upd tg i IsContained.childOfDuplicate) s.tags) j =
              IsContained.duplicate →
              s.tags j = IsContained.duplicate ∧ j ∉ t.nodeId :: dupl t.nodeId := by
            intro j hj
            by_cases hjc : j ∈ t.nodeId :: dupl t.nodeId
            · rw [hτmem j hjc] at hj
              cases hj
            · rw [hτframe j hjc] at hj
              exact ⟨hj, hjc⟩
          refine ⟨⟨?_, ?_, ?_, ?_, ?_, ?_, ?_⟩, hcw, hsubl, ?_⟩
          · -- i1
            intro G hG
            obtain ⟨m, hmF, hmne, hpsm, hallm⟩ := hInv.i1 G (hmemgs G hG)
            exact ⟨m, hmF, hmne, hpsm, fun j hj =>
              (hτframe j (hclass_not_CT G hG m hpsm j hj)).trans (hallm j hj)⟩
          · -- i6
            intro e he
            obtain ⟨hse, heCT⟩ := hdup_back2 e he
            obtain ⟨G, hG, m, hmF, hmne, hpsm, hein, hallm⟩ := hInv.i6 e hse
            have hGne : G ≠ grem := by
              intro hc
              subst hc
              have hmneq := class_eq_of_paths H m n G.duplicates G.duplicates
                hpsm hpsn (pathSetEq_refl _)
              exact heCT ((hCT e).mpr ((hmneq e).mp hein))
            have hGgs : G ∈ gs := hmem_back G hG hGne
            exact ⟨G, hGgs, m, hmF, hmne, hpsm, hein, fun j hj =>
              (hτframe j (hclass_not_CT G hGgs m hpsm j hj)).trans (hallm j hj)⟩
          · -- i3
            intro e u he hfe v hv
            obtain ⟨hse, _⟩ := hdup_back2 e he
            exact childWrites_keep (dupWrites_child hcw) v.nodeId (hInv.i3 e u hse hfe v hv)
          · -- i4
            intro e u he hfe w hw hws
            obtain ⟨hse, _⟩ := hdup_back2 e he
            by_cases hwCT : w.nodeId ∈ t.nodeId :: dupl t.nodeId
            · exfalso
              have hwdup := hallCT w.nodeId hwCT
              have hcof := hInv.i3 w.nodeId w hwdup
                (findNode_self_eq F H.hN w hw) u hws
              rw [(RForest.findNode_sound_forest F e u hfe).2] at hcof
              rw [hcof] at hse
              cases hse
            · rcases hInv.i4 e u hse hfe w hw hws with h4 | h4
              · exact Or.inl ((hτframe w.nodeId hwCT).trans h4)
              · exact Or.inr ((hτframe w.nodeId hwCT).trans h4)
          · -- i8
            intro x u hx hfx w hw hws
            have hsx : s.tags x = IsContained.parentOfDuplicate :=
              childWrites_pO_back (dupWrites_child hcw) x hx
            by_cases hwCT : w.nodeId ∈ t.nodeId :: dupl t.nodeId
            · exfalso
              have hwdup := hallCT w.nodeId hwCT
              have hcof := hInv.i3 w.nodeId w hwdup
                (findNode_self_eq F H.hN w hw) u hws
              rw [(RForest.findNode_sound_forest F x u hfx).2] at hcof
              rw [hcof] at hsx
              cases hsx
            · rcases hInv.i8 x u hsx hfx w hw hws with h4 | h4
              · exact Or.inl ((hτframe w.nodeId hwCT).trans h4)
              · exact Or.inr ((hτframe w.nodeId hwCT).trans h4)
          · -- i7
            intro x hx hxc v hv
            by_cases hold : s.tags x.nodeId = IsContained.childOfDuplicate
            · exact childWrites_keep (dupWrites_child hcw) v.nodeId (hInv.i7 x hx hold v hv)
            · have hxCT : x.nodeId ∈ t.nodeId :: dupl t.nodeId := by
                by_contra hxCT
                exact hold ((hτframe x.nodeId hxCT).symm.trans hxc)
              have hxdup := hallCT x.nodeId hxCT
              exact childWrites_keep (dupWrites_child hcw) v.nodeId
                (hInv.i3 x.nodeId x hxdup (findNode_self_eq F H.hN x hx) v hv)
          · -- i5
            exact List.Pairwise.sublist hsubl hInv.i5
          · -- the node itself is retagged
            intro hc
            have h3 := hτmem t.nodeId (List.mem_cons_self _ _)
            exact IsContained.noConfusion (h3.symm.trans hc)

theorem isNodeParentOrDuplicate_true_iff (tags : Nat → IsContained) (i : Nat) :
    isNodeParentOrDuplicate tags i = true ↔
    tags i = IsContained.parentOfDuplicate ∨ tags i = IsContained.duplicate := by
  rw [isNodeParentOrDuplicate, Bool.or_eq_true, decide_eq_true_eq,
    decide_eq_true_eq]

mutual
/-- Invariant preservation and completeness of
`remove_duplicate_from_list`: afterwards no node of the processed subtree
is tagged `Duplicate`. -/
theorem removeDup_spec {F : RForest} {dupl : DuplState} (H : DuplHyps F dupl)
    (sizes : Nat → Option Nat) :
    ∀ (t : RTree) (s s' : XState), t ∈ F.postNodes → XInv F dupl s →
    removeDuplicateFromList F dupl sizes s t = some s' →
    XInv F dupl s' ∧ DupWrites s s' ∧ s'.groups.Sublist s.groups ∧
    (∀ e u, s'.tags e = IsContained.duplicate → F.findNode e = some u →
      u ∉ t.postNodes)
  | .file d, s, s', ht, hInv, h => by
    rw [removeDuplicateFromList] at h
    obtain ⟨hinv, hcw, hsub, hroot⟩ := rdStep_spec H sizes s (.file d) ht hInv s' h
    refine ⟨hinv, hcw, hsub, ?_⟩
    intro e u he hfe hu
    rw [RTree.postNodes] at hu
    rcases List.mem_singleton.mp hu with rfl
    have hid := (RForest.findNode_sound_forest F e _ hfe).2
    rw [← hid] at he
    exact hroot he
  | .dir i p cs, s, s', ht, hInv, h => by
    rw [removeDuplicateFromList] at h
    rcases h1 : removeDuplStep F dupl sizes s (.dir i p cs) with _ | s1 <;>
      rw [h1] at h
    · exact Option.noConfusion h
    · obtain ⟨hinv1, hcw1, hsub1, hroot1⟩ :=
        rdStep_spec H sizes s (.dir i p cs) ht hInv s1 h1
      have hchF : ∀ u, u ∈ cs.toList → u ∈ F.postNodes := fun u hu =>
        RForest.postNodes_trans_forest F _ u ht
          (RTree.childList_mem_postNodes (.dir i p cs) u hu)
      obtain ⟨hinv2, hcw2, hsub2, hcomp2⟩ := removeDupF_spec H sizes cs s1 s1 s'
        hchF hinv1 hinv1 (dupWrites_refl s1) (List.Sublist.refl _) h
      refine ⟨hinv2, dupWrites_trans hcw1 hcw2, hsub2.trans hsub1, ?_⟩
      intro e u he hfe hu
      rw [RTree.postNodes] at hu
      rcases List.mem_append.mp hu with hu | hu
      · exact hcomp2 e u he hfe hu
      · rcases List.mem_singleton.mp hu with rfl
        have hid := (RForest.findNode_sound_forest F e _ hfe).2
        have hs1e : s1.tags e = IsContained.duplicate :=
          childWrites_dup_back (dupWrites_child hcw2) e he
        rw [← hid] at hs1e
        exact hroot1 hs1e
  | .symlink i p, s, s', ht, hInv, h => by
    rw [removeDuplicateFromList] at h
    obtain ⟨hinv, hcw, hsub, hroot⟩ :=
      rdStep_spec H sizes s (.symlink i p) ht hInv s' h
    refine ⟨hinv, hcw, hsub, ?_⟩
    intro e u he hfe hu
    rw [RTree.postNodes] at hu
    rcases List.mem_singleton.mp hu with rfl
    have hid := (RForest.findNode_sound_forest F e _ hfe).2
    rw [← hid] at he
    exact hroot he
  | .inaccessible i p, s, s', ht, hInv, h => by
    rw [removeDuplicateFromList] at h
    obtain ⟨hinv, hcw, hsub, hroot⟩ :=
      rdStep_spec H sizes s (.inaccessible i p) ht hInv s' h
    refine ⟨hinv, hcw, hsub, ?_⟩
    intro e u he hfe hu
    rw [RTree.postNodes] at hu
    rcases List.mem_singleton.mp hu with rfl
    have hid := (RForest.findNode_sound_forest F e _ hfe).2
    rw [← hid] at he
    exact hroot he

/-- The filtered-children loop of `remove_duplicate_from_list`; `s0` is
the state whose tags were snapshotted for the filter. -/
theorem removeDupF_spec {F : RForest} {dupl : DuplState} (H : DuplHyps F dupl)
    (sizes : Nat → Option Nat) :
    ∀ (G : RForest) (s0 s s' : XState),
    (∀ u, u ∈ G.toList → u ∈ F.postNodes) →
    XInv F dupl s0 → XInv F dupl s →
    DupWrites s0 s → s.groups.Sublist s0.groups →
    removeDuplicateFromListF F dupl sizes s s0.tags G = some s' →
    XInv F dupl s' ∧ DupWrites s s' ∧ s'.groups.Sublist s.groups ∧
    (∀ e u, s'.tags e = IsContained.duplicate → F.findNode e = some u →
      u ∉ G.postNodes)
  | .nil, s0, s, s', _, _, hInv, _, _, h => by
    rw [removeDuplicateFromListF] at h
    cases h
    refine ⟨hInv, dupWrites_refl s, List.Sublist.refl _, ?_⟩
    intro e u _ _ hu
    rw [RForest.postNodes] at hu
    cases hu
  | .cons c ts, s0, s, s', hsub, hInv0, hInv, hcw0, hgr0, h => by
    rw [removeDuplicateFromListF] at h
    have hcF : c ∈ F.postNodes := hsub c
      (by rw [RForest.toList]; exact List.mem_cons_self _ _)
    have htsF : ∀ u, u ∈ ts.toList → u ∈ F.postNodes := fun u hu =>
      hsub u (by rw [RForest.toList]; exact List.mem_cons_of_mem _ hu)
    split at h
    · rcases h1 : removeDuplicateFromList F dupl sizes s c with _ | s1 <;>
        rw [h1] at h
      · exact Option.noConfusion h
      · obtain ⟨hinv1, hcw1, hsub1, hcomp1⟩ :=
          removeDup_spec H sizes c s s1 hcF hInv h1
        obtain ⟨hinv2, hcw2, hsub2, hcomp2⟩ := removeDupF_spec H sizes ts s0 s1 s'
          htsF hInv0 hinv1 (dupWrites_trans hcw0 hcw1) (hsub1.trans hgr0) h
        refine ⟨hinv2, dupWrites_trans hcw1 hcw2, hsub2.trans hsub1, ?_⟩
        intro e u he hfe hu
        rw [RForest.postNodes] at hu
        rcases List.mem_append.mp hu with hu | hu
        · exact hcomp1 e u (childWrites_dup_back (dupWrites_child hcw2) e he) hfe hu
        · exact hcomp2 e u he hfe hu
    · rename_i hfil
      obtain ⟨hinv2, hcw2, hsub2, hcomp2⟩ := removeDupF_spec H sizes ts s0 s s'
        htsF hInv0 hInv hcw0 hgr0 h
      refine ⟨hinv2, hcw2, hsub2, ?_⟩
      intro e u he hfe hu
      rw [RForest.postNodes] at hu
      rcases List.mem_append.mp hu with hu | hu
      · -- the skipped child cannot hide a `Duplicate` node
        have hse : s.tags e = IsContained.duplicate :=
          childWrites_dup_back (dupWrites_child hcw2) e he
        have hs0e : s0.tags e = IsContained.duplicate :=
          childWrites_dup_back (dupWrites_child hcw0) e hse
        rcases mem_postNodes_cases c u hu with rfl | hd
        · have hid := (RForest.findNode_sound_forest F e _ hfe).2
          exact hfil ((isNodeParentOrDuplicate_true_iff s0.tags u.nodeId).mpr
            (Or.inr (hid ▸ hs0e)))
        · rcases hInv0.i4 e u hs0e hfe c hcF hd with h4 | h4
          · exact hfil ((isNodeParentOrDuplicate_true_iff s0.tags c.nodeId).mpr
              (Or.inl h4))
          · exact hfil ((isNodeParentOrDuplicate_true_iff s0.tags c.nodeId).mpr
              (Or.inr h4))
      · exact hcomp2 e u he hfe hu
end

/-- The removal loop of `add_duplicates_to_list`: invariant preservation
plus: any member still tagged `ParentOfDuplicate` afterwards has no
`Duplicate`-tagged node left anywhere in its subtree. -/
theorem remParentsLoop_spec {F : RForest} {dupl : DuplState} (H : DuplHyps F dupl)
    (sizes : Nat → Option Nat) :
    ∀ (data : List Nat) (s s' : XState), XInv F dupl s →
    remParentsLoop F dupl sizes s data = some s' →
    XInv F dupl s' ∧ DupWrites s s' ∧ s'.groups.Sublist s.groups ∧
    (∀ i ∈ data, s'.tags i = IsContained.parentOfDuplicate →
      ∀ ui, F.findNode i = some ui →
      ∀ e ue, s'.tags e = IsContained.duplicate → F.findNode e = some ue →
        ue ∉ ui.postNodes) := by
  intro data
  induction data with
  | nil =>
    intro s s' hInv h
    rw [remParentsLoop] at h
    cases h
    exact ⟨hInv, dupWrites_refl s, List.Sublist.refl _,
      fun i hi => absurd hi (List.not_mem_nil i)⟩
  | cons j rest ih =>
    intro s s' hInv h
    by_cases htag : s.tags j = IsContained.parentOfDuplicate
    · rcases h1 : F.findNode j with _ | t
      · rw [remParentsLoop, if_pos htag, h1] at h
        exact Option.noConfusion h
      · rw [remParentsLoop_cons_parent F dupl sizes s j rest t htag h1] at h
        rcases h2 : removeDuplicateFromList F dupl sizes s t with _ | s1 <;>
          rw [h2] at h
        · exact Option.noConfusion h
        · have htF : t ∈ F.postNodes := (RForest.findNode_sound_forest F j t h1).1
          obtain ⟨hinv1, hcw1, hsub1, hcomp1⟩ := removeDup_spec H sizes t s s1 htF hInv h2
          obtain ⟨hinv2, hcw2, hsub2, hclean2⟩ := ih s1 s' hinv1 h
          refine ⟨hinv2, dupWrites_trans hcw1 hcw2, hsub2.trans hsub1, ?_⟩
          intro i hi hip ui hui e ue he hfe hue
          rcases List.mem_cons.mp hi with rfl | hi
          · rw [h1] at hui
            injection hui with hui
            subst hui
            exact hcomp1 e ue (childWrites_dup_back (dupWrites_child hcw2) e he) hfe hue
          · exact hclean2 i hi hip ui hui e ue he hfe hue
    · rw [remParentsLoop, if_neg htag] at h
      obtain ⟨hinv2, hcw2, hsub2, hclean2⟩ := ih s s' hInv h
      refine ⟨hinv2, hcw2, hsub2, ?_⟩
      intro i hi hip ui hui e ue he hfe hue
      rcases List.mem_cons.mp hi with rfl | hi
      · exact htag (childWrites_pO_back (dupWrites_child hcw2) i hip)
      · exact hclean2 i hi hip ui hui e ue he hfe hue

/-! ### Structural helpers for the tagging phase of `add_duplicates_to_list` -/

theorem mem_descNodes_iff (t v : RTree) :
    v ∈ t.descNodes ↔ ∃ c ∈ t.childList, v ∈ c.postNodes := by
  cases t with
  | dir i p cs =>
    rw [RTree.descNodes, RTree.childList]
    exact mem_forest_toList cs v
  | file d =>
    show v ∈ ([] : List RTree) ↔ ∃ c ∈ ([] : List RTree), v ∈ c.postNodes
    simp
  | symlink i p =>
    show v ∈ ([] : List RTree) ↔ ∃ c ∈ ([] : List RTree), v ∈ c.postNodes
    simp
  | inaccessible i p =>
    show v ∈ ([] : List RTree) ↔ ∃ c ∈ ([] : List RTree), v ∈ c.postNodes
    simp

theorem foldl_recTag_sets : ∀ (cl : List RTree) (tags : Nat → IsContained)
    (j : Nat), (cl.foldl recursivelyTag tags) j = tags j ∨
      (cl.foldl recursivelyTag tags) j = IsContained.childOfDuplicate := by
  intro cl
  induction cl with
  | nil => intro tags j; exact Or.inl rfl
  | cons c rest ih =>
    intro tags j
    rw [List.foldl_cons]
    rcases ih (recursivelyTag tags c) j with h | h
    · rw [h]
      exact recursivelyTag_mono tags c j
    · exact Or.inr h

theorem descNodes_irrefl (F : RForest) (hN : F.allIds.Nodup) (u : RTree)
    (hu : u ∈ F.postNodes) : u ∉ u.descNodes :=
  fun hd => descNodes_id_ne F hN u hu u hd rfl

/-- A member of some `ancestor_ids` chain implies the queried node exists. -/
theorem ancestorIds_findNode (F : RForest) (x b : Nat)
    (hb : b ∈ F.ancestorIds x) : ∃ u, F.findNode x = some u := by
  rcases hc : F.ancChain x with _ | l
  · rw [RForest.ancestorIds, hc] at hb
    cases hb
  · exact RForest.findNode_complete_forest F x
      (RForest.ancChain_mem_ids_forest F x l hc)

/-- Transitivity of the ancestor-id relation. -/
theorem ancestorIds_trans (F : RForest) (hN : F.allIds.Nodup) (i x b : Nat)
    (u : RTree) (hu : F.findNode i = some u) (hx : x ∈ F.ancestorIds i)
    (hb : b ∈ F.ancestorIds x) : b ∈ F.ancestorIds i := by
  obtain ⟨wx, hfx, hwxP, hdx, _⟩ := ancestorIds_desc F hN i x hx u hu
  obtain ⟨wb, _, hwbP, hdb, hidb⟩ := ancestorIds_desc F hN x b hb wx hfx
  have hub : u ∈ wb.descNodes := descNodes_trans wb wx u hdb hdx
  have h2 := (desc_ancestorIds F hN wb u hwbP hub).1
  have hui : u.nodeId = i := (RForest.findNode_sound_forest F i u hu).2
  rw [hidb, hui] at h2
  exact h2

/-- A node's own id never occurs in its ancestor chain. -/
theorem ancestorIds_not_self (F : RForest) (hN : F.allIds.Nodup) (i : Nat)
    (u : RTree) (hu : F.findNode i = some u) : i ∉ F.ancestorIds i := by
  intro hc
  obtain ⟨w, hfw, hwP, hdw, _⟩ := ancestorIds_desc F hN i i hc u hu
  have : some u = some w := hu.symm.trans hfw
  cases this
  exact descNodes_irrefl F hN u hwP hdw

/-- Step equation of `tagMemberLoop` when the member is found. -/
theorem tagMemberLoop_cons (F : RForest) (tg : Nat → IsContained) (i : Nat)
    (rest : List Nat) (t : RTree) (ht : F.findNode i = some t) :
    tagMemberLoop F tg (i :: rest) =
    tagMemberLoop F (upd (setParentsGo (t.childList.foldl recursivelyTag tg)
      (F.ancestorIds i)) i IsContained.duplicate) rest := by
  rw [tagMemberLoop, ht]

/-- The contained branch's tagging loop: all changes are
`ChildOfDuplicate` tags inside member subtrees, every member subtree ends
fully tagged, and the downward closure survives. -/
theorem tagContainedLoop_spec (F : RForest) (hN : F.allIds.Nodup) :
    ∀ (rem : List Nat) (tg tg' : Nat → IsContained),
    (∀ i ∈ rem, ∃ ui, F.findNode i = some ui) → H7 F tg →
    tagContainedLoop F tg rem = some tg' →
    (∀ j, tg' j = tg j ∨ (tg' j = IsContained.childOfDuplicate ∧
      ∃ i ∈ rem, ∃ ui, F.findNode i = some ui ∧
        ∃ v ∈ ui.postNodes, v.nodeId = j)) ∧
    (∀ i ∈ rem, ∀ ui, F.findNode i = some ui →
      ∀ v ∈ ui.postNodes, tg' v.nodeId = IsContained.childOfDuplicate) ∧
    H7 F tg' := by
  intro rem
  induction rem with
  | nil =>
    intro tg tg' _ h7 h
    rw [tagContainedLoop] at h
    cases h
    exact ⟨fun j => Or.inl rfl, fun i hi => absurd hi (List.not_mem_nil i), h7⟩
  | cons i rest ih =>
    intro tg tg' hpres h7 h
    obtain ⟨ui, hui⟩ := hpres i (List.mem_cons_self _ _)
    rw [tagContainedLoop, hui] at h
    have huiP : ui ∈ F.postNodes := (RForest.findNode_sound_forest F i ui hui).1
    obtain ⟨hcov1, h71⟩ := recursivelyTag_h7 F hN tg ui huiP h7
    obtain ⟨hclass', hcov', h7'⟩ := ih (recursivelyTag tg ui) tg'
      (fun j hj => hpres j (List.mem_cons_of_mem _ hj)) h71 h
    refine ⟨?_, ?_, h7'⟩
    · intro j
      rcases hclass' j with hj | ⟨hj, i2, hi2, u2, hu2, v, hv, hvj⟩
      · rw [hj]
        rcases recursivelyTag_mono tg ui j with h2 | h2
        · exact Or.inl h2
        · by_cases hjs : ∃ v ∈ ui.postNodes, v.nodeId = j
          · obtain ⟨v, hv, hvj⟩ := hjs
            exact Or.inr ⟨h2, i, List.mem_cons_self _ _, ui, hui, v, hv, hvj⟩
          · exact Or.inl (recursivelyTag_frame tg ui j
              (fun hc => hjs (by
                obtain ⟨v, hv, hvj⟩ := List.mem_map.mp hc
                exact ⟨v, hv, hvj⟩)))
      · exact Or.inr ⟨hj, i2, List.mem_cons_of_mem _ hi2, u2, hu2, v, hv, hvj⟩
    · intro i0 hi0 u0 hu0 v hv
      rcases List.mem_cons.mp hi0 with rfl | hi0
      · have hu0ui : some ui = some u0 := hui.symm.trans hu0
        cases hu0ui
        rcases hclass' v.nodeId with hj | ⟨hj, _⟩
        · rw [hj]
          exact hcov1 v hv
        · exact hj
      · exact hcov' i0 hi0 u0 hu0 v hv

/-- The push branch's tagging loop: members end `Duplicate`, their
subtrees `ChildOfDuplicate`, their ancestor chains `ParentOfDuplicate`;
every other id keeps its tag, and the chain (`i8`-style) and downward
closure (`H7`) properties survive. -/
theorem tagMemberLoop_spec (F : RForest) (hN : F.allIds.Nodup) (M : List Nat)
    (hMnest : ∀ i ∈ M, ∀ j ∈ M, i ≠ j → ∀ ui uj, F.findNode i = some ui →
      F.findNode j = some uj → uj ∉ ui.descNodes) :
    ∀ (rem : List Nat) (tg tg' : Nat → IsContained),
    rem ⊆ M → rem.Nodup →
    (∀ i ∈ rem, ∃ ui, F.findNode i = some ui) →
    (∀ i ∈ rem, tg i ≠ IsContained.childOfDuplicate ∧
      tg i ≠ IsContained.duplicate) →
    (∀ i ∈ rem, ∀ ui, F.findNode i = some ui → ∀ e ue,
      tg e = IsContained.duplicate → F.findNode e = some ue →
      ue ∉ ui.postNodes) →
    (∀ x b, tg x = IsContained.parentOfDuplicate → b ∈ F.ancestorIds x →
      tg b = IsContained.parentOfDuplicate ∨ tg b = IsContained.duplicate) →
    (∀ i ∈ rem, ∀ a ∈ F.ancestorIds i, tg a ≠ IsContained.duplicate ∧
      tg a ≠ IsContained.childOfDuplicate) →
    H7 F tg →
    tagMemberLoop F tg rem = some tg' →
    ((∀ j, tg' j = tg j ∨
       (tg' j = IsContained.duplicate ∧ j ∈ rem) ∨
       (tg' j = IsContained.childOfDuplicate ∧ ∃ i ∈ rem, ∃ ui,
         F.findNode i = some ui ∧ ∃ v ∈ ui.descNodes, v.nodeId = j) ∨
       (tg' j = IsContained.parentOfDuplicate ∧ ∃ i ∈ rem, j ∈ F.ancestorIds i)) ∧
     (∀ i ∈ rem, tg' i = IsContained.duplicate) ∧
     (∀ i ∈ rem, ∀ ui, F.findNode i = some ui →
       ∀ v ∈ ui.descNodes, tg' v.nodeId = IsContained.childOfDuplicate) ∧
     (∀ i ∈ rem, ∀ a ∈ F.ancestorIds i,
       tg' a = IsContained.parentOfDuplicate ∨ tg' a = IsContained.duplicate) ∧
     (∀ x b, tg' x = IsContained.parentOfDuplicate → b ∈ F.ancestorIds x →
       tg' b = IsContained.parentOfDuplicate ∨ tg' b = IsContained.duplicate) ∧
     H7 F tg') := by
  intro rem
  induction rem with
  | nil =>
    intro tg tg' _ _ _ _ _ hP3 _ h7 h
    rw [tagMemberLoop] at h
    cases h
    exact ⟨fun j => Or.inl rfl, fun i hi => absurd hi (List.not_mem_nil i),
      fun i hi => absurd hi (List.not_mem_nil i),
      fun i hi => absurd hi (List.not_mem_nil i), hP3, h7⟩
  | cons i rest ih =>
    intro tg tg' hsubM hnd hpres hP1 hP2 hP3 hP5 h7 h
    obtain ⟨ui, hui⟩ := hpres i (List.mem_cons_self _ _)
    obtain ⟨huiP, huiid⟩ := RForest.findNode_sound_forest F i ui hui
    have hiIds : i ∈ F.allIds := List.mem_map.mpr ⟨ui, huiP, huiid⟩
    obtain ⟨l, hl⟩ := RForest.ancChain_complete_forest F i hiIds
    have hlids : F.ancestorIds i = l := by
      rw [RForest.ancestorIds, hl, Option.getD_some]
    rw [tagMemberLoop_cons F tg i rest ui hui, hlids] at h
    set tg1 := ui.childList.foldl recursivelyTag tg with htg1def
    set tg2 := setParentsGo tg1 l with htg2def
    set tg3 := upd tg2 i IsContained.duplicate with htg3def
    have hPof : ∀ (w : RTree), w ∈ F.postNodes → ∀ v ∈ w.descNodes,
        v ∈ F.postNodes := fun w hw v hv =>
      RForest.postNodes_trans_forest F w v hw (descNodes_sub_postNodes w v hv)
    have hdescP : ∀ v ∈ ui.descNodes, v ∈ F.postNodes := hPof ui huiP
    have hclF : ∀ c ∈ ui.childList, c ∈ F.postNodes := fun c hc =>
      RForest.postNodes_trans_forest F ui c huiP
        (RTree.childList_mem_postNodes ui c hc)
    obtain ⟨hcovcl, h71⟩ := foldl_recTag_h7 F hN ui.childList tg hclF h7
    have hcov1 : ∀ v ∈ ui.descNodes,
        tg1 v.nodeId = IsContained.childOfDuplicate := by
      intro v hv
      obtain ⟨c, hc, hvc⟩ := (mem_descNodes_iff ui v).mp hv
      exact hcovcl c hc v hvc
    have hfr1 : ∀ j, (¬ ∃ v ∈ ui.descNodes, v.nodeId = j) → tg1 j = tg j := by
      intro j hj
      refine foldl_recTag_frame ui.childList tg j ?_
      intro c hc hjc
      obtain ⟨v, hv, hvj⟩ := List.mem_map.mp hjc
      exact hj ⟨v, (mem_descNodes_iff ui v).mpr ⟨c, hc, hv⟩, hvj⟩
    have hsets1 : ∀ j, tg1 j = tg j ∨ tg1 j = IsContained.childOfDuplicate :=
      foldl_recTag_sets ui.childList tg
    have hchain_node : ∀ a ∈ l, ∃ wa, F.findNode a = some wa ∧
        wa ∈ F.postNodes ∧ ui ∈ wa.descNodes ∧ wa.nodeId = a := fun a ha =>
      ancestorIds_desc F hN i a (by rw [hlids]; exact ha) ui hui
    have hchain_nsub : ∀ a ∈ l, ¬ ∃ v ∈ ui.descNodes, v.nodeId = a := by
      rintro a ha ⟨v, hv, hvj⟩
      obtain ⟨wa, hfa, hwaP, hdwa, hwaid⟩ := hchain_node a ha
      have hveq : v = wa := postNodes_inj F hN v wa (hdescP v hv) hwaP
        (by rw [hvj, hwaid])
      exact descNodes_irrefl F hN ui huiP
        (descNodes_trans ui v ui hv (by rw [hveq]; exact hdwa))
    have hfr_chain : ∀ a ∈ l, tg1 a = tg a := fun a ha =>
      hfr1 a (hchain_nsub a ha)
    have hiNotSub : ¬ ∃ v ∈ ui.descNodes, v.nodeId = i := by
      rintro ⟨v, hv, hvj⟩
      have hveq : v = ui := postNodes_inj F hN v ui (hdescP v hv) huiP
        (by rw [hvj, huiid])
      exact descNodes_irrefl F hN ui huiP (hveq ▸ hv)
    have hfr_i : tg1 i = tg i := hfr1 i hiNotSub
    have hiNotl : i ∉ l := fun hc =>
      ancestorIds_not_self F hN i ui hui (by rw [hlids]; exact hc)
    -- the `set_parents_of_duplicate` pass over the chain
    have h8' : ∀ x ∈ l, tg1 x = IsContained.parentOfDuplicate →
        ∀ b ∈ F.ancestorIds x, tg1 b = IsContained.parentOfDuplicate ∨
          tg1 b = IsContained.duplicate := by
      intro x hx hxp b hb
      rw [hfr_chain x hx] at hxp
      obtain ⟨wx, hfx, hwxP, hdwx, hwxid⟩ := hchain_node x hx
      obtain ⟨wb, hfwb, hwbP, hdwb, hwbid⟩ := ancestorIds_desc F hN x b hb wx hfx
      have hbns : ¬ ∃ v ∈ ui.descNodes, v.nodeId = b := by
        rintro ⟨v, hv, hvj⟩
        have hveq : v = wb := postNodes_inj F hN v wb (hdescP v hv) hwbP
          (by rw [hvj, hwbid])
        have hwbdesc : wb ∈ ui.descNodes := by rw [← hveq]; exact hv
        have huidesc : ui ∈ wb.descNodes := descNodes_trans wb wx ui hdwb hdwx
        exact descNodes_irrefl F hN ui huiP
          (descNodes_trans ui wb ui hwbdesc huidesc)
      rw [hfr1 b hbns]
      exact hP3 x b hxp hb
    have hnd_chain : ∀ a ∈ l, tg1 a ≠ IsContained.duplicate := by
      intro a ha
      rw [hfr_chain a ha]
      exact (hP5 i (List.mem_cons_self _ _) a (by rw [hlids]; exact ha)).1
    have hchain_pO : ∀ a ∈ l, tg2 a = IsContained.parentOfDuplicate :=
      setParentsGo_spec F hN l tg1 i hl h8' hnd_chain
    have hsets2 : ∀ j, tg2 j = tg1 j ∨ tg2 j = IsContained.parentOfDuplicate :=
      fun j => setParentsGo_mono l tg1 j
    have hfr2 : ∀ j, j ∉ l → tg2 j = tg1 j := fun j hj =>
      setParentsGo_frame l tg1 j hj
    have htg3i : tg3 i = IsContained.duplicate := upd_self tg2 i _
    have htg3ne : ∀ j, j ≠ i → tg3 j = tg2 j := fun j hj => upd_ne tg2 i j _ hj
    -- membership facts about the remaining members
    have hrestM : rest ⊆ M := fun x hx => hsubM (List.mem_cons_of_mem _ hx)
    have hiM : i ∈ M := hsubM (List.mem_cons_self _ _)
    have hiNR : i ∉ rest := (List.nodup_cons.mp hnd).1
    have hndR : rest.Nodup := (List.nodup_cons.mp hnd).2
    have hpres' : ∀ j ∈ rest, ∃ u, F.findNode j = some u := fun j hj =>
      hpres j (List.mem_cons_of_mem _ hj)
    have hnst : ∀ i2 ∈ rest, ∀ u2, F.findNode i2 = some u2 →
        (¬ ∃ v ∈ ui.descNodes, v.nodeId = i2) ∧ i2 ∉ l ∧ i2 ≠ i := by
      intro i2 hi2 u2 hu2
      have hi2M : i2 ∈ M := hrestM hi2
      have hne : i2 ≠ i := fun hc => hiNR (hc ▸ hi2)
      obtain ⟨hu2P, hu2id⟩ := RForest.findNode_sound_forest F i2 u2 hu2
      refine ⟨?_, ?_, hne⟩
      · rintro ⟨v, hv, hvj⟩
        have hveq : v = u2 := postNodes_inj F hN v u2 (hdescP v hv) hu2P
          (by rw [hvj, hu2id])
        exact hMnest i hiM i2 hi2M hne.symm ui u2 hui hu2 (hveq ▸ hv)
      · intro hc
        obtain ⟨wa, hfa, hwaP, hdwa, hwaid⟩ := hchain_node i2 hc
        have hweq : some u2 = some wa := hu2.symm.trans hfa
        cases hweq
        exact hMnest i2 hi2M i hiM hne u2 ui hu2 hui hdwa
    -- the invariant re-established at `tg3` for the remaining members
    have hP1' : ∀ i2 ∈ rest, tg3 i2 ≠ IsContained.childOfDuplicate ∧
        tg3 i2 ≠ IsContained.duplicate := by
      intro i2 hi2
      obtain ⟨u2, hu2⟩ := hpres' i2 hi2
      obtain ⟨hnsub, hnl, hne⟩ := hnst i2 hi2 u2 hu2
      have heq : tg3 i2 = tg i2 := by
        rw [htg3ne i2 hne, hfr2 i2 hnl, hfr1 i2 hnsub]
      rw [heq]
      exact hP1 i2 (List.mem_cons_of_mem _ hi2)
    have hP2' : ∀ i2 ∈ rest, ∀ u2, F.findNode i2 = some u2 → ∀ e ue,
        tg3 e = IsContained.duplicate → F.findNode e = some ue →
        ue ∉ u2.postNodes := by
      intro i2 hi2 u2 hu2 e ue he hfe hmem
      by_cases hei : e = i
      · subst hei
        have hue : some ui = some ue := hui.symm.trans hfe
        cases hue
        rcases mem_postNodes_cases u2 ui hmem with heq | hd
        · obtain ⟨hu2P, hu2id⟩ := RForest.findNode_sound_forest F i2 u2 hu2
          have h2 : e = i2 := by rw [← huiid, heq, hu2id]
          exact (hnst i2 hi2 u2 hu2).2.2 h2.symm
        · exact hMnest i2 (hrestM hi2) e hiM (hnst i2 hi2 u2 hu2).2.2
            u2 ui hu2 hui hd
      · rw [htg3ne e hei] at he
        have h1 : tg1 e = IsContained.duplicate := by
          rcases hsets2 e with h2 | h2
          · rw [h2] at he; exact he
          · rw [h2] at he; cases he
        have h0 : tg e = IsContained.duplicate := by
          rcases hsets1 e with h2 | h2
          · rw [h2] at h1; exact h1
          · rw [h2] at h1; cases h1
        exact hP2 i2 (List.mem_cons_of_mem _ hi2) u2 hu2 e ue h0 hfe hmem
    have hP3' : ∀ x b, tg3 x = IsContained.parentOfDuplicate →
        b ∈ F.ancestorIds x → tg3 b = IsContained.parentOfDuplicate ∨
        tg3 b = IsContained.duplicate := by
      intro x b hx hb
      by_cases hxi : x = i
      · rw [hxi, htg3i] at hx
        cases hx
      · rw [htg3ne x hxi] at hx
        by_cases hxl : x ∈ l
        · have hbl : b ∈ l := by
            have h2 := ancestorIds_trans F hN i x b ui hui
              (by rw [hlids]; exact hxl) hb
            rw [hlids] at h2
            exact h2
          have hbi : b ≠ i := fun hc => hiNotl (hc ▸ hbl)
          rw [htg3ne b hbi]
          exact Or.inl (hchain_pO b hbl)
        · rw [hfr2 x hxl] at hx
          have hx0 : tg x = IsContained.parentOfDuplicate := by
            rcases hsets1 x with h2 | h2
            · rw [h2] at hx; exact hx
            · rw [h2] at hx; cases hx
          by_cases hbi : b = i
          · rw [hbi, htg3i]
            exact Or.inr rfl
          · by_cases hbl : b ∈ l
            · rw [htg3ne b hbi]
              exact Or.inl (hchain_pO b hbl)
            · obtain ⟨ux, hfux⟩ := ancestorIds_findNode F x b hb
              obtain ⟨wb, hfwb, hwbP, hdwb, hwbid⟩ :=
                ancestorIds_desc F hN x b hb ux hfux
              have hbnsub : ¬ ∃ v ∈ ui.descNodes, v.nodeId = b := by
                rintro ⟨v, hv, hvj⟩
                have hveq : v = wb := postNodes_inj F hN v wb (hdescP v hv)
                  hwbP (by rw [hvj, hwbid])
                have hwbd : wb ∈ ui.descNodes := by rw [← hveq]; exact hv
                have huxd : ux ∈ ui.descNodes :=
                  descNodes_trans ui wb ux hwbd hdwb
                have hcv := hcov1 ux huxd
                have huxid : ux.nodeId = x :=
                  (RForest.findNode_sound_forest F x ux hfux).2
                rw [huxid] at hcv
                rw [hcv] at hx
                cases hx
              rw [htg3ne b hbi, hfr2 b hbl, hfr1 b hbnsub]
              exact hP3 x b hx0 hb
    have hP5' : ∀ i2 ∈ rest, ∀ a ∈ F.ancestorIds i2,
        tg3 a ≠ IsContained.duplicate ∧
        tg3 a ≠ IsContained.childOfDuplicate := by
      intro i2 hi2 a ha
      obtain ⟨u2, hu2⟩ := hpres' i2 hi2
      obtain ⟨wa, hfwa, hwaP, hdwa, hwaid⟩ := ancestorIds_desc F hN i2 a ha u2 hu2
      have hne : i2 ≠ i := fun hc => hiNR (hc ▸ hi2)
      have hai : a ≠ i := by
        intro hc
        subst hc
        have hweq : some ui = some wa := hui.symm.trans hfwa
        cases hweq
        exact hMnest a hiM i2 (hrestM hi2) hne.symm ui u2 hui hu2 hdwa
      rw [htg3ne a hai]
      rcases hsets2 a with h2 | h2
      · rw [h2]
        by_cases hasub : ∃ v ∈ ui.descNodes, v.nodeId = a
        · exfalso
          obtain ⟨v, hv, hvj⟩ := hasub
          have hveq : v = wa := postNodes_inj F hN v wa (hdescP v hv) hwaP
            (by rw [hvj, hwaid])
          have hwad : wa ∈ ui.descNodes := by rw [← hveq]; exact hv
          exact hMnest i hiM i2 (hrestM hi2) hne.symm ui u2 hui hu2
            (descNodes_trans ui wa u2 hwad hdwa)
        · rw [hfr1 a hasub]
          exact hP5 i2 (List.mem_cons_of_mem _ hi2) a ha
      · rw [h2]
        exact ⟨fun hc => IsContained.noConfusion hc,
          fun hc => IsContained.noConfusion hc⟩
    have h7_3 : H7 F tg3 := by
      have h72 : H7 F tg2 := by
        intro x hx hxc v hv
        have hx1 : tg1 x.nodeId = IsContained.childOfDuplicate := by
          rcases hsets2 x.nodeId with h2 | h2
          · rw [h2] at hxc; exact hxc
          · rw [h2] at hxc; cases hxc
        have hvc1 : tg1 v.nodeId = IsContained.childOfDuplicate :=
          h71 x hx hx1 v hv
        by_cases hvl : v.nodeId ∈ l
        · exfalso
          rw [hfr_chain v.nodeId hvl] at hvc1
          exact (hP5 i (List.mem_cons_self _ _) v.nodeId
            (by rw [hlids]; exact hvl)).2 hvc1
        · rw [hfr2 v.nodeId hvl]
          exact hvc1
      intro x hx hxc v hv
      have hxi : x.nodeId ≠ i := by
        intro hc
        rw [hc, htg3i] at hxc
        cases hxc
      rw [htg3ne x.nodeId hxi] at hxc
      have hvi : v.nodeId ≠ i := by
        intro hc
        have h2 := h72 x hx hxc v hv
        rw [hc, hfr2 i hiNotl, hfr_i] at h2
        exact (hP1 i (List.mem_cons_self _ _)).1 h2
      rw [htg3ne v.nodeId hvi]
      exact h72 x hx hxc v hv
    obtain ⟨hclass', hdup', hcov', hanc', hP3'', h7''⟩ :=
      ih tg3 tg' hrestM hndR hpres' hP1' hP2' hP3' hP5' h7_3 h
    -- coverage of the head member at `tg3`
    have hcov3 : ∀ v ∈ ui.descNodes,
        tg3 v.nodeId = IsContained.childOfDuplicate := by
      intro v hv
      have h1 := hcov1 v hv
      have hvl : v.nodeId ∉ l := by
        intro hc
        rw [hfr_chain v.nodeId hc] at h1
        exact (hP5 i (List.mem_cons_self _ _) v.nodeId
          (by rw [hlids]; exact hc)).2 h1
      have hvi : v.nodeId ≠ i := fun hc => hiNotSub ⟨v, hv, hc⟩
      rw [htg3ne v.nodeId hvi, hfr2 v.nodeId hvl]
      exact h1
    refine ⟨?_, ?_, ?_, ?_, hP3'', h7''⟩
    · -- write classification
      intro j
      rcases hclass' j with hj | hj | hj | hj
      · by_cases hji : j = i
        · subst hji
          exact Or.inr (Or.inl ⟨by rw [hj, htg3i], List.mem_cons_self _ _⟩)
        · by_cases hjl : j ∈ l
          · refine Or.inr (Or.inr (Or.inr ⟨?_, i, List.mem_cons_self _ _,
              by rw [hlids]; exact hjl⟩))
            rw [hj, htg3ne j hji]
            exact hchain_pO j hjl
          · by_cases hjs : ∃ v ∈ ui.descNodes, v.nodeId = j
            · obtain ⟨v, hv, hvj⟩ := hjs
              refine Or.inr (Or.inr (Or.inl ⟨?_, i, List.mem_cons_self _ _,
                ui, hui, v, hv, hvj⟩))
              rw [hj, ← hvj]
              exact hcov3 v hv
            · refine Or.inl ?_
              rw [hj, htg3ne j hji, hfr2 j hjl, hfr1 j hjs]
      · exact Or.inr (Or.inl ⟨hj.1, List.mem_cons_of_mem _ hj.2⟩)
      · obtain ⟨hc, i2, hi2, u2, hu2, v, hv, hvj⟩ := hj
        exact Or.inr (Or.inr (Or.inl ⟨hc, i2, List.mem_cons_of_mem _ hi2,
          u2, hu2, v, hv, hvj⟩))
      · obtain ⟨hc, i2, hi2, hji2⟩ := hj
        exact Or.inr (Or.inr (Or.inr ⟨hc, i2, List.mem_cons_of_mem _ hi2, hji2⟩))
    · -- every member ends tagged `Duplicate`
      intro i0 hi0
      rcases List.mem_cons.mp hi0 with heq | hi0
      · subst heq
        rcases hclass' i0 with hj | hj | hj | hj
        · rw [hj, htg3i]
        · exact hj.1
        · exfalso
          obtain ⟨hc, i2, hi2, u2, hu2, v, hv, hvj⟩ := hj
          have hu2P := (RForest.findNode_sound_forest F i2 u2 hu2).1
          have hveq : v = ui := postNodes_inj F hN v ui (hPof u2 hu2P v hv)
            huiP (by rw [hvj, huiid])
          have hd : ui ∈ u2.descNodes := by rw [← hveq]; exact hv
          exact hMnest i2 (hrestM hi2) i0 hiM (fun h2 => hiNR (h2 ▸ hi2))
            u2 ui hu2 hui hd
        · exfalso
          obtain ⟨hc, i2, hi2, hji2⟩ := hj
          obtain ⟨u2, hu2⟩ := hpres' i2 hi2
          obtain ⟨wa, hfwa, hwaP, hdwa, hwaid⟩ :=
            ancestorIds_desc F hN i2 i0 hji2 u2 hu2
          have hweq : some ui = some wa := hui.symm.trans hfwa
          cases hweq
          exact hMnest i0 hiM i2 (hrestM hi2) (fun h2 => hiNR (h2 ▸ hi2))
            ui u2 hui hu2 hdwa
      · exact hdup' i0 hi0
    · -- member subtrees end fully `ChildOfDuplicate`
      intro i0 hi0 u0 hu0 v hv
      rcases List.mem_cons.mp hi0 with heq | hi0
      · subst heq
        have hu0eq : some ui = some u0 := hui.symm.trans hu0
        cases hu0eq
        have h1 := hcov3 v hv
        rcases hclass' v.nodeId with hj | hj | hj | hj
        · rw [hj]
          exact h1
        · exact absurd h1 (hP1' v.nodeId hj.2).1
        · exact hj.1
        · obtain ⟨hc, i2, hi2, hji2⟩ := hj
          exact absurd h1 (hP5' i2 hi2 v.nodeId hji2).2
      · exact hcov' i0 hi0 u0 hu0 v hv
    · -- member ancestor chains end `ParentOfDuplicate` (or `Duplicate`)
      intro i0 hi0 a ha
      rcases List.mem_cons.mp hi0 with heq | hi0
      · subst heq
        have hal : a ∈ l := by rw [hlids] at ha; exact ha
        have hai : a ≠ i0 := fun hc => hiNotl (hc ▸ hal)
        have h3 : tg3 a = IsContained.parentOfDuplicate := by
          rw [htg3ne a hai]
          exact hchain_pO a hal
        rcases hclass' a with hj | hj | hj | hj
        · rw [hj]
          exact Or.inl h3
        · exact Or.inr hj.1
        · exfalso
          obtain ⟨hc, i2, hi2, u2, hu2, v, hv, hvj⟩ := hj
          obtain ⟨wa, hfwa, hwaP, hdwa, hwaid⟩ := hchain_node a hal
          have hu2P := (RForest.findNode_sound_forest F i2 u2 hu2).1
          have hveq : v = wa := postNodes_inj F hN v wa (hPof u2 hu2P v hv)
            hwaP (by rw [hvj, hwaid])
          have hwad : wa ∈ u2.descNodes := by rw [← hveq]; exact hv
          exact hMnest i2 (hrestM hi2) i0 hiM (fun h2 => hiNR (h2 ▸ hi2))
            u2 ui hu2 hui (descNodes_trans u2 wa ui hwad hdwa)
        · exact Or.inl hj.1
      · exact hanc' i0 hi0 a ha

/-- Building the extraction invariant for a literal state, with the
fields phrased directly over the tag function and group list. -/
theorem xinv_mk (F : RForest) (dupl : DuplState) (tg : Nat → IsContained)
    (gs : List DuplicateObject)
    (i1 : ∀ G ∈ gs, ∃ n, n ∈ F.allIds ∧ dupl n ≠ [] ∧
      pathsOf F (n :: dupl n) = some G.duplicates ∧
      ∀ j ∈ n :: dupl n, tg j = IsContained.duplicate)
    (i6 : ∀ e, tg e = IsContained.duplicate →
      ∃ G ∈ gs, ∃ n, n ∈ F.allIds ∧ dupl n ≠ [] ∧
        pathsOf F (n :: dupl n) = some G.duplicates ∧ e ∈ n :: dupl n ∧
        ∀ j ∈ n :: dupl n, tg j = IsContained.duplicate)
    (i3 : ∀ e u, tg e = IsContained.duplicate → F.findNode e = some u →
      ∀ v ∈ u.descNodes, tg v.nodeId = IsContained.childOfDuplicate)
    (i4 : ∀ e u, tg e = IsContained.duplicate → F.findNode e = some u →
      ∀ w ∈ F.postNodes, u ∈ w.descNodes →
        tg w.nodeId = IsContained.parentOfDuplicate ∨
        tg w.nodeId = IsContained.duplicate)
    (i8 : ∀ x u, tg x = IsContained.parentOfDuplicate → F.findNode x = some u →
      ∀ w ∈ F.postNodes, u ∈ w.descNodes →
        tg w.nodeId = IsContained.parentOfDuplicate ∨
        tg w.nodeId = IsContained.duplicate)
    (i7 : H7 F tg)
    (i5 : gs.Pairwise
      (fun G G' => pathSetEq G.duplicates G'.duplicates = false)) :
    XInv F dupl ⟨tg, gs⟩ :=
  ⟨i1, i6, i3, i4, i8, i7, i5⟩

/-- `add_duplicates_to_list` preserves the extraction invariant when
called on a duplicate class none of whose members is currently tagged
`Duplicate` (which holds whenever the class is not yet listed). -/
theorem addDuplicatesToList_spec {F : RForest} {dupl : DuplState}
    (H : DuplHyps F dupl) (sizes : Nat → Option Nat) (size : Nat) (n : Nat)
    (s s' : XState) (hInv : XInv F dupl s) (hne : dupl n ≠ [])
    (hnod : ∀ i ∈ n :: dupl n, s.tags i ≠ IsContained.duplicate)
    (h : addDuplicatesToList F dupl sizes size (n :: dupl n) s = some s') :
    XInv F dupl s' := by
  have hN' := H.hN
  have hall : (n :: dupl n).all (fun i => (F.findNode i).isSome) = true := by
    by_contra hc
    rw [addDuplicatesToList, if_neg hc] at h
    exact Option.noConfusion h
  rw [addDuplicatesToList, if_pos hall] at h
  rcases h1 : remParentsLoop F dupl sizes s (n :: dupl n) with _ | s1 <;>
    rw [h1] at h
  · exact Option.noConfusion h
  obtain ⟨hinv1, hcw1, hsub1, hclean1⟩ :=
    remParentsLoop_spec H sizes (n :: dupl n) s s1 hInv h1
  -- facts about the member class at `s1`
  have hM_pres : ∀ i ∈ n :: dupl n, ∃ u, F.findNode i = some u := by
    intro i hi
    have h2 := List.all_eq_true.mp hall i hi
    exact Option.isSome_iff_exists.mp h2
  have hMnodup : (n :: dupl n).Nodup :=
    List.nodup_cons.mpr ⟨H.hirr n, H.hdnd n⟩
  have hMnest : ∀ i ∈ n :: dupl n, ∀ j ∈ n :: dupl n, i ≠ j →
      ∀ ui uj, F.findNode i = some ui → F.findNode j = some uj →
      uj ∉ ui.descNodes := by
    intro i hi j hj hij ui uj hui huj
    have h3 := (clos_eq H (clos_mem_list.mp hi) j).mpr (clos_mem_list.mp hj)
    rcases h3 with h3 | h3
    · exact H.hnest i j h3 ui uj hui huj
    · exact absurd h3.symm hij
  obtain ⟨un, hun⟩ := hM_pres n (List.mem_cons_self _ _)
  obtain ⟨hunP, hunid⟩ := RForest.findNode_sound_forest F n un hun
  have hnF : n ∈ F.allIds := List.mem_map.mpr ⟨un, hunP, hunid⟩
  have hb : ∀ i ∈ n :: dupl n, s1.tags i ≠ IsContained.duplicate :=
    fun i hi hc =>
      hnod i hi (childWrites_dup_back (dupWrites_child hcw1) i hc)
  have hP2' : ∀ i ∈ n :: dupl n, ∀ ui, F.findNode i = some ui → ∀ e ue,
      s1.tags e = IsContained.duplicate → F.findNode e = some ue →
      ue ∉ ui.postNodes := by
    intro i hi ui hui e ue hdup hfe hmem
    obtain ⟨huiP, huiid⟩ := RForest.findNode_sound_forest F i ui hui
    rcases mem_postNodes_cases ui ue hmem with heq | hd
    · have hei : e = i := by
        rw [← (RForest.findNode_sound_forest F e ue hfe).2, heq, huiid]
      rw [hei] at hdup
      exact hb i hi hdup
    · rcases hinv1.i4 e ue hdup hfe ui huiP hd with h4 | h4
      · rw [huiid] at h4
        exact hclean1 i hi h4 ui hui e ue hdup hfe hmem
      · rw [huiid] at h4
        exact hb i hi h4
  have hP3' : ∀ x b, s1.tags x = IsContained.parentOfDuplicate →
      b ∈ F.ancestorIds x → s1.tags b = IsContained.parentOfDuplicate ∨
      s1.tags b = IsContained.duplicate := by
    intro x b hx hb2
    obtain ⟨ux, hfux⟩ := ancestorIds_findNode F x b hb2
    obtain ⟨wb, hfwb, hwbP, hdwb, hwbid⟩ := ancestorIds_desc F hN' x b hb2 ux hfux
    have h4 := hinv1.i8 x ux hx hfux wb hwbP hdwb
    rw [hwbid] at h4
    exact h4
  replace h : (if (n :: dupl n).any
      (fun i => decide (s.tags i = IsContained.childOfDuplicate)) then
        (tagContainedLoop F s1.tags (n :: dupl n)).map
          (fun tg => (⟨tg, s1.groups⟩ : XState))
      else
        match pathsOf F (n :: dupl n) with
        | none => none
        | some ps =>
          (tagMemberLoop F s1.tags (n :: dupl n)).map
            (fun tg => (⟨tg, s1.groups ++ [⟨ps, size⟩]⟩ : XState))) = some s' := h
  split at h
  · -- the contained branch: only `ChildOfDuplicate` writes
    rcases h3 : tagContainedLoop F s1.tags (n :: dupl n) with _ | tgc <;>
      rw [h3] at h
    · exact Option.noConfusion h
    · rw [Option.map_some'] at h
      injection h with h
      subst h
      obtain ⟨hclassC, hcovC, h7C⟩ :=
        tagContainedLoop_spec F hN' (n :: dupl n) s1.tags tgc hM_pres hinv1.i7 h3
      have hfind_of_sub : ∀ (i : Nat), i ∈ (n :: dupl n) → ∀ ui,
          F.findNode i = some ui → ∀ v ∈ ui.postNodes,
          F.findNode v.nodeId = some v := by
        intro i hi ui hui v hv
        exact findNode_self_eq F hN' v (RForest.postNodes_trans_forest F ui v
          (RForest.findNode_sound_forest F i ui hui).1 hv)
      have hdup_keep : ∀ j, s1.tags j = IsContained.duplicate →
          tgc j = IsContained.duplicate := by
        intro j hj
        rcases hclassC j with h4 | ⟨hc, i, hi, ui, hui, v, hv, hvj⟩
        · rw [h4]
          exact hj
        · exfalso
          have hfv : F.findNode j = some v := by
            rw [← hvj]
            exact hfind_of_sub i hi ui hui v hv
          exact hP2' i hi ui hui j v hj hfv hv
      refine xinv_mk F dupl tgc s1.groups ?_ ?_ ?_ ?_ ?_ h7C hinv1.i5
      · -- i1
        intro G hG
        obtain ⟨m, hmF, hmne, hpsm, hallm⟩ := hinv1.i1 G hG
        exact ⟨m, hmF, hmne, hpsm, fun j hj => hdup_keep j (hallm j hj)⟩
      · -- i6
        intro e he
        have hse : s1.tags e = IsContained.duplicate := by
          rcases hclassC e with h4 | ⟨hc, _⟩
          · rw [← h4]
            exact he
          · rw [hc] at he
            cases he
        obtain ⟨G, hG, m, hmF, hmne, hpsm, hein, hallm⟩ := hinv1.i6 e hse
        exact ⟨G, hG, m, hmF, hmne, hpsm, hein,
          fun j hj => hdup_keep j (hallm j hj)⟩
      · -- i3
        intro e ue he hfe v hv
        have hse : s1.tags e = IsContained.duplicate := by
          rcases hclassC e with h4 | ⟨hc, _⟩
          · rw [← h4]; exact he
          · rw [hc] at he; cases he
        have h5 := hinv1.i3 e ue hse hfe v hv
        rcases hclassC v.nodeId with h4 | ⟨hc, _⟩
        · rw [h4]; exact h5
        · exact hc
      · -- i4
        intro e ue he hfe w hw hws
        have hse : s1.tags e = IsContained.duplicate := by
          rcases hclassC e with h4 | ⟨hc, _⟩
          · rw [← h4]; exact he
          · rw [hc] at he; cases he
        rcases hclassC w.nodeId with h4 | ⟨hc, i, hi, ui, hui, v, hv, hvj⟩
        · rw [h4]
          exact hinv1.i4 e ue hse hfe w hw hws
        · exfalso
          have huiP : ui ∈ F.postNodes :=
            (RForest.findNode_sound_forest F i ui hui).1
          have hveq : v = w := postNodes_inj F hN' v w
            (RForest.postNodes_trans_forest F ui v huiP hv) hw hvj
          have hwP : w ∈ ui.postNodes := by rw [← hveq]; exact hv
          have huemem : ue ∈ ui.postNodes := RTree.postNodes_trans ui w ue hwP
            (descNodes_sub_postNodes w ue hws)
          exact hP2' i hi ui hui e ue hse hfe huemem
      · -- i8
        intro x ux hx hfx w hw hws
        have hsx : s1.tags x = IsContained.parentOfDuplicate := by
          rcases hclassC x with h4 | ⟨hc, _⟩
          · rw [← h4]; exact hx
          · rw [hc] at hx; cases hx
        rcases hclassC w.nodeId with h4 | ⟨hc, i, hi, ui, hui, v, hv, hvj⟩
        · rw [h4]
          exact hinv1.i8 x ux hsx hfx w hw hws
        · exfalso
          have huiP : ui ∈ F.postNodes :=
            (RForest.findNode_sound_forest F i ui hui).1
          have hveq : v = w := postNodes_inj F hN' v w
            (RForest.postNodes_trans_forest F ui v huiP hv) hw hvj
          have hwP : w ∈ ui.postNodes := by rw [← hveq]; exact hv
          have huxmem : ux ∈ ui.postNodes := RTree.postNodes_trans ui w ux hwP
            (descNodes_sub_postNodes w ux hws)
          have h5 := hcovC i hi ui hui ux huxmem
          rw [(RForest.findNode_sound_forest F x ux hfx).2] at h5
          rw [h5] at hx
          cases hx
  · -- the push branch
    rename_i hany
    have hnotchild : ∀ i ∈ n :: dupl n,
        s.tags i ≠ IsContained.childOfDuplicate := by
      intro i hi hc
      exact hany (List.any_eq_true.mpr ⟨i, hi, decide_eq_true hc⟩)
    have hP1' : ∀ i ∈ n :: dupl n, s1.tags i ≠ IsContained.childOfDuplicate ∧
        s1.tags i ≠ IsContained.duplicate := by
      intro i hi
      refine ⟨?_, hb i hi⟩
      intro hc
      rcases hcw1 i with h2 | h2
      · rw [h2] at hc
        exact hnotchild i hi hc
      · exact hnod i hi h2.1
    have hP5' : ∀ i ∈ n :: dupl n, ∀ a ∈ F.ancestorIds i,
        s1.tags a ≠ IsContained.duplicate ∧
        s1.tags a ≠ IsContained.childOfDuplicate := by
      intro i hi a ha
      obtain ⟨ui, hui⟩ := hM_pres i hi
      obtain ⟨wa, hfwa, hwaP, hdwa, hwaid⟩ := ancestorIds_desc F hN' i a ha ui hui
      constructor
      · intro hc
        have h3 := hinv1.i3 a wa hc hfwa ui hdwa
        rw [(RForest.findNode_sound_forest F i ui hui).2] at h3
        exact (hP1' i hi).1 h3
      · intro hc
        have h3 := hinv1.i7 wa hwaP (by rw [hwaid]; exact hc) ui hdwa
        rw [(RForest.findNode_sound_forest F i ui hui).2] at h3
        exact (hP1' i hi).1 h3
    rcases h2 : pathsOf F (n :: dupl n) with _ | ps <;> rw [h2] at h
    · exact Option.noConfusion h
    replace h : (tagMemberLoop F s1.tags (n :: dupl n)).map
        (fun tg => (⟨tg, s1.groups ++ [⟨ps, size⟩]⟩ : XState)) = some s' := h
    rcases h3 : tagMemberLoop F s1.tags (n :: dupl n) with _ | tgf <;>
      rw [h3] at h
    · exact Option.noConfusion h
    rw [Option.map_some'] at h
    injection h with h
    subst h
    obtain ⟨hclassF, hdupF, hcovF, hancF, hP3F, h7F⟩ :=
      tagMemberLoop_spec F hN' (n :: dupl n) hMnest (n :: dupl n) s1.tags tgf
        (fun x hx => hx) hMnodup hM_pres hP1' hP2' hP3' hP5' hinv1.i7 h3
    have hdup_keep : ∀ j, s1.tags j = IsContained.duplicate →
        tgf j = IsContained.duplicate := by
      intro j hj
      rcases hclassF j with h4 | h4 | h4 | h4
      · rw [h4]
        exact hj
      · exact h4.1
      · exfalso
        obtain ⟨hc, i, hi, ui, hui, v, hv, hvj⟩ := h4
        have huiP : ui ∈ F.postNodes :=
          (RForest.findNode_sound_forest F i ui hui).1
        have hfv : F.findNode j = some v := by
          rw [← hvj]
          exact findNode_self_eq F hN' v (RForest.postNodes_trans_forest F ui v
            huiP (descNodes_sub_postNodes ui v hv))
        exact hP2' i hi ui hui j v hj hfv (descNodes_sub_postNodes ui v hv)
      · exact absurd hj (hP5' h4.2.choose h4.2.choose_spec.1 j
          h4.2.choose_spec.2).1
    have hchild_keep : ∀ j, s1.tags j = IsContained.childOfDuplicate →
        tgf j = IsContained.childOfDuplicate := by
      intro j hj
      rcases hclassF j with h4 | h4 | h4 | h4
      · rw [h4]
        exact hj
      · exact absurd hj (hP1' j h4.2).1
      · exact h4.1
      · exact absurd hj (hP5' h4.2.choose h4.2.choose_spec.1 j
          h4.2.choose_spec.2).2
    refine xinv_mk F dupl tgf (s1.groups ++ [⟨ps, size⟩]) ?_ ?_ ?_ ?_ ?_ h7F ?_
    · -- i1
      intro G hG
      rcases List.mem_append.mp hG with hG | hG
      · obtain ⟨m, hmF, hmne, hpsm, hallm⟩ := hinv1.i1 G hG
        exact ⟨m, hmF, hmne, hpsm, fun j hj => hdup_keep j (hallm j hj)⟩
      · rcases List.mem_singleton.mp hG with rfl
        exact ⟨n, hnF, hne, h2, hdupF⟩
    · -- i6
      intro e he
      rcases hclassF e with h4 | h4 | h4 | h4
      · rw [h4] at he
        obtain ⟨G, hG, m, hmF, hmne, hpsm, hein, hallm⟩ := hinv1.i6 e he
        exact ⟨G, List.mem_append.mpr (Or.inl hG), m, hmF, hmne, hpsm, hein,
          fun j hj => hdup_keep j (hallm j hj)⟩
      · exact ⟨⟨ps, size⟩, List.mem_append.mpr (Or.inr (List.mem_singleton.mpr
          rfl)), n, hnF, hne, h2, h4.2, hdupF⟩
      · rw [h4.1] at he
        cases he
      · rw [h4.1] at he
        cases he
    · -- i3
      intro e ue he hfe v hv
      rcases hclassF e with h4 | h4 | h4 | h4
      · rw [h4] at he
        exact hchild_keep v.nodeId (hinv1.i3 e ue he hfe v hv)
      · exact hcovF e h4.2 ue hfe v hv
      · rw [h4.1] at he
        cases he
      · rw [h4.1] at he
        cases he
    · -- i4
      intro e ue he hfe w hw hws
      rcases hclassF e with h4 | h4 | h4 | h4
      · rw [h4] at he
        rcases hinv1.i4 e ue he hfe w hw hws with h5 | h5
        · rcases hclassF w.nodeId with h6 | h6 | h6 | h6
          · rw [h6, h5]
            exact Or.inl rfl
          · exact Or.inr h6.1
          · exfalso
            obtain ⟨hc, i, hi, ui, hui, v, hv, hvj⟩ := h6
            have huiP : ui ∈ F.postNodes :=
              (RForest.findNode_sound_forest F i ui hui).1
            have hveq : v = w := postNodes_inj F hN' v w
              (RForest.postNodes_trans_forest F ui v huiP
                (descNodes_sub_postNodes ui v hv)) hw hvj
            have hwd : w ∈ ui.descNodes := by rw [← hveq]; exact hv
            have huemem : ue ∈ ui.postNodes := descNodes_sub_postNodes ui ue
              (descNodes_trans ui w ue hwd hws)
            exact hP2' i hi ui hui e ue he hfe huemem
          · exact Or.inl h6.1
        · exact Or.inr (hdup_keep w.nodeId h5)
      · have h5 := desc_ancestorIds F hN' w ue hw hws
        rw [(RForest.findNode_sound_forest F e ue hfe).2] at h5
        exact hancF e h4.2 w.nodeId h5.1
      · rw [h4.1] at he
        cases he
      · rw [h4.1] at he
        cases he
    · -- i8
      intro x ux hx hfx w hw hws
      have h5 := desc_ancestorIds F hN' w ux hw hws
      rw [(RForest.findNode_sound_forest F x ux hfx).2] at h5
      exact hP3F x w.nodeId hx h5.1
    · -- i5
      refine List.pairwise_append.mpr ⟨hinv1.i5, List.pairwise_singleton _ _, ?_⟩
      intro G hG G' hG'
      rcases List.mem_singleton.mp hG' with rfl
      cases hbool : pathSetEq G.duplicates ps with
      | false => rfl
      | true =>
        exfalso
        obtain ⟨m, hmF, hmne, hpsm, hallm⟩ := hinv1.i1 G hG
        have hcls := class_eq_of_paths H m n G.duplicates ps hpsm h2 hbool
        have hn_in : n ∈ m :: dupl m := (hcls n).mpr (List.mem_cons_self _ _)
        exact hb n (List.mem_cons_self _ _) (hallm n hn_in)

/-- When a node's path is listed in no current group, no member of its
duplicate class is tagged `Duplicate` (else the class's live group would
list the path). -/
theorem notdup_of_containPath {F : RForest} {dupl : DuplState}
    (H : DuplHyps F dupl) (s : XState) (hInv : XInv F dupl s) (t : RTree)
    (ht : t ∈ F.postNodes)
    (hcp : duplicatesContainPath s.groups t.pathOf = false) :
    ∀ i ∈ t.nodeId :: dupl t.nodeId, s.tags i ≠ IsContained.duplicate := by
  intro i hi hc
  obtain ⟨G, hG, m, hmF, hmne, hpsm, hein, hallm⟩ := hInv.i6 i hc
  have h1 : t.nodeId ∈ i :: dupl i := clos_mem_list.mpr
    ((clos_eq H (clos_mem_list.mp hi) t.nodeId).mpr (Or.inr rfl))
  have h2 : t.nodeId ∈ m :: dupl m := clos_mem_list.mpr
    ((clos_eq H (clos_mem_list.mp hein) t.nodeId).mp (clos_mem_list.mp h1))
  have h3 : t.pathOf ∈ G.duplicates := (pathsOf_mem F _ _ hpsm t.pathOf).mpr
    ⟨t.nodeId, h2, getPath_eq F H.hN t ht⟩
  have h4 : duplicatesContainPath s.groups t.pathOf = true := by
    rw [duplicatesContainPath]
    exact List.any_eq_true.mpr ⟨G, hG, decide_eq_true h3⟩
  exact Bool.noConfusion (hcp.symm.trans h4)

mutual
/-- The extraction driver preserves the invariant at each visited
subtree. -/
theorem recGetDup_inv_tree {F : RForest} {dupl : DuplState}
    (H : DuplHyps F dupl) (sizes : Nat → Option Nat) (minSize : Nat) :
    ∀ (t : RTree) (s s' : XState), t ∈ F.postNodes → XInv F dupl s →
    recursivelyGetDuplicates F dupl sizes minSize s t = some s' →
    XInv F dupl s'
  | .file d, s, s', ht, hInv, h => by
    rw [recursivelyGetDuplicates] at h
    split at h
    · cases h
      exact hInv
    · split at h
      · cases h
        exact hInv
      · split at h
        · rename_i hdne hcp hlt
          have hcp' : duplicatesContainPath s.groups d.path = false := by
            cases hb : duplicatesContainPath s.groups d.path
            · rfl
            · exact absurd hb hcp
          exact addDuplicatesToList_spec H sizes d.size d.id s s' hInv hdne
            (notdup_of_containPath H s hInv (.file d) ht hcp') h
        · cases h
          exact hInv
  | .dir i p cs, s, s', ht, hInv, h => by
    have hsub : ∀ u, u ∈ cs.toList → u ∈ F.postNodes := fun u hu =>
      RForest.postNodes_trans_forest F (.dir i p cs) u ht
        (RTree.childList_mem_postNodes (.dir i p cs) u hu)
    rw [recursivelyGetDuplicates] at h
    split at h
    · exact recGetDup_inv_forest H sizes minSize cs s s' hsub hInv h
    · split at h
      · exact recGetDup_inv_forest H sizes minSize cs s s' hsub hInv h
      · rcases hsz : sizes i with _ | sz <;> rw [hsz] at h
        · exact Option.noConfusion h
        · replace h : (if minSize < sz then
              addDuplicatesToList F dupl sizes sz (i :: dupl i) s
            else recursivelyGetDuplicatesF F dupl sizes minSize s cs) =
              some s' := h
          split at h
          · rename_i hdne hcp hlt
            have hcp' : duplicatesContainPath s.groups p = false := by
              cases hb : duplicatesContainPath s.groups p
              · rfl
              · exact absurd hb hcp
            exact addDuplicatesToList_spec H sizes sz i s s' hInv hdne
              (notdup_of_containPath H s hInv (.dir i p cs) ht hcp') h
          · exact recGetDup_inv_forest H sizes minSize cs s s' hsub hInv h
  | .symlink i p, s, s', ht, hInv, h => by
    rw [recursivelyGetDuplicates] at h
    cases h
    exact hInv
  | .inaccessible i p, s, s', ht, hInv, h => by
    rw [recursivelyGetDuplicates] at h
    cases h
    exact hInv

/-- The extraction driver over a sibling forest. -/
theorem recGetDup_inv_forest {F : RForest} {dupl : DuplState}
    (H : DuplHyps F dupl) (sizes : Nat → Option Nat) (minSize : Nat) :
    ∀ (G : RForest) (s s' : XState), (∀ u, u ∈ G.toList → u ∈ F.postNodes) →
    XInv F dupl s →
    recursivelyGetDuplicatesF F dupl sizes minSize s G = some s' →
    XInv F dupl s'
  | .nil, s, s', _, hInv, h => by
    rw [recursivelyGetDuplicatesF] at h
    cases h
    exact hInv
  | .cons t ts, s, s', hsub, hInv, h => by
    rw [recursivelyGetDuplicatesF] at h
    rcases h1 : recursivelyGetDuplicates F dupl sizes minSize s t with _ | s1 <;>
      rw [h1] at h
    · exact Option.noConfusion h
    · have htF : t ∈ F.postNodes := hsub t
        (by rw [RForest.toList]; exact List.mem_cons_self _ _)
      have hinv1 := recGetDup_inv_tree H sizes minSize t s s1 htF hInv h1
      exact recGetDup_inv_forest H sizes minSize ts s1 s'
        (fun u hu => hsub u
          (by rw [RForest.toList]; exact List.mem_cons_of_mem _ hu)) hinv1 h
end

/-- The initial extraction state (all tags `No`, no groups) satisfies the
invariant. -/
theorem xinv_init (F : RForest) (dupl : DuplState) :
    XInv F dupl ⟨fun _ => IsContained.no, []⟩ := by
  refine xinv_mk F dupl _ [] ?_ ?_ ?_ ?_ ?_ ?_ List.Pairwise.nil
  · intro G hG
    cases hG
  · intro e he
    exact IsContained.noConfusion he
  · intro e u he
    exact absurd he (by intro hc; exact IsContained.noConfusion hc)
  · intro e u he
    exact absurd he (by intro hc; exact IsContained.noConfusion hc)
  · intro x u hx
    exact absurd hx (by intro hc; exact IsContained.noConfusion hc)
  · intro x hx hxc
    exact absurd hxc (by intro hc; exact IsContained.noConfusion hc)

/-- On success `runExtractor` yields the group list of an
invariant-satisfying final state. -/
theorem runExtractor_inv (F : RForest) (dupl : DuplState)
    (H : DuplHyps F dupl) (sizes : Nat → Option Nat) (minSize : Nat)
    (gs : List DuplicateObject)
    (h : runExtractor F dupl sizes minSize = some gs) :
    ∃ sf : XState, XInv F dupl sf ∧ sf.groups = gs := by
  rw [runExtractor] at h
  rcases h0 : recursivelyGetDuplicatesF F dupl sizes minSize
      ⟨fun _ => IsContained.no, []⟩ F with _ | sf <;> rw [h0] at h
  · exact Option.noConfusion h
  · rw [Option.map_some'] at h
    injection h with h
    have hroots : ∀ u, u ∈ F.toList → u ∈ F.postNodes := fun u hu =>
      (mem_forest_toList F u).mpr ⟨u, hu, RTree.self_mem_postNodes u⟩
    exact ⟨sf, recGetDup_inv_forest H sizes minSize F _ sf hroots
      (xinv_init F dupl) h0, h⟩

/-- Modelled from the specification's wording (path-component prefix):
`pathUnder q p` holds when `p` followed by the separator is a string
prefix of `q`, i.e. `q` lies strictly below `p` in the directory tree. -/
def pathUnder (q p : OsStr) : Prop :=
  (p.str.toList ++ ['/']) <+: q.str.toList

instance (q p : OsStr) : Decidable (pathUnder q p) :=
  inferInstanceAs (Decidable ((p.str.toList ++ ['/']) <+: q.str.toList))

/-- C1: after extraction completes, no member path of one emitted group
is a path-component prefix of a member path of another (or the same)
emitted group — emitted groups are topmost and pairwise unnested. Proved
for every Equivalence state satisfying `DuplHyps` (duplicate-free ids,
injective paths, coherent mutual duplicate classes of pairwise non-nested
existing nodes) on any forest whose paths reflect the tree structure
(`pathUnder` implies tree descendance). -/
theorem claim1_topmost (F : RForest) (dupl : DuplState)
    (sizes : Nat → Option Nat) (minSize : Nat) (gs : List DuplicateObject)
    (H : DuplHyps F dupl)
    (Hfaith : ∀ u ∈ F.postNodes, ∀ v ∈ F.postNodes,
      pathUnder v.pathOf u.pathOf → v ∈ u.descNodes)
    (h : runExtractor F dupl sizes minSize = some gs) :
    ∀ G1 ∈ gs, ∀ G2 ∈ gs, ∀ p1 ∈ G1.duplicates, ∀ p2 ∈ G2.duplicates,
      ¬ pathUnder p1 p2 := by
  obtain ⟨sf, hinv, hgroups⟩ := runExtractor_inv F dupl H sizes minSize gs h
  intro G1 hG1 G2 hG2 p1 hp1 p2 hp2 hun
  rw [← hgroups] at hG1 hG2
  obtain ⟨n1, hn1F, hn1ne, hps1, hall1⟩ := hinv.i1 G1 hG1
  obtain ⟨n2, hn2F, hn2ne, hps2, hall2⟩ := hinv.i1 G2 hG2
  obtain ⟨j1, hj1, hg1⟩ := (pathsOf_mem F _ _ hps1 p1).mp hp1
  obtain ⟨j2, hj2, hg2⟩ := (pathsOf_mem F _ _ hps2 p2).mp hp2
  obtain ⟨u1, hf1, hp1eq, hid1, hP1⟩ := getPath_char F j1 p1 hg1
  obtain ⟨u2, hf2, hp2eq, hid2, hP2⟩ := getPath_char F j2 p2 hg2
  have hdup1 : sf.tags j1 = IsContained.duplicate := hall1 j1 hj1
  have hdup2 : sf.tags j2 = IsContained.duplicate := hall2 j2 hj2
  have hdesc : u1 ∈ u2.descNodes := Hfaith u2 hP2 u1 hP1
    (by rw [hp1eq, hp2eq]; exact hun)
  have h3 := hinv.i3 j2 u2 hdup2 hf2 u1 hdesc
  rw [hid1] at h3
  rw [h3] at hdup1
  exact IsContained.noConfusion hdup1

/-- A duplicate state pairing the two witness files (ids 2 and 4). -/
def dupl1w : DuplState := fun i =>
  if i = 2 then [4] else if i = 4 then [2] else []

/-- The group list the extractor emits on the witness forest. -/
def GS1w : List DuplicateObject := [⟨[os "/A/x", os "/B/x"], 10⟩]

/-- Concrete run of the extractor on the two-pair witness forest: one
group is emitted and the topmost property holds of it. -/
theorem claim1_witness :
    runExtractor wF dupl1w (fun _ => none) 0 = some GS1w ∧
    ∀ G1 ∈ GS1w, ∀ G2 ∈ GS1w, ∀ p1 ∈ G1.duplicates, ∀ p2 ∈ G2.duplicates,
      ¬ pathUnder p1 p2 := by
  refine ⟨rfl, claim1_topmost wF dupl1w (fun _ => none) 0 GS1w
    ⟨by decide, ?_, ?_, ?_, ?_, ?_, by decide⟩ (by decide) rfl⟩
  · -- irreflexivity
    intro i
    by_cases h2 : i = 2
    · subst h2
      decide
    · by_cases h4 : i = 4
      · subst h4
        decide
      · have he : dupl1w i = [] := by simp [dupl1w, h2, h4]
        rw [he]
        exact List.not_mem_nil i
  · -- duplicate-free member lists
    intro i
    by_cases h2 : i = 2
    · subst h2
      decide
    · by_cases h4 : i = 4
      · subst h4
        decide
      · have he : dupl1w i = [] := by simp [dupl1w, h2, h4]
        rw [he]
        exact List.nodup_nil
  · -- class coherence
    intro i j hj k
    by_cases h2 : i = 2
    · subst h2
      have hj' : j = 4 := List.mem_singleton.mp (show j ∈ [4] from hj)
      subst hj'
      show (k ∈ [2] ∨ k = 4) ↔ (k ∈ [4] ∨ k = 2)
      simp only [List.mem_singleton]
      tauto
    · by_cases h4 : i = 4
      · subst h4
        have hj' : j = 2 := List.mem_singleton.mp (show j ∈ [2] from hj)
        subst hj'
        show (k ∈ [4] ∨ k = 2) ↔ (k ∈ [2] ∨ k = 4)
        simp only [List.mem_singleton]
        tauto
      · exfalso
        have he : dupl1w i = [] := by simp [dupl1w, h2, h4]
        rw [he] at hj
        cases hj
  · -- members exist in the forest
    intro i j hj
    by_cases h2 : i = 2
    · subst h2
      have hj' : j = 4 := List.mem_singleton.mp (show j ∈ [4] from hj)
      subst hj'
      decide
    · by_cases h4 : i = 4
      · subst h4
        have hj' : j = 2 := List.mem_singleton.mp (show j ∈ [2] from hj)
        subst hj'
        decide
      · exfalso
        have he : dupl1w i = [] := by simp [dupl1w, h2, h4]
        rw [he] at hj
        cases hj
  · -- class mates are not nested
    intro i j hj u v hu hv
    by_cases h2 : i = 2
    · subst h2
      have hj' : j = 4 := List.mem_singleton.mp (show j ∈ [4] from hj)
      subst hj'
      have hu2 : some (RTree.file ⟨2, os "/A/x", 10⟩) = some u := hu
      cases hu2
      have hv2 : some (RTree.file ⟨4, os "/B/x", 10⟩) = some v := hv
      cases hv2
      decide
    · by_cases h4 : i = 4
      · subst h4
        have hj' : j = 2 := List.mem_singleton.mp (show j ∈ [2] from hj)
        subst hj'
        have hu2 : some (RTree.file ⟨4, os "/B/x", 10⟩) = some u := hu
        cases hu2
        have hv2 : some (RTree.file ⟨2, os "/A/x", 10⟩) = some v := hv
        cases hv2
        decide
      · exfalso
        have he : dupl1w i = [] := by simp [dupl1w, h2, h4]
        rw [he] at hj
        cases hj

/-- C6 (amended): when the candidate group contains a member tagged
`ChildOfDuplicate`, no new group is pushed — the resulting group list is
a sublist of the incoming one — and every member and all of their
descendants end tagged `ChildOfDuplicate`; the removal loop, however,
has already run, so already-emitted groups may have been removed from
the list. The subtree clause relies on the extractor's maintained
invariant (`XInv`, whose `i7` component is the downward closure `H7` of
`ChildOfDuplicate` that justifies `recursively_tag_as_contained`'s early
return) over an Equivalence state satisfying `DuplHyps`. -/
theorem claim6_contained_no_push (F : RForest) (dupl : DuplState)
    (sizes : Nat → Option Nat) (sz : Nat) (data : List Nat) (s s' : XState)
    (H : DuplHyps F dupl) (hInv : XInv F dupl s)
    (hc : data.any (fun i => decide (s.tags i = IsContained.childOfDuplicate)) = true)
    (h : addDuplicatesToList F dupl sizes sz data s = some s') :
    s'.groups.Sublist s.groups ∧
    (∀ i ∈ data, s'.tags i = IsContained.childOfDuplicate) ∧
    (∀ i ∈ data, ∀ ui, F.findNode i = some ui →
      ∀ v ∈ ui.postNodes, s'.tags v.nodeId = IsContained.childOfDuplicate) := by
  rcases hall : data.all (fun i => (F.findNode i).isSome) with _ | _
  · rw [addDuplicatesToList, if_neg (by simp [hall])] at h
    exact Option.noConfusion h
  · rcases hr : remParentsLoop F dupl sizes s data with _ | s1
    · rw [addDuplicatesToList, if_pos hall, hr] at h
      exact Option.noConfusion h
    · obtain ⟨hinv1, _, _, _⟩ := remParentsLoop_spec H sizes data s s1 hInv hr
      have hM_pres : ∀ i ∈ data, ∃ u, F.findNode i = some u := fun i hi =>
        Option.isSome_iff_exists.mp (List.all_eq_true.mp hall i hi)
      rw [addDuplicatesToList_eq_branch F dupl sizes sz data s s1 hall hr,
        if_pos hc] at h
      rcases ht : tagContainedLoop F s1.tags data with _ | tg <;> rw [ht] at h
      · exact Option.noConfusion h
      · rw [Option.map_some'] at h
        cases h
        obtain ⟨_, hcov, _⟩ := tagContainedLoop_spec F H.hN data s1.tags tg
          hM_pres hinv1.i7 ht
        exact ⟨remParentsLoop_sublist F dupl sizes data s s1 hr,
          (tagContainedLoop_tags F data s1.tags tg ht).1, hcov⟩

/-- A single root file for the C6 witness run. -/
def F6w : RForest := .cons (.file ⟨1, os "/a", 5⟩) .nil

/-- Every node already tagged `ChildOfDuplicate`, no groups listed. -/
def s6w : XState := ⟨fun _ => IsContained.childOfDuplicate, []⟩

/-- Concrete instance of the amended C6 statement: a one-member candidate
already tagged as contained leaves the group list a sublist of itself and
the member and its whole subtree tagged `ChildOfDuplicate`. -/
theorem claim6_witness :
    s6w.groups.Sublist s6w.groups ∧
    s6w.tags 1 = IsContained.childOfDuplicate ∧
    ∀ v ∈ (RTree.file ⟨1, os "/a", 5⟩).postNodes,
      s6w.tags v.nodeId = IsContained.childOfDuplicate := by
  obtain ⟨h1, h2, h3⟩ := claim6_contained_no_push F6w (fun _ => [])
    (fun _ => none) 5 [1] s6w s6w
    ⟨by decide, fun i => List.not_mem_nil i, fun i => List.nodup_nil,
     fun i j hj => absurd hj (List.not_mem_nil j),
     fun i j hj => absurd hj (List.not_mem_nil j),
     fun i j hj => absurd hj (List.not_mem_nil j),
     by decide⟩
    (xinv_mk F6w (fun _ => []) (fun _ => IsContained.childOfDuplicate) []
      (fun G hG => absurd hG (List.not_mem_nil G))
      (fun e he => IsContained.noConfusion he)
      (fun e u he => IsContained.noConfusion he)
      (fun e u he => IsContained.noConfusion he)
      (fun x u hx => IsContained.noConfusion hx)
      (fun x hx hxc v hv => rfl)
      List.Pairwise.nil)
    rfl rfl
  exact ⟨h1, h2 1 (List.mem_singleton.mpr rfl),
    h3 1 (List.mem_singleton.mpr rfl) (RTree.file ⟨1, os "/a", 5⟩) rfl⟩

end DuDe
